import Mathlib

/-!
# HuffmanEncoder: a shallow embedding of `HCTree`

The C++ program keeps the Huffman tree as heap objects linked by raw
pointers (`c0`, `c1`, `p`).  The embedding keeps that shape: the objects
allocated with `new` live in a store (`mem`), a pointer is the position of
an object in the store and `none` is `nullptr`.  Dereferencing a null or
dangling pointer, which is undefined behaviour in C++, makes the embedded
function return `none`.  Loops and recursions over the pointer structure
carry a fuel argument; the top-level functions supply the fuel.

`Helper.hpp` is not among the sources.  Two things it decides are therefore
parameters of the embedding: `tie`, the way the priority queue chooses among
entries of equal minimal `count`, and `eof`, the value `read_bit()` yields at
end of data.  The theorems hold for every `tie` and every `eof`.

An `int` sum is wrapped to 32 bits (`wrap32`).  The counters `index` and
`bitcounter` of `deserialize` are kept as unbounded integers: they count
calls and bits read and stay far below 2^31 on every source a file can hold.
-/

namespace Huffman

/-! ## Collaborators declared in `Helper.hpp` -/

/-- Modelled from the spec: the node type `HCNode` of `Helper.hpp`, which is
not among the sources.  A node holds a weight `count`, a byte `symbol`,
the two child links `c0` (left) and `c1` (right) and the parent link `p`.
The fields are named as `HCTree.cpp` uses them. -/
structure HCNode where
  count : Int
  symbol : Nat
  c0 : Option Nat
  c1 : Option Nat
  p : Option Nat
deriving DecidableEq, Repr

/-- Modelled from the spec: the constructor `HCNode(count, symbol)`; all three
links start as `nullptr`. -/
def HCNode.new (count : Int) (symbol : Nat) : HCNode :=
  { count := count, symbol := symbol, c0 := none, c1 := none, p := none }

/-- Modelled from the spec: the bit source `FancyInputStream` of `Helper.hpp`.
It holds the bits not yet read and the `good` flag that the drivers test
after reading (`compress.cpp`, `decompress.cpp`). -/
structure FancyInputStream where
  bits : List Bool
  good : Bool
deriving DecidableEq, Repr

/-- Modelled from the spec: `read_bit()` yields the next bit as `0` or `1`.
At end of data the call still returns: it clears `good` and yields `eof`, a
value the spec leaves open and that is therefore a parameter. -/
def FancyInputStream.read_bit (eof : Int) (inp : FancyInputStream) : Int × FancyInputStream :=
  match inp.bits with
  | [] => (eof, { bits := [], good := false })
  | b :: rest => ((if b then 1 else 0), { bits := rest, good := inp.good })

/-- A source that holds the given bits and has not failed. -/
def FancyInputStream.ofBits (bs : List Bool) : FancyInputStream :=
  { bits := bs, good := true }

/-- Modelled from the spec: what a caller can ask of the bit sink
`FancyOutputStream`: `write<int>(v)`, `write_bit(b)` and `flush()`. -/
inductive OutCall where
  | writeInt (v : Int)
  | writeBit (b : Bool)
  | flush
deriving DecidableEq, Repr

/-- Modelled from the spec: the bit sink `FancyOutputStream`, kept as the
sequence of calls made on it, oldest first. -/
abbrev FancyOutputStream := List OutCall

/-- The call `out.write_bit(v)` for an `int` argument that is `0` or `1`. -/
def write_bit (out : FancyOutputStream) (v : Int) : FancyOutputStream :=
  out ++ [OutCall.writeBit (decide (v = 1))]

/-- The bits a sequence of sink calls carries, in order (`write_bit` calls). -/
def bitsOf : FancyOutputStream → List Bool
  | [] => []
  | OutCall.writeBit b :: rest => b :: bitsOf rest
  | _ :: rest => bitsOf rest

/-! ## The tree object -/

/-- The class `HCTree`: `root` and `leaves` as declared in `HCTree.hpp`, and
`mem`, the `HCNode` objects allocated so far (a pointer is a position in
`mem`). -/
structure HCTree where
  mem : List HCNode
  root : Option Nat
  leaves : List (Option Nat)
deriving DecidableEq, Repr

/-- The constructor `HCTree()`: `root` is null and `leaves` holds 256 nulls. -/
def HCTree.fresh : HCTree :=
  { mem := [], root := none, leaves := List.replicate 256 none }

/-- The value of an `int` expression after wrapping to 32 bits, two's
complement. -/
def wrap32 (x : Int) : Int := (x + 2147483648) % 4294967296 - 2147483648

/-- The field `count` behind a pointer (0 for a pointer outside the store). -/
def countOf (mem : List HCNode) (x : Nat) : Int :=
  match mem[x]? with
  | some n => n.count
  | none => 0

/-- The assignment `x->p = v`. -/
def setP (mem : List HCNode) (x : Nat) (v : Option Nat) : List HCNode :=
  match mem[x]? with
  | some n => mem.set x { n with p := v }
  | none => mem

/-! ## `std::priority_queue<HCNode*, vector<HCNode*>, HCNodePtrComp>`

The comparator `HCNodePtrComp` is declared in `Helper.hpp`.  The queue is a
min-priority queue on `count`; which of several entries of equal, minimal
`count` is on top is decided by the comparator and by the heap layout.  That
decision is the parameter `tie`: it sees the store and the queue and picks
one of the minimal entries. -/

/-- An entry of the queue whose `count` no other entry undercuts. -/
def isMin (mem : List HCNode) (pq : List Nat) (x : Nat) : Bool :=
  pq.all (fun y => decide (countOf mem x ≤ countOf mem y))

/-- Modelled from the spec: `pq.top()` under `HCNodePtrComp`, an entry of
minimal `count`; `tie` breaks ties. -/
def pq_top (tie : List HCNode → List Nat → Nat) (mem : List HCNode) (pq : List Nat) :
    Option Nat :=
  let cands := pq.filter (isMin mem pq)
  cands[tie mem pq % cands.length]?

/-- The call `pq.push(h)`. -/
def pq_push (pq : List Nat) (h : Nat) : List Nat := pq ++ [h]

/-- The call `pq.pop()` when `x` is on top. -/
def pq_pop (pq : List Nat) (x : Nat) : List Nat := pq.erase x

/-! ## `HCTree::build` -/

/-- One round of the first loop of `build` (lines 46-56) for index `i`.  The
symbol is `(unsigned char)i`.  `leaves` has 256 entries; for a longer table
the C++ assignment `leaves[i] = h` is out of bounds, and `List.set` then
leaves the table as it is. -/
def buildLeaf (freqs : List Int) (st : HCTree × List Nat) (i : Nat) : HCTree × List Nat :=
  if freqs.getD i 0 ≠ 0 then
    let h := st.1.mem.length
    ({ mem := st.1.mem ++ [HCNode.new (freqs.getD i 0) (i % 256)],
       root := st.1.root,
       leaves := st.1.leaves.set i (some h) },
     pq_push st.2 h)
  else st

/-- The first loop of `build`: `for (int i = 0; i < freqTableSize; i++)`. -/
def buildLeaves (freqs : List Int) (t : HCTree) : HCTree × List Nat :=
  (List.range freqs.length).foldl (buildLeaf freqs) (t, [])

/-- The second loop of `build` (lines 63-86): `while (pq.size() > 1)`. -/
def buildLoop (tie : List HCNode → List Nat → Nat) :
    Nat → List HCNode → List Nat → List HCNode × List Nat
  | 0, mem, pq => (mem, pq)
  | fuel + 1, mem, pq =>
    if 1 < pq.length then
      match pq_top tie mem pq with
      | none => (mem, pq)
      | some tree1 =>
        let pq1 := pq_pop pq tree1
        match pq_top tie mem pq1 with
        | none => (mem, pq1)
        | some tree2 =>
          let pq2 := pq_pop pq1 tree2
          let freqSum := wrap32 (countOf mem tree1 + countOf mem tree2)
          let h := mem.length
          let mem1 := mem ++ [{ count := freqSum, symbol := 96,
                                c0 := some tree1, c1 := some tree2, p := none }]
          let mem2 := setP mem1 tree1 (some h)
          let mem3 := setP mem2 tree2 (some h)
          buildLoop tie fuel mem3 (pq_push pq2 h)
    else (mem, pq)

/-- The method `HCTree::build(freqs)`.  Every round of the second loop takes
one entry off the queue, so `pq.length` rounds are enough fuel. -/
def build (tie : List HCNode → List Nat → Nat) (freqs : List Int) (t : HCTree) : HCTree :=
  let s := buildLeaves freqs t
  let r := buildLoop tie s.2.length s.1.mem s.2
  { mem := r.1,
    root := if r.2.length ≠ 0 then pq_top tie r.1 r.2 else none,
    leaves := s.1.leaves }

/-! ## `HCTree::encode` and `HCTree::decode` -/

/-- The object behind a pointer: `none` for `nullptr` and for a pointer that
does not address an allocated node. -/
def deref (mem : List HCNode) (x : Option Nat) : Option HCNode :=
  match x with
  | none => none
  | some i => mem[i]?

/-- The loop `while (currNode != root)` of `encode` (lines 120-130); `tbuf`
collects the bits from the leaf upwards. -/
def encodeLoop (t : HCTree) : Nat → Option Nat → List Int → Option (List Int)
  | 0, _, _ => none
  | fuel + 1, currNode, tbuf =>
    if currNode ≠ t.root then
      match deref t.mem currNode with
      | none => none
      | some n =>
        match deref t.mem n.p with
        | none => none
        | some pn =>
          let tbuf1 :=
            if currNode = pn.c0 then tbuf ++ [0]
            else if currNode = pn.c1 then tbuf ++ [1]
            else tbuf
          encodeLoop t fuel n.p tbuf1
    else some tbuf

/-- The method `HCTree::encode(charToEncode, out)`: the walk from
`leaves[charToEncode]` to `root`, then the recorded bits written in reverse. -/
def encode (t : HCTree) (charToEncode : Nat) (out : FancyOutputStream) :
    Option FancyOutputStream :=
  match t.leaves[charToEncode]? with
  | none => none
  | some currNode =>
    match encodeLoop t (t.mem.length + 1) currNode [] with
    | none => none
    | some tbuf => some (tbuf.reverse.foldl write_bit out)

/-- The loop of `decode` (lines 158-171) and its `return currNode->symbol`. -/
def decodeLoop (eof : Int) (t : HCTree) :
    Nat → Option Nat → FancyInputStream → Option (Nat × FancyInputStream)
  | 0, _, _ => none
  | fuel + 1, currNode, inp =>
    match deref t.mem currNode with
    | none => none
    | some n =>
      if n.c0 ≠ none ∧ n.c1 ≠ none then
        let r := inp.read_bit eof
        if r.1 = 0 then decodeLoop eof t fuel n.c0 r.2
        else decodeLoop eof t fuel n.c1 r.2
      else some (n.symbol, inp)

/-- The method `HCTree::decode(in)`: the decoded symbol and the source after
the call. -/
def decode (eof : Int) (t : HCTree) (inp : FancyInputStream) :
    Option (Nat × FancyInputStream) :=
  decodeLoop eof t (t.mem.length + 1) t.root inp

/-! ## `HCTree::serialization` and `HCTree::serialize` -/

/-- The conversion `char nodeChar = currNode->symbol` on a platform whose
`char` is signed: bytes from 128 on become negative. -/
def toChar (symbol : Nat) : Int :=
  if 128 ≤ symbol % 256 then (symbol % 256 : Nat) - 256 else (symbol % 256 : Nat)

/-- The test `((nodeChar & (1<<i)) >> i) == 1` of line 243. -/
def charBit (nodeChar : Int) (i : Nat) : Bool :=
  decide (Int.shiftRight (Int.land nodeChar (2 ^ i)) i = 1)

/-- The loop `for (int i = byteMSBIndex; i >= 0; i--)` of lines 239-249. -/
def writeSymbol (nodeChar : Int) (out : FancyOutputStream) : FancyOutputStream :=
  [7, 6, 5, 4, 3, 2, 1, 0].foldl
    (fun o i => if charBit nodeChar i then write_bit o 1 else write_bit o 0) out

/-- The method `HCTree::serialization(currNode, out)`. -/
def serialization (t : HCTree) :
    Nat → Option Nat → FancyOutputStream → Option FancyOutputStream
  | 0, _, _ => none
  | fuel + 1, currNode, out =>
    if t.root = none then some out
    else
      let header :=
        if currNode = t.root then
          (deref t.mem currNode).map (fun n => out ++ [OutCall.writeInt n.count])
        else some out
      match header with
      | none => none
      | some out1 =>
        match currNode with
        | none => some out1
        | some c =>
          match t.mem[c]? with
          | none => none
          | some n =>
            let out2 :=
              if n.c0 = none ∧ n.c1 = none then
                writeSymbol (toChar n.symbol) (write_bit out1 1)
              else write_bit out1 0
            match serialization t fuel n.c0 out2 with
            | none => none
            | some out3 => serialization t fuel n.c1 out3

/-- The method `HCTree::serialize(out)`. -/
def serialize (t : HCTree) (out : FancyOutputStream) : Option FancyOutputStream :=
  match serialization t (t.mem.length + 1) t.root out with
  | none => none
  | some out1 => some (out1 ++ [OutCall.flush])

/-! ## `HCTree::deseriallization` and `HCTree::deserialize` -/

/-- What `deseriallization` reads and updates through references and
members: the store, `leaves`, `index`, the source and `bitcounter`. -/
structure DesState where
  mem : List HCNode
  leaves : List (Option Nat)
  index : Int
  inp : FancyInputStream
  bitcounter : Int
deriving DecidableEq, Repr

/-- The assignment of lines 332 and 334 to the `unsigned char decodedChar`. -/
def setCharBit (decodedChar : Nat) (i : Nat) (bit : Int) : Nat :=
  let cleared := Int.land (decodedChar : Int) (Int.lnot (2 ^ i))
  let r := if bit = 1 then Int.lor cleared (2 ^ i) else Int.lor cleared 0
  (r % 256).toNat

/-- One round of the loop of lines 322-336. -/
def readSymbolBit (eof : Int) (st : Nat × FancyInputStream × Int) (i : Nat) :
    Nat × FancyInputStream × Int :=
  let r := st.2.1.read_bit eof
  (setCharBit st.1 i r.1, r.2, st.2.2 + 1)

/-- The loop `for (int i = 7; i >= 0; i--)` of lines 322-336: the symbol, the
source and `bitcounter` after it. -/
def readSymbol (eof : Int) (inp : FancyInputStream) (bitcounter : Int) :
    Nat × FancyInputStream × Int :=
  [7, 6, 5, 4, 3, 2, 1, 0].foldl (readSymbolBit eof) (0, inp, bitcounter)

/-- The assignment `x->c0 = v`. -/
def setC0 (mem : List HCNode) (x : Nat) (v : Option Nat) : List HCNode :=
  match mem[x]? with
  | some n => mem.set x { n with c0 := v }
  | none => mem

/-- The assignment `x->c1 = v`. -/
def setC1 (mem : List HCNode) (x : Nat) (v : Option Nat) : List HCNode :=
  match mem[x]? with
  | some n => mem.set x { n with c1 := v }
  | none => mem

/-- The method `HCTree::deseriallization(index, len, in, bitcounter)`: the
returned pointer and the state after the call. -/
def deseriallization (eof : Int) (len : Int) :
    Nat → DesState → Option (Option Nat × DesState)
  | 0, _ => none
  | fuel + 1, st =>
    if st.index ≥ len then some (none, st)
    else
      let r := st.inp.read_bit eof
      let st1 := { st with inp := r.2, bitcounter := st.bitcounter + 1 }
      if r.1 = 0 then
        let curr := st1.mem.length
        let st2 := { st1 with mem := st1.mem ++ [HCNode.new 0 96], index := st1.index + 1 }
        match deseriallization eof len fuel st2 with
        | none => none
        | some (l, st3) =>
          let st4 := { st3 with mem := setC0 st3.mem curr l, index := st3.index + 1 }
          match deseriallization eof len fuel st4 with
          | none => none
          | some (r1, st5) => some (some curr, { st5 with mem := setC1 st5.mem curr r1 })
      else
        let s := readSymbol eof st1.inp st1.bitcounter
        let curr := st1.mem.length
        some (some curr,
          { st1 with mem := st1.mem ++ [HCNode.new 0 s.1],
                     leaves := st1.leaves.set s.1 (some curr),
                     inp := s.2.1, bitcounter := s.2.2 })

/-- The loop of lines 373-375: `n` calls of `in.read_bit()` whose results
are dropped. -/
def skipBits (eof : Int) : Nat → FancyInputStream → FancyInputStream
  | 0, inp => inp
  | n + 1, inp => skipBits eof n (inp.read_bit eof).2

/-- The recursive walk of `deserialize` (line 365).  A nested call runs with
a larger `index` than its caller and returns at once when `index >= len`, so
`len + 1` levels are enough fuel. -/
def deserializeWalk (eof : Int) (len : Int) (t : HCTree) (inp : FancyInputStream) :
    Option (Option Nat × DesState) :=
  deseriallization eof len (len.toNat + 1)
    { mem := t.mem, leaves := t.leaves, index := 0, inp := inp, bitcounter := 0 }

/-- The method `HCTree::deserialize(len, in)`: the tree and the source after
the call. -/
def deserialize (eof : Int) (len : Int) (t : HCTree) (inp : FancyInputStream) :
    Option (HCTree × FancyInputStream) :=
  match deserializeWalk eof len t inp with
  | none => none
  | some (r, st) =>
    some ({ mem := st.mem, root := r, leaves := st.leaves },
          skipBits eof (8 - st.bitcounter % 8).toNat st.inp)

/-! ## The tree a pointer unfolds to

The proofs read the pointer structure through the finite tree it unfolds
to: `Rep mem T x` says that the node at `x` and everything below it, linked
by `c0` and `c1`, is the tree `T` (the parent links are not looked at). -/

/-- A finite binary tree: `count` at every node, `symbol` at the leaves. -/
inductive Tree where
  | leaf (count : Int) (symbol : Nat)
  | node (count : Int) (l r : Tree)
deriving DecidableEq, Repr

/-- The weight stored at the top node. -/
def Tree.count : Tree → Int
  | .leaf c _ => c
  | .node c _ _ => c

/-- The number of links on the longest way from the top to a leaf. -/
def Tree.height : Tree → Nat
  | .leaf _ _ => 0
  | .node _ l r => max l.height r.height + 1

/-- The number of nodes. -/
def Tree.size : Tree → Nat
  | .leaf _ _ => 1
  | .node _ l r => l.size + r.size + 1

/-- The leaves from left to right, each as `(count, symbol)`. -/
def Tree.leafList : Tree → List (Int × Nat)
  | .leaf c s => [(c, s)]
  | .node _ l r => l.leafList ++ r.leafList

/-- The subtree reached from the top by a bit sequence (`false` is `c0`). -/
def Tree.sub : Tree → List Bool → Option Tree
  | t, [] => some t
  | .leaf _ _, _ :: _ => none
  | .node _ l r, b :: bs => if b then r.sub bs else l.sub bs

/-- The sum over the leaves of `count` times depth, counted from `d`. -/
def Tree.costFrom : Tree → Nat → Int
  | .leaf c _, d => c * d
  | .node _ l r, d => l.costFrom (d + 1) + r.costFrom (d + 1)

/-- The weighted path length: the sum over the leaves of `count` times depth. -/
def Tree.cost (t : Tree) : Int := t.costFrom 0

/-- The tree with every `count` set to 0: shape and leaf symbols only. -/
def Tree.shape : Tree → Tree
  | .leaf _ s => .leaf 0 s
  | .node _ l r => .node 0 l.shape r.shape

/-- The node at `x` and all it links to through `c0` and `c1` unfold to `T`.
An inner node has two non-null children; a leaf has two null children. -/
def Rep (mem : List HCNode) : Tree → Nat → Prop
  | .leaf c s, x =>
    match mem[x]? with
    | some n => n.count = c ∧ n.symbol = s ∧ n.c0 = none ∧ n.c1 = none
    | none => False
  | .node c l r, x =>
    match mem[x]? with
    | some n =>
      n.count = c ∧
        (match n.c0, n.c1 with
         | some a, some b => Rep mem l a ∧ Rep mem r b
         | _, _ => False)
    | none => False

/-- The child link a bit selects: `c0` for `false`, `c1` for `true`. -/
def HCNode.child (n : HCNode) (b : Bool) : Option Nat := if b then n.c1 else n.c0

/-- The node reached from `x` by following child links as the bits say. -/
def ptrAt (mem : List HCNode) : Nat → List Bool → Option Nat
  | x, [] => some x
  | x, b :: bs =>
    match mem[x]? with
    | some n =>
      match n.child b with
      | some y => ptrAt mem y bs
      | none => none
    | none => none

/-- The preorder encoding as the format describes it: bit 1 and the 8 bits
of the symbol, most significant first, for a leaf; bit 0, then the left
subtree, then the right subtree for an inner node. -/
def Tree.enc : Tree → List Bool
  | .leaf _ s => true :: ([7, 6, 5, 4, 3, 2, 1, 0].map (fun i => Nat.testBit s i))
  | .node _ l r => false :: (l.enc ++ r.enc)

/-- The sink calls `write_bit(b)` for a sequence of bits. -/
def bitCalls (bs : List Bool) : FancyOutputStream := bs.map OutCall.writeBit

/-- Two stores agree when every node of the first is found in the second at
the same place with the same `count`, `symbol`, `c0` and `c1`. -/
def Agree (mem mem1 : List HCNode) : Prop :=
  ∀ (x : Nat) (n : HCNode), mem[x]? = some n →
    ∃ n1 : HCNode, mem1[x]? = some n1 ∧ n1.count = n.count ∧ n1.symbol = n.symbol ∧
      n1.c0 = n.c0 ∧ n1.c1 = n.c1

/-- What `decode` computes, read off the tree: at an inner node one bit is
read and selects the child, at a leaf the symbol is returned. -/
def Tree.decode (eof : Int) : Tree → FancyInputStream → Nat × FancyInputStream
  | .leaf _ s, inp => (s, inp)
  | .node _ l r, inp =>
    if (inp.read_bit eof).1 = 0 then l.decode eof (inp.read_bit eof).2
    else r.decode eof (inp.read_bit eof).2

/-- The field `p` behind a pointer. -/
def parentOf (mem : List HCNode) (x : Nat) : Option Nat :=
  match mem[x]? with
  | some n => n.p
  | none => none

/-- The parent links below `x` are in place: the two children of every
inner node are different nodes and both name that node as their parent. -/
def Linked (mem : List HCNode) : Tree → Nat → Prop
  | .leaf _ _, _ => True
  | .node _ l r, x =>
    match mem[x]? with
    | some n =>
      match n.c0, n.c1 with
      | some a, some b =>
        a ≠ b ∧ parentOf mem a = some x ∧ parentOf mem b = some x ∧
          Linked mem l a ∧ Linked mem r b
      | _, _ => False
    | none => False

/-- The value `encode` pushes on `tbuf` for a step to the right (`true`) or
to the left (`false`). -/
def bitInt (b : Bool) : Int := if b then 1 else 0

/-- Every parent link that is set in the first store is the same in the
second. -/
def KeepP (mem mem1 : List HCNode) : Prop :=
  ∀ (a y : Nat), parentOf mem a = some y → parentOf mem1 a = some y

/-- The state of the second loop of `build`: the queue holds the roots of
the trees `F`, which live in the store with their parent links in place; a
root has no parent yet; every symbol recorded in `leaves` is a leaf of one
of the trees. -/
structure Inv (freqs : List Int) (mem : List HCNode) (leaves : List (Option Nat))
    (F : List (Nat × Tree)) : Prop where
  nodup : (F.map Prod.fst).Nodup
  rep : ∀ e ∈ F, Rep mem e.2 e.1
  linked : ∀ e ∈ F, Linked mem e.2 e.1
  rootp : ∀ e ∈ F, parentOf mem e.1 = none
  full : ∀ (x : Nat) (n : HCNode), mem[x]? = some n → (n.c0 = none ↔ n.c1 = none)
  leaf : ∀ (s x : Nat), leaves[s]? = some (some x) →
    ∃ e ∈ F, ∃ bs, ptrAt mem e.1 bs = some x ∧
      e.2.sub bs = some (.leaf (freqs.getD s 0) (s % 256))

/-- One round of the second loop of `build`, seen on the trees in the queue:
a tree `t1` of minimal `count` and a tree `t2` of minimal `count` among the
others are replaced by a node above them that carries the wrapped sum. -/
def Step (F F1 : Multiset Tree) : Prop :=
  ∃ (t1 t2 : Tree) (R : Multiset Tree), F = t1 ::ₘ t2 ::ₘ R ∧
    (∀ t ∈ F, t1.count ≤ t.count) ∧ (∀ t ∈ t2 ::ₘ R, t2.count ≤ t.count) ∧
    F1 = Tree.node (wrap32 (t1.count + t2.count)) t1 t2 ::ₘ R

/-- Any number of rounds of the second loop of `build`. -/
inductive Steps : Multiset Tree → Multiset Tree → Prop
  | refl (F : Multiset Tree) : Steps F F
  | step (F F1 F2 : Multiset Tree) : Step F F1 → Steps F1 F2 → Steps F F2

/-- The indices below `n` whose frequency is not zero, in increasing order:
the symbols for which the first loop of `build` has made a leaf after `n`
rounds. -/
def syms (freqs : List Int) (n : Nat) : List Nat :=
  (List.range n).filter (fun i => decide (freqs.getD i 0 ≠ 0))

/-- The leaf node that the first loop of `build` allocates for index `s`. -/
def newLeaf (freqs : List Int) (s : Nat) : HCNode := HCNode.new (freqs.getD s 0) (s % 256)

/-- The one-leaf tree that the first loop of `build` queues for index `s`. -/
def leafTree (freqs : List Int) (s : Nat) : Tree := Tree.leaf (freqs.getD s 0) (s % 256)

/-- The queue after the first loop of `build`, as trees: the k-th symbol of
nonzero frequency is a one-leaf tree behind pointer `k`. -/
def leafForest (freqs : List Int) : List (Nat × Tree) :=
  ((syms freqs freqs.length).enum).map (fun p => (p.1, leafTree freqs p.2))

/-- The textbook frequency table `a:5, b:9, c:12, d:13, e:16, f:45`, all other
bytes 0. -/
def exFreqs : List Int :=
  List.replicate 97 0 ++ [5, 9, 12, 13, 16, 45] ++ List.replicate 153 0

/-- A frequency table with a single nonzero entry: byte 65 occurs 3 times. -/
def oneFreqs : List Int := List.replicate 65 0 ++ [3] ++ List.replicate 190 0

/-- A store with three nodes: an inner node of weight 5 above the leaves
`a` (weight 2) and byte 200 (weight 3). -/
def smallMem : List HCNode :=
  [{ count := 5, symbol := 96, c0 := some 1, c1 := some 2, p := none },
   { count := 2, symbol := 97, c0 := none, c1 := none, p := some 0 },
   { count := 3, symbol := 200, c0 := none, c1 := none, p := some 0 }]

/-- The tree object over `smallMem`. -/
def smallTree : HCTree :=
  { mem := smallMem,
    root := some 0,
    leaves := (((List.replicate 256 none).set 97 (some 1)).set 200 (some 2)) }

/-- The nodes `deseriallization` allocates for the encoding of a tree, in
the order of allocation, when the first of them gets address `x`: a node, then
its left subtree, then its right subtree; every `count` is 0. -/
def layout : Tree → Nat → List HCNode
  | .leaf _ s, _ => [HCNode.new 0 s]
  | .node _ l r, x =>
    { count := 0, symbol := 96, c0 := some (x + 1), c1 := some (x + 1 + l.size), p := none }
      :: (layout l (x + 1) ++ layout r (x + 1 + l.size))

/-- The table `leaves` after `deseriallization` has read the encoding of a
tree whose first node gets address `x`. -/
def layLeaves : Tree → Nat → List (Option Nat) → List (Option Nat)
  | .leaf _ s, x, leaves => leaves.set s (some x)
  | .node _ l r, x, leaves => layLeaves r (x + 1 + l.size) (layLeaves l (x + 1) leaves)

/-- Every leaf symbol is a byte. -/
def Tree.Bytes (T : Tree) : Prop := ∀ p ∈ T.leafList, p.2 < 256

/-- The symbols at the leaves, from left to right. -/
def Tree.symbols (T : Tree) : List Nat := T.leafList.map Prod.snd

/-- All leaves of the trees of a queue, each as `(count, symbol)`. -/
def leavesOf (F : Multiset Tree) : Multiset (Int × Nat) :=
  F.bind (fun t => (t.leafList : Multiset (Int × Nat)))

/-- The `count` of every inner node is the sum of the counts of its two
children. -/
def Tree.Summed : Tree → Prop
  | .leaf _ _ => True
  | .node c l r => c = l.count + r.count ∧ l.Summed ∧ r.Summed

/-- No round of the second loop of `build` can overflow: the counts in the
queue are not negative and their sum fits in a signed 32-bit integer. -/
def NoOvf (F : Multiset Tree) : Prop :=
  (∀ t ∈ F, 0 ≤ t.count) ∧ (F.map Tree.count).sum < 2147483648

/-- What a call of `deseriallization` guarantees, from state `st` to state
`st1` with result `r`, whatever the source holds: `ext` are the nodes the
call has allocated. -/
structure DesPost (len : Int) (st : DesState) (r : Option Nat) (st1 : DesState)
    (ext : List HCNode) : Prop where
  mem_eq : st1.mem = st.mem ++ ext
  index_le : st.index ≤ st1.index
  null_iff : r = none ↔ len ≤ st.index
  result : ∀ x, r = some x → x = st.mem.length ∧ ext ≠ []
  children : ∀ n ∈ ext, (n.c0 = none ∧ n.c1 = none) ∨ (n.c0 ≠ none ∧ n.c1 ≠ none) ∨
    (n.c0 ≠ none ∧ n.c1 = none ∧ len ≤ st1.index)
  parents : ∀ n ∈ ext, n.p = none
  nodes_le_index : (ext.length : Int) ≤ st1.index + 1 - st.index
  nodes_le_len : st.index ≤ len → (ext.length : Int) ≤ len - st.index
  nodes_zero : len ≤ st.index → ext = []
  counter_le : st.bitcounter ≤ st1.bitcounter
  counter_nodes : st1.bitcounter - st.bitcounter ≤ 9 * (ext.length : Int)
  bits : st1.inp.bits = st.inp.bits.drop (st1.bitcounter - st.bitcounter).toNat
  leaves_length : st1.leaves.length = st.leaves.length

/-- The Kraft sum of a list of code words: the sum of `2 ^ (-length)`. -/
def kraftSum (cs : List (List Bool)) : ℚ := (cs.map (fun c => (1 / 2 : ℚ) ^ c.length)).sum

/-- The code words that start with bit `b`, without that bit. -/
def tailsOf (b : Bool) (cs : List (List Bool)) : List (List Bool) :=
  cs.filterMap (fun c => match c with
    | [] => none
    | x :: r => if x = b then some r else none)

/-- No one of two code words is the beginning of the other. -/
def Apart (a b : List Bool) : Prop := ¬ a <+: b ∧ ¬ b <+: a

/-- The cost of an assignment of code lengths: the sum of weight times
length over its entries `(weight, length)`. -/
def acost (l : Multiset (Int × Nat)) : Int := (l.map (fun p => p.1 * (p.2 : Int))).sum

/-- The Kraft sum of a multiset of code lengths. -/
def dkraft (ds : Multiset Nat) : ℚ := (ds.map (fun d => (1 / 2 : ℚ) ^ d)).sum

/-- The merge cost of Huffman's algorithm on a multiset of weights: `Huff W c`
says that merging two least weights again and again, down to one weight,
adds up to `c`. -/
inductive Huff : Multiset Int → Int → Prop
  | single (w : Int) : Huff {w} 0
  | step (a b : Int) (R : Multiset Int) (c : Int) :
      (∀ w ∈ a ::ₘ b ::ₘ R, a ≤ w) → (∀ w ∈ b ::ₘ R, b ≤ w) →
      Huff ((a + b) ::ₘ R) c → Huff (a ::ₘ b ::ₘ R) (c + a + b)

/-- The number of bits `encode` writes for a symbol (0 when `encode` is not
defined for it). -/
def codeLen (t : HCTree) (s : Nat) : Nat :=
  match encode t s [] with
  | some out => (bitsOf out).length
  | none => 0

/-- The weighted path length of a code for a frequency table: the sum over
the symbols of frequency times code length. -/
def wpl (freqs : List Int) (len : Nat → Nat) : Int :=
  ((List.range freqs.length).map (fun s => freqs.getD s 0 * (len s : Int))).sum

/-- A binary prefix code over the symbols of nonzero frequency: the code word
of one symbol is never the beginning of the code word of another. -/
def PrefixFree (freqs : List Int) (code : Nat → List Bool) : Prop :=
  ∀ s ∈ syms freqs freqs.length, ∀ t ∈ syms freqs freqs.length, s ≠ t →
    ¬ (code s <+: code t)

/-- The leaves from left to right, each with the way that leads to it. -/
def Tree.paths : Tree → List (List Bool × Int × Nat)
  | .leaf c s => [([], c, s)]
  | .node _ l r =>
    l.paths.map (fun p => (false :: p.1, p.2)) ++ r.paths.map (fun p => (true :: p.1, p.2))

/-- The entry on top of the queue when exactly one entry has minimal
`count`, so that no tie has to be broken. -/
def uniqueTop (mem : List HCNode) (pq : List Nat) : Option Nat :=
  match pq.filter (isMin mem pq) with
  | [x] => some x
  | _ => none

/-- The second loop of `build` as long as no tie occurs: `none` as soon as
two entries share the minimal `count`. -/
def buildLoopU : Nat → List HCNode → List Nat → Option (List HCNode × List Nat)
  | 0, mem, pq => some (mem, pq)
  | fuel + 1, mem, pq =>
    if 1 < pq.length then
      match uniqueTop mem pq with
      | none => none
      | some tree1 =>
        let pq1 := pq_pop pq tree1
        match uniqueTop mem pq1 with
        | none => none
        | some tree2 =>
          let pq2 := pq_pop pq1 tree2
          let freqSum := wrap32 (countOf mem tree1 + countOf mem tree2)
          let h := mem.length
          let mem1 := mem ++ [{ count := freqSum, symbol := 96,
                                c0 := some tree1, c1 := some tree2, p := none }]
          let mem2 := setP mem1 tree1 (some h)
          let mem3 := setP mem2 tree2 (some h)
          buildLoopU fuel mem3 (pq_push pq2 h)
    else some (mem, pq)

/-- A table of four entries of 2^30 each, all other bytes 0: the sum, 2^32,
does not fit in an `int`. -/
def bigFreqs : List Int :=
  [1073741824, 1073741824, 1073741824, 1073741824] ++ List.replicate 252 0

/-- The fixed-length code of two bits for the bytes 0 to 3. -/
def twoBit (s : Nat) : List Bool := [Nat.testBit s 1, Nat.testBit s 0]

/-- A fixed-length code of three bits for the bytes `a` to `f`. -/
def exCode (s : Nat) : List Bool :=
  [Nat.testBit (s - 97) 2, Nat.testBit (s - 97) 1, Nat.testBit (s - 97) 0]

/-! ## The drivers `compress.cpp` and `decompress.cpp`

A file is the list of its bytes.  The members of `FancyInputStream` and
`FancyOutputStream` that move whole bytes and integers between a file and the
program are declared in `Helper.hpp`; they are modelled from the spec. -/

/-- The first loop of `main` in `compress.cpp` (lines 57-67): one round for
every byte of the input file, `symFreq[nextChar]++` on an `int`. -/
def compress.count : List Nat → List Int → List Int
  | [], symFreq => symFreq
  | nextChar :: rest, symFreq =>
    compress.count rest
      (symFreq.set (nextChar % 256) (wrap32 (symFreq.getD (nextChar % 256) 0 + 1)))

/-- The second loop of `main` in `compress.cpp` (lines 84-96): one call of
`encode` for every byte of the input file. -/
def compress.payload (t : HCTree) : List Nat → FancyOutputStream → Option FancyOutputStream
  | [], out => some out
  | nextChar :: rest, out =>
    match encode t (nextChar % 256) out with
    | none => none
    | some out1 => compress.payload t rest out1

/-- The function `main` of `compress.cpp` on an input file: the calls made on
the output stream. -/
def compress.main (tie : List HCNode → List Nat → Nat) (file : List Nat) :
    Option FancyOutputStream :=
  let symFreq := compress.count file (List.replicate 256 0)
  let huffTree := build tie symFreq HCTree.fresh
  match serialize huffTree [] with
  | none => none
  | some out =>
    match compress.payload huffTree file out with
    | none => none
    | some out1 => some (out1 ++ [OutCall.flush])

/-- Modelled from the spec: the four bytes `write<int>(v)` puts in the file,
least significant first. -/
def intBytes (v : Int) : List Nat :=
  let u := (v % 4294967296).toNat
  [u % 256, u / 256 % 256, u / 65536 % 256, u / 16777216 % 256]

/-- The byte that holds the given bits, most significant first. -/
def packByte (bs : List Bool) : Nat := bs.foldl (fun a b => 2 * a + (if b then 1 else 0)) 0

/-- Modelled from the spec: the effect of one call on the output stream, on
the bytes in the file and the bits waiting for a full byte.  `flush()` pads
the waiting bits with zeros. -/
def sinkStep (s : List Nat × List Bool) : OutCall → List Nat × List Bool
  | OutCall.writeInt v => (s.1 ++ intBytes v, s.2)
  | OutCall.writeBit b =>
    if (s.2 ++ [b]).length = 8 then (s.1 ++ [packByte (s.2 ++ [b])], []) else (s.1, s.2 ++ [b])
  | OutCall.flush =>
    if s.2 = [] then s
    else (s.1 ++ [packByte (s.2 ++ List.replicate (8 - s.2.length) false)], [])

/-- Modelled from the spec: the file a sequence of calls on the output stream
leaves behind. -/
def fileOf (out : FancyOutputStream) : List Nat := (out.foldl sinkStep ([], [])).1

/-- The bits of a byte, most significant first. -/
def byteBits (b : Nat) : List Bool := [7, 6, 5, 4, 3, 2, 1, 0].map (fun i => Nat.testBit b i)

/-- Modelled from the spec: `read<int>()` at the start of a file: the value
and the source after the call.  A file of fewer than four bytes clears `good`. -/
def readInt (file : List Nat) : Int × FancyInputStream :=
  match file with
  | b0 :: b1 :: b2 :: b3 :: rest =>
    (wrap32 ((b0 % 256 + 256 * (b1 % 256) + 65536 * (b2 % 256) + 16777216 * (b3 % 256) : Nat) : Int),
     { bits := (rest.map byteBits).flatten, good := true })
  | _ => (0, { bits := [], good := false })

/-- The loop of `main` in `decompress.cpp` (lines 73-85): `n` calls of
`decode`, each followed by `write<char>(decodedChar)`; `out` collects the
bytes written. -/
def decompress.payload (eof : Int) (t : HCTree) :
    Nat → FancyInputStream → List Nat → Option (List Nat × FancyInputStream)
  | 0, inp, out => some (out, inp)
  | n + 1, inp, out =>
    match decode eof t inp with
    | none => none
    | some (decodedChar, inp1) => decompress.payload eof t n inp1 (out ++ [decodedChar])

/-- The function `main` of `decompress.cpp` on a compressed file: the bytes
written to the output file.  `inputfilesize - sizeof(int)` is passed as an
`int`. -/
def decompress.main (eof : Int) (file : List Nat) : Option (List Nat) :=
  let inputfilesize : Int := wrap32 file.length
  let h := readInt file
  match deserialize eof (wrap32 (inputfilesize - 4)) HCTree.fresh h.2 with
  | none => none
  | some (huffTree, inp) =>
    let totalFreq : Int := if inp.good then h.1 else 0
    match decompress.payload eof huffTree totalFreq.toNat inp [] with
    | none => none
    | some (out, _) => some out

/-! ## A walk of `deseriallization` that `len` cuts off -/

/-- A link to node `x` as the walk leaves it: null when `x` is not below
`len`, because the call for that node returns `nullptr`. -/
def cutPtr (len : Int) (v : Option Nat) : Option Nat :=
  match v with
  | some x => if (x : Int) < len then some x else none
  | none => none

/-- A node with its child links cut at `len`. -/
def cutNode (len : Int) (n : HCNode) : HCNode :=
  { n with c0 := cutPtr len n.c0, c1 := cutPtr len n.c1 }

/-- The nodes `deseriallization` allocates for the encoding of a tree whose
first node has index and address `x`, under the guard `index >= len`. -/
def cutLayout (len : Int) : Tree → Nat → List HCNode
  | .leaf _ s, x => if (x : Int) < len then [HCNode.new 0 s] else []
  | .node _ l r, x =>
    if (x : Int) < len then
      { count := 0, symbol := 96, c0 := cutPtr len (some (x + 1)),
        c1 := cutPtr len (some (x + 1 + l.size)), p := none }
        :: (cutLayout len l (x + 1) ++ cutLayout len r (x + 1 + l.size))
    else []

/-- The number of bits `deseriallization` reads of the encoding of a tree
whose first node has index `x`, under the guard `index >= len`. -/
def cutBits (len : Int) : Tree → Nat → Nat
  | .leaf _ _, x => if (x : Int) < len then 9 else 0
  | .node _ l r, x =>
    if (x : Int) < len then 1 + cutBits len l (x + 1) + cutBits len r (x + 1 + l.size) else 0

/-- The source `b` is what `k` calls of `read_bit()` leave of the source `a`:
`k` bits are gone, and `good` is cleared when `a` held fewer than `k` bits. -/
def Reads (a b : FancyInputStream) (k : Nat) : Prop :=
  b.bits = a.bits.drop k ∧ b.good = (a.good && decide (k ≤ a.bits.length))

/-- The bits `encode` writes for a symbol (none when `encode` is not defined
for it). -/
def codeOf (t : HCTree) (s : Nat) : List Bool :=
  match encode t s [] with
  | some out => bitsOf out
  | none => []

/-- The symbols `a` and `b` exchanged. -/
def swapSym (a b s : Nat) : Nat := if s = a then b else if s = b then a else s

/-- A table whose weights overflow in `build`: the bytes 0 to 4 occur 4, 15,
16, 17 and 18 times 2^26 times, all other bytes never.  Every entry fits in
an `int`; 16 * 2^26 + 17 * 2^26 does not. -/
def wrapFreqs : List Int :=
  [268435456, 1006632960, 1073741824, 1140850688, 1207959552] ++ List.replicate 251 0

/-! ## `HCTree::clear`

The fuel of `serialization` and of `clear` is the depth to which calls may
nest: a call made with fuel `k` that needs a chain of more than `k` nested
calls yields `none`. -/

/-- The method `HCTree::clear(treeNode)` (lines 185-198): the pointers passed
to `delete`, in order, after those in `del`. -/
def clear (t : HCTree) : Nat → Option Nat → List Nat → Option (List Nat)
  | 0, _, _ => none
  | fuel + 1, treeNode, del =>
    match treeNode with
    | none => some del
    | some x =>
      match t.mem[x]? with
      | none => none
      | some n =>
        match clear t fuel n.c0 del with
        | none => none
        | some del1 =>
          match clear t fuel n.c1 del1 with
          | none => none
          | some del2 => some (del2 ++ [x])

/-- A table of 256 entries, each the greatest `int`, 2^31 - 1. -/
def maxFreqs : List Int := List.replicate 256 2147483647

/-- The weight of the one tree that is not a leaf, after `k` leaves of weight
2^31 - 1 have been merged into it: just below 0 or just below 2^31 - 1. -/
def nearWrap (k : Nat) (c : Int) : Prop :=
  (-(2 * (k : Int)) ≤ c ∧ c < 0) ∨ (2147483647 - 2 * (k : Int) ≤ c ∧ c < 2147483647)

/-- The frequency table `compress` counts for the file `abcd`: the bytes 97
to 100 once each. -/
def abcdFreqs : List Int := List.replicate 97 0 ++ [1, 1, 1, 1] ++ List.replicate 155 0

/-- The tree `build` makes for `abcdFreqs` when ties go to the first entry:
`a` and `b` under one node, `c` and `d` under the other. -/
def abcdTree : Tree :=
  .node 4 (.node 2 (.leaf 1 97) (.leaf 1 98)) (.node 2 (.leaf 1 99) (.leaf 1 100))

/-- The symbol at the end of the way that always takes the same side: the
leftmost leaf for `false`, the rightmost leaf for `true`. -/
def Tree.edge (b : Bool) : Tree → Nat
  | .leaf _ s => s
  | .node _ l r => if b then r.edge b else l.edge b

/-! # Theorems -/

theorem Rep_leaf_iff (mem : List HCNode) (c : Int) (s x : Nat) :
    Rep mem (.leaf c s) x ↔
      ∃ n, mem[x]? = some n ∧ n.count = c ∧ n.symbol = s ∧ n.c0 = none ∧ n.c1 = none := by
  unfold Rep
  cases h : mem[x]? with
  | none => simp
  | some n => simp

theorem Rep_node_iff (mem : List HCNode) (c : Int) (l r : Tree) (x : Nat) :
    Rep mem (.node c l r) x ↔
      ∃ n a b, mem[x]? = some n ∧ n.count = c ∧ n.c0 = some a ∧ n.c1 = some b ∧
        Rep mem l a ∧ Rep mem r b := by
  rw [Rep]
  cases h : mem[x]? with
  | none => simp
  | some n =>
    obtain ⟨cnt, sym, c0, c1, p⟩ := n
    cases c0 <;> cases c1 <;> simp

theorem Rep_lt (mem : List HCNode) (T : Tree) (x : Nat) (h : Rep mem T x) : x < mem.length := by
  cases T with
  | leaf c s =>
    obtain ⟨n, hn, _⟩ := (Rep_leaf_iff mem c s x).1 h
    exact (List.getElem?_eq_some_iff.1 hn).1
  | node c l r =>
    obtain ⟨n, a, b, hn, _⟩ := (Rep_node_iff mem c l r x).1 h
    exact (List.getElem?_eq_some_iff.1 hn).1

theorem Rep_agree (mem mem1 : List HCNode) (hag : Agree mem mem1) (T : Tree) :
    ∀ x, Rep mem T x → Rep mem1 T x := by
  induction T with
  | leaf c s =>
    intro x h
    obtain ⟨n, hn, h1, h2, h3, h4⟩ := (Rep_leaf_iff mem c s x).1 h
    obtain ⟨n1, hn1, e1, e2, e3, e4⟩ := hag x n hn
    exact (Rep_leaf_iff mem1 c s x).2 ⟨n1, hn1, by rw [e1, h1], by rw [e2, h2], by rw [e3, h3], by rw [e4, h4]⟩
  | node c l r ihl ihr =>
    intro x h
    obtain ⟨n, a, b, hn, h1, h2, h3, h4, h5⟩ := (Rep_node_iff mem c l r x).1 h
    obtain ⟨n1, hn1, e1, e2, e3, e4⟩ := hag x n hn
    exact (Rep_node_iff mem1 c l r x).2
      ⟨n1, a, b, hn1, by rw [e1, h1], by rw [e3, h2], by rw [e4, h3], ihl a h4, ihr b h5⟩

theorem Agree_append (mem l : List HCNode) : Agree mem (mem ++ l) := by
  intro x n hn
  refine ⟨n, ?_, rfl, rfl, rfl, rfl⟩
  have hlt := (List.getElem?_eq_some_iff.1 hn).1
  rw [List.getElem?_append_left hlt]
  exact hn

theorem getElem?_setP (mem : List HCNode) (y : Nat) (v : Option Nat) (x : Nat) :
    (setP mem y v)[x]? = (mem[x]?).map (fun n => if x = y then { n with p := v } else n) := by
  unfold setP
  cases hy : mem[y]? with
  | none =>
    by_cases hxy : x = y
    · subst hxy; simp [hy]
    · simp [hxy]
  | some m =>
    by_cases hxy : x = y
    · subst hxy
      simp [List.getElem?_set, hy]
      have hlt := (List.getElem?_eq_some_iff.1 hy).1
      simp [hlt]
    · have : ¬ y = x := fun e => hxy e.symm
      simp [List.getElem?_set, this, hxy]

theorem length_setP (mem : List HCNode) (y : Nat) (v : Option Nat) :
    (setP mem y v).length = mem.length := by
  unfold setP
  cases mem[y]? <;> simp

theorem Agree_setP (mem : List HCNode) (y : Nat) (v : Option Nat) : Agree mem (setP mem y v) := by
  intro x n hn
  rw [getElem?_setP, hn]
  by_cases hxy : x = y
  · exact ⟨{ n with p := v }, by simp [hxy], rfl, rfl, rfl, rfl⟩
  · exact ⟨n, by simp [hxy], rfl, rfl, rfl, rfl⟩

theorem Agree_trans (m1 m2 m3 : List HCNode) (h12 : Agree m1 m2) (h23 : Agree m2 m3) :
    Agree m1 m3 := by
  intro x n hn
  obtain ⟨n1, hn1, e1, e2, e3, e4⟩ := h12 x n hn
  obtain ⟨n2, hn2, f1, f2, f3, f4⟩ := h23 x n1 hn1
  exact ⟨n2, hn2, by rw [f1, e1], by rw [f2, e2], by rw [f3, e3], by rw [f4, e4]⟩

theorem Rep_functional (mem : List HCNode) (T : Tree) :
    ∀ (T1 : Tree) (x : Nat), Rep mem T x → Rep mem T1 x → T = T1 := by
  induction T with
  | leaf c s =>
    intro T1 x h h1
    obtain ⟨n, hn, e1, e2, e3, e4⟩ := (Rep_leaf_iff mem c s x).1 h
    cases T1 with
    | leaf c1 s1 =>
      obtain ⟨m, hm, f1, f2, _, _⟩ := (Rep_leaf_iff mem c1 s1 x).1 h1
      rw [hn] at hm
      cases hm
      rw [← e1, ← e2, f1, f2]
    | node c1 l1 r1 =>
      obtain ⟨m, a, b, hm, _, f2, _⟩ := (Rep_node_iff mem c1 l1 r1 x).1 h1
      rw [hn] at hm
      cases hm
      rw [e3] at f2
      cases f2
  | node c l r ihl ihr =>
    intro T1 x h h1
    obtain ⟨n, a, b, hn, e1, e2, e3, e4, e5⟩ := (Rep_node_iff mem c l r x).1 h
    cases T1 with
    | leaf c1 s1 =>
      obtain ⟨m, hm, _, _, f3, _⟩ := (Rep_leaf_iff mem c1 s1 x).1 h1
      rw [hn] at hm
      cases hm
      rw [e2] at f3
      cases f3
    | node c1 l1 r1 =>
      obtain ⟨m, a1, b1, hm, f1, f2, f3, f4, f5⟩ := (Rep_node_iff mem c1 l1 r1 x).1 h1
      rw [hn] at hm
      cases hm
      rw [e2] at f2
      rw [e3] at f3
      cases f2
      cases f3
      rw [ihl l1 a e4 f4, ihr r1 b e5 f5, ← e1, f1]

theorem ptrAt_append (mem : List HCNode) (bs cs : List Bool) :
    ∀ x : Nat, ptrAt mem x (bs ++ cs) = (ptrAt mem x bs).bind (fun y => ptrAt mem y cs) := by
  induction bs with
  | nil => intro x; simp [ptrAt]
  | cons b bs ih =>
    intro x
    simp only [List.cons_append, ptrAt]
    cases mem[x]? with
    | none => simp
    | some n =>
      cases hc : n.child b with
      | none => simp [hc]
      | some y => simp [hc, ih y]

theorem Tree.sub_append (bs cs : List Bool) :
    ∀ T : Tree, T.sub (bs ++ cs) = (T.sub bs).bind (fun T1 => T1.sub cs) := by
  induction bs with
  | nil => intro T; simp [Tree.sub]
  | cons b bs ih =>
    intro T
    cases T with
    | leaf c s => simp [Tree.sub]
    | node c l r =>
      simp only [List.cons_append, Tree.sub]
      cases b <;> simp [ih]

/-- Following child links in the store and walking down the tree agree. -/
theorem Rep_ptrAt (mem : List HCNode) (bs : List Bool) :
    ∀ (T : Tree) (x y : Nat), Rep mem T x → ptrAt mem x bs = some y →
      ∃ T1, T.sub bs = some T1 ∧ Rep mem T1 y := by
  induction bs with
  | nil =>
    intro T x y h hp
    simp only [ptrAt, Option.some.injEq] at hp
    subst hp
    exact ⟨T, by simp [Tree.sub], h⟩
  | cons b bs ih =>
    intro T x y h hp
    cases T with
    | leaf c s =>
      obtain ⟨n, hn, _, _, e3, e4⟩ := (Rep_leaf_iff mem c s x).1 h
      simp only [ptrAt, hn, HCNode.child] at hp
      cases b <;> simp [e3, e4] at hp
    | node c l r =>
      obtain ⟨n, a, b1, hn, _, e2, e3, e4, e5⟩ := (Rep_node_iff mem c l r x).1 h
      simp only [ptrAt, hn, HCNode.child] at hp
      cases b with
      | false =>
        simp only [Bool.false_eq_true, if_false, e2] at hp
        obtain ⟨T1, h1, h2⟩ := ih l a y e4 hp
        exact ⟨T1, by simpa [Tree.sub] using h1, h2⟩
      | true =>
        simp only [if_true, e3] at hp
        obtain ⟨T1, h1, h2⟩ := ih r b1 y e5 hp
        exact ⟨T1, by simpa [Tree.sub] using h1, h2⟩

/-- Every subtree is found in the store behind some pointer. -/
theorem Rep_sub (mem : List HCNode) (bs : List Bool) :
    ∀ (T T1 : Tree) (x : Nat), Rep mem T x → T.sub bs = some T1 →
      ∃ y, ptrAt mem x bs = some y ∧ Rep mem T1 y := by
  induction bs with
  | nil =>
    intro T T1 x h hs
    simp only [Tree.sub, Option.some.injEq] at hs
    subst hs
    exact ⟨x, by simp [ptrAt], h⟩
  | cons b bs ih =>
    intro T T1 x h hs
    cases T with
    | leaf c s => simp [Tree.sub] at hs
    | node c l r =>
      obtain ⟨n, a, b1, hn, _, e2, e3, e4, e5⟩ := (Rep_node_iff mem c l r x).1 h
      cases b with
      | false =>
        simp only [Tree.sub, Bool.false_eq_true, if_false] at hs
        obtain ⟨y, h1, h2⟩ := ih l T1 a e4 hs
        exact ⟨y, by simp [ptrAt, hn, HCNode.child, e2, h1], h2⟩
      | true =>
        simp only [Tree.sub, if_true] at hs
        obtain ⟨y, h1, h2⟩ := ih r T1 b1 e5 hs
        exact ⟨y, by simp [ptrAt, hn, HCNode.child, e3, h1], h2⟩

theorem Tree.size_sub_lt (bs : List Bool) :
    ∀ (T T1 : Tree), T.sub bs = some T1 → bs ≠ [] → T1.size < T.size := by
  induction bs with
  | nil => intro T T1 _ h; exact absurd rfl h
  | cons b bs ih =>
    intro T T1 hs _
    cases T with
    | leaf c s => simp [Tree.sub] at hs
    | node c l r =>
      have key : ∀ (U : Tree), U.sub bs = some T1 → T1.size ≤ U.size := by
        intro U hU
        by_cases hb : bs = []
        · subst hb
          simp only [Tree.sub, Option.some.injEq] at hU
          rw [hU]
        · exact Nat.le_of_lt (ih U T1 hU hb)
      cases b with
      | false =>
        simp only [Tree.sub, Bool.false_eq_true, if_false] at hs
        have := key l hs
        simp only [Tree.size]
        omega
      | true =>
        simp only [Tree.sub, if_true] at hs
        have := key r hs
        simp only [Tree.size]
        omega

/-- No node is its own descendant: a non-empty walk down never returns. -/
theorem Rep_acyclic (mem : List HCNode) (T : Tree) (x : Nat) (bs : List Bool)
    (h : Rep mem T x) (hp : ptrAt mem x bs = some x) : bs = [] := by
  by_contra hne
  obtain ⟨T1, h1, h2⟩ := Rep_ptrAt mem bs T x x h hp
  have hlt := Tree.size_sub_lt bs T T1 h1 hne
  have := Rep_functional mem T T1 x h h2
  rw [this] at hlt
  exact Nat.lt_irrefl _ hlt

theorem nodup_bound (l : List Nat) (n : Nat) (hnd : l.Nodup) (hlt : ∀ a ∈ l, a < n) :
    l.length ≤ n := by
  have h1 : l.toFinset ⊆ Finset.range n := by
    intro a ha
    simp only [List.mem_toFinset] at ha
    simpa using hlt a ha
  have h2 := Finset.card_le_card h1
  rw [List.toFinset_card_of_nodup hnd, Finset.card_range] at h2
  exact h2

theorem Rep_height_aux (mem : List HCNode) (T : Tree) :
    ∀ (x : Nat) (anc : List Nat), Rep mem T x → anc.Nodup →
      (∀ a ∈ anc, (∃ Ta, Rep mem Ta a) ∧ ∃ bs, bs ≠ [] ∧ ptrAt mem a bs = some x) →
      anc.length + T.height < mem.length := by
  induction T with
  | leaf c s =>
    intro x anc h hnd hanc
    have hx : x ∉ anc := by
      intro hmem
      obtain ⟨⟨Ta, hTa⟩, bs, hne, hp⟩ := hanc x hmem
      exact hne (Rep_acyclic mem Ta x bs hTa hp)
    have hnd1 : (x :: anc).Nodup := List.nodup_cons.2 ⟨hx, hnd⟩
    have := nodup_bound (x :: anc) mem.length hnd1 (by
      intro a ha
      rcases List.mem_cons.1 ha with e | e
      · rw [e]; exact Rep_lt mem _ x h
      · obtain ⟨⟨Ta, hTa⟩, _⟩ := hanc a e
        exact Rep_lt mem Ta a hTa)
    simp only [List.length_cons] at this
    simp only [Tree.height]
    omega
  | node c l r ihl ihr =>
    intro x anc h hnd hanc
    have hx : x ∉ anc := by
      intro hmem
      obtain ⟨⟨Ta, hTa⟩, bs, hne, hp⟩ := hanc x hmem
      exact hne (Rep_acyclic mem Ta x bs hTa hp)
    have hnd1 : (x :: anc).Nodup := List.nodup_cons.2 ⟨hx, hnd⟩
    obtain ⟨n, a, b, hn, _, e2, e3, e4, e5⟩ := (Rep_node_iff mem c l r x).1 h
    have hl := ihl a (x :: anc) e4 hnd1 (by
      intro y hy
      rcases List.mem_cons.1 hy with e | e
      · rw [e]
        exact ⟨⟨_, h⟩, [false], by simp, by simp [ptrAt, hn, HCNode.child, e2]⟩
      · obtain ⟨hTa, bs, hne, hp⟩ := hanc y e
        refine ⟨hTa, bs ++ [false], by simp, ?_⟩
        rw [ptrAt_append, hp]
        simp [ptrAt, hn, HCNode.child, e2])
    have hr := ihr b (x :: anc) e5 hnd1 (by
      intro y hy
      rcases List.mem_cons.1 hy with e | e
      · rw [e]
        exact ⟨⟨_, h⟩, [true], by simp, by simp [ptrAt, hn, HCNode.child, e3]⟩
      · obtain ⟨hTa, bs, hne, hp⟩ := hanc y e
        refine ⟨hTa, bs ++ [true], by simp, ?_⟩
        rw [ptrAt_append, hp]
        simp [ptrAt, hn, HCNode.child, e3])
    simp only [List.length_cons] at hl hr
    simp only [Tree.height]
    omega

/-- A tree that lives in the store is lower than the store is long. -/
theorem Rep_height (mem : List HCNode) (T : Tree) (x : Nat) (h : Rep mem T x) :
    T.height < mem.length := by
  have := Rep_height_aux mem T x [] h List.nodup_nil (by simp)
  simpa using this

theorem Linked_node (mem : List HCNode) (c : Int) (l r : Tree) (x : Nat)
    (h : Linked mem (.node c l r) x) :
    ∃ n a b, mem[x]? = some n ∧ n.c0 = some a ∧ n.c1 = some b ∧ a ≠ b ∧
      parentOf mem a = some x ∧ parentOf mem b = some x ∧ Linked mem l a ∧ Linked mem r b := by
  rw [Linked] at h
  cases hx : mem[x]? with
  | none => simp [hx] at h
  | some n =>
    obtain ⟨cnt, sym, c0, c1, p⟩ := n
    cases c0 <;> cases c1 <;> simp [hx] at h
    rename_i a b
    exact ⟨_, a, b, rfl, rfl, rfl, h.1, h.2.1, h.2.2.1, h.2.2.2.1, h.2.2.2.2⟩

theorem Linked_sub (mem : List HCNode) (bs : List Bool) :
    ∀ (T T1 : Tree) (x y : Nat), Linked mem T x → ptrAt mem x bs = some y →
      T.sub bs = some T1 → Linked mem T1 y := by
  induction bs with
  | nil =>
    intro T T1 x y h hp hs
    simp only [ptrAt, Option.some.injEq] at hp
    simp only [Tree.sub, Option.some.injEq] at hs
    subst hp hs
    exact h
  | cons b bs ih =>
    intro T T1 x y h hp hs
    cases T with
    | leaf c s => simp [Tree.sub] at hs
    | node c l r =>
      obtain ⟨n, a, b1, hn, e2, e3, _, _, _, e7, e8⟩ := Linked_node mem c l r x h
      simp only [ptrAt, hn, HCNode.child] at hp
      cases b with
      | false =>
        simp only [Bool.false_eq_true, if_false, e2] at hp
        simp only [Tree.sub, Bool.false_eq_true, if_false] at hs
        exact ih l T1 a y e7 hp hs
      | true =>
        simp only [if_true, e3] at hp
        simp only [Tree.sub, if_true] at hs
        exact ih r T1 b1 y e8 hp hs

/-- On a tree that lives in the store, the loop of `decode` computes
`Tree.decode` whenever the fuel exceeds the height. -/
theorem decodeLoop_eq (eof : Int) (t : HCTree) (T : Tree) :
    ∀ (x fuel : Nat) (inp : FancyInputStream), Rep t.mem T x → T.height < fuel →
      decodeLoop eof t fuel (some x) inp = some (T.decode eof inp) := by
  induction T with
  | leaf c s =>
    intro x fuel inp h hf
    obtain ⟨n, hn, _, e2, e3, e4⟩ := (Rep_leaf_iff t.mem c s x).1 h
    obtain ⟨f, rfl⟩ : ∃ f, fuel = f + 1 := ⟨fuel - 1, by omega⟩
    simp [decodeLoop, deref, hn, e3, e2, Tree.decode]
  | node c l r ihl ihr =>
    intro x fuel inp h hf
    obtain ⟨n, a, b, hn, _, e2, e3, e4, e5⟩ := (Rep_node_iff t.mem c l r x).1 h
    obtain ⟨f, rfl⟩ : ∃ f, fuel = f + 1 := ⟨fuel - 1, by omega⟩
    simp only [Tree.height] at hf
    have hl := ihl a f (inp.read_bit eof).2 e4 (by omega)
    have hr := ihr b f (inp.read_bit eof).2 e5 (by omega)
    simp only [decodeLoop, deref, hn, e2, e3, Tree.decode]
    by_cases hb : (inp.read_bit eof).1 = 0
    · simp [hb, hl]
    · simp [hb, hr]

theorem read_bit_cons (eof : Int) (b : Bool) (bs : List Bool) (g : Bool) :
    FancyInputStream.read_bit eof { bits := b :: bs, good := g } =
      (bitInt b, { bits := bs, good := g }) := by
  simp [FancyInputStream.read_bit, bitInt]

/-- Reading the bits of the way to a leaf decodes that leaf's symbol and
leaves the rest of the source untouched. -/
theorem Tree.decode_path (eof : Int) (bs : List Bool) :
    ∀ (T : Tree) (c : Int) (s : Nat) (rest : List Bool) (g : Bool),
      T.sub bs = some (.leaf c s) →
      T.decode eof { bits := bs ++ rest, good := g } = (s, { bits := rest, good := g }) := by
  induction bs with
  | nil =>
    intro T c s rest g hs
    simp only [Tree.sub, Option.some.injEq] at hs
    subst hs
    simp [Tree.decode]
  | cons b bs ih =>
    intro T c s rest g hs
    cases T with
    | leaf c1 s1 => simp [Tree.sub] at hs
    | node c1 l r =>
      simp only [List.cons_append, Tree.decode, read_bit_cons]
      cases b with
      | false =>
        simp only [Tree.sub, Bool.false_eq_true, if_false] at hs
        simp [bitInt, ih l c s rest g hs]
      | true =>
        simp only [Tree.sub, if_true] at hs
        simp [bitInt, ih r c s rest g hs]

theorem parentOf_some (mem : List HCNode) (x y : Nat) (h : parentOf mem x = some y) :
    ∃ n, mem[x]? = some n ∧ n.p = some y := by
  unfold parentOf at h
  cases hx : mem[x]? with
  | none => simp [hx] at h
  | some n => exact ⟨n, rfl, by simpa [hx] using h⟩

/-- The walk of `encode` from a node at the end of the way `bs` from the root
records `bs` backwards. -/
theorem encodeLoop_walk (t : HCTree) (T : Tree) (R : Nat) (hroot : t.root = some R)
    (hrep : Rep t.mem T R) (hlink : Linked t.mem T R) (bs : List Bool) :
    ∀ (x fuel : Nat) (tbuf : List Int), ptrAt t.mem R bs = some x → bs.length < fuel →
      encodeLoop t fuel (some x) tbuf = some (tbuf ++ (bs.reverse.map bitInt)) := by
  induction bs using List.reverseRecOn with
  | nil =>
    intro x fuel tbuf hp hf
    simp only [ptrAt, Option.some.injEq] at hp
    subst hp
    obtain ⟨f, rfl⟩ : ∃ f, fuel = f + 1 := ⟨fuel - 1, by simp at hf; omega⟩
    simp [encodeLoop, hroot]
  | append_singleton bs b ih =>
    intro x fuel tbuf hp hf
    have hxR : x ≠ R := by
      intro e
      rw [e] at hp
      have := Rep_acyclic t.mem T R _ hrep hp
      simp at this
    rw [ptrAt_append] at hp
    cases hy : ptrAt t.mem R bs with
    | none => simp [hy] at hp
    | some y =>
      simp only [hy, Option.some_bind] at hp
      obtain ⟨T1, hs1, hrep1⟩ := Rep_ptrAt t.mem bs T R y hrep hy
      have hlink1 := Linked_sub t.mem bs T T1 R y hlink hy hs1
      simp only [List.length_append, List.length_singleton] at hf
      obtain ⟨f, rfl⟩ : ∃ f, fuel = f + 1 := ⟨fuel - 1, by omega⟩
      cases T1 with
      | leaf c s =>
        obtain ⟨n, hn, _, _, e3, e4⟩ := (Rep_leaf_iff t.mem c s y).1 hrep1
        simp only [ptrAt, hn, HCNode.child] at hp
        cases b <;> simp [e3, e4] at hp
      | node c l r =>
        obtain ⟨pn, a, b1, hpn, e2, e3, hab, pa, pb, _, _⟩ := Linked_node t.mem c l r y hlink1
        simp only [ptrAt, hpn, HCNode.child] at hp
        have hrec := ih y f
        cases b with
        | false =>
          simp only [Bool.false_eq_true, if_false, e2, Option.some.injEq] at hp
          subst hp
          obtain ⟨n, hn, hnp⟩ := parentOf_some t.mem a y pa
          have hne : ¬ (some a = t.root) := by rw [hroot]; simpa using hxR
          simp only [encodeLoop, ne_eq, hne, not_false_eq_true, if_true, deref, hn, hnp, hpn, e2]
          rw [hrec (tbuf ++ [0]) hy (by omega)]
          simp [bitInt]
        | true =>
          simp only [if_true, e3, Option.some.injEq] at hp
          subst hp
          obtain ⟨n, hn, hnp⟩ := parentOf_some t.mem b1 y pb
          have hne : ¬ (some b1 = t.root) := by rw [hroot]; simpa using hxR
          have hne2 : ¬ (b1 = a) := fun e => hab e.symm
          simp only [encodeLoop, ne_eq, hne, not_false_eq_true, if_true, deref, hn, hnp, hpn, e2,
            e3, Option.some.injEq, hne2, if_false]
          rw [hrec (tbuf ++ [1]) hy (by omega)]
          simp [bitInt]

theorem exists_min_count (mem : List HCNode) (pq : List Nat) (hne : pq ≠ []) :
    ∃ x ∈ pq, ∀ y ∈ pq, countOf mem x ≤ countOf mem y := by
  induction pq with
  | nil => exact absurd rfl hne
  | cons a l ih =>
    by_cases hl : l = []
    · subst hl
      exact ⟨a, by simp, by simp⟩
    · obtain ⟨x, hx, hmin⟩ := ih hl
      by_cases hax : countOf mem a ≤ countOf mem x
      · refine ⟨a, by simp, ?_⟩
        intro y hy
        rcases List.mem_cons.1 hy with e | e
        · rw [e]
        · exact le_trans hax (hmin y e)
      · refine ⟨x, List.mem_cons_of_mem _ hx, ?_⟩
        intro y hy
        rcases List.mem_cons.1 hy with e | e
        · rw [e]; omega
        · exact hmin y e

theorem isMin_iff (mem : List HCNode) (pq : List Nat) (x : Nat) :
    isMin mem pq x = true ↔ ∀ y ∈ pq, countOf mem x ≤ countOf mem y := by
  simp [isMin, List.all_eq_true]

/-- What `pq.top()` returns is in the queue and has minimal `count`. -/
theorem pq_top_spec (tie : List HCNode → List Nat → Nat) (mem : List HCNode) (pq : List Nat)
    (x : Nat) (h : pq_top tie mem pq = some x) :
    x ∈ pq ∧ ∀ y ∈ pq, countOf mem x ≤ countOf mem y := by
  unfold pq_top at h
  have hmem := List.getElem?_mem h
  rw [List.mem_filter] at hmem
  exact ⟨hmem.1, (isMin_iff mem pq x).1 hmem.2⟩

/-- On a non-empty queue `pq.top()` returns an entry. -/
theorem pq_top_some (tie : List HCNode → List Nat → Nat) (mem : List HCNode) (pq : List Nat)
    (hne : pq ≠ []) : ∃ x, pq_top tie mem pq = some x := by
  obtain ⟨x, hx, hmin⟩ := exists_min_count mem pq hne
  have hmem : x ∈ pq.filter (isMin mem pq) :=
    List.mem_filter.2 ⟨hx, (isMin_iff mem pq x).2 hmin⟩
  have hpos : 0 < (pq.filter (isMin mem pq)).length := List.length_pos_of_mem hmem
  have hlt := Nat.mod_lt (tie mem pq) hpos
  unfold pq_top
  exact ⟨_, List.getElem?_eq_getElem hlt⟩

theorem pq_top_singleton (tie : List HCNode → List Nat → Nat) (mem : List HCNode) (x : Nat) :
    pq_top tie mem [x] = some x := by
  obtain ⟨y, hy⟩ := pq_top_some tie mem [x] (by simp)
  have := (pq_top_spec tie mem [x] y hy).1
  simp only [List.mem_singleton] at this
  rw [hy, this]

theorem countOf_Rep (mem : List HCNode) (T : Tree) (x : Nat) (h : Rep mem T x) :
    countOf mem x = T.count := by
  cases T with
  | leaf c s =>
    obtain ⟨n, hn, e1, _⟩ := (Rep_leaf_iff mem c s x).1 h
    simp [countOf, hn, e1, Tree.count]
  | node c l r =>
    obtain ⟨n, a, b, hn, e1, _⟩ := (Rep_node_iff mem c l r x).1 h
    simp [countOf, hn, e1, Tree.count]

theorem erase_map_fst (F : List (Nat × Tree)) (x : Nat) (hnd : (F.map Prod.fst).Nodup) :
    (F.map Prod.fst).erase x = (F.filter (fun e => decide (e.1 ≠ x))).map Prod.fst := by
  rw [List.Nodup.erase_eq_filter hnd, List.filter_map]
  congr 1
  apply List.filter_congr
  intro e _
  by_cases h : e.1 = x <;> simp [h]

theorem forest_remove (F : List (Nat × Tree)) (x : Nat) (T : Tree)
    (hnd : (F.map Prod.fst).Nodup) (hmem : (x, T) ∈ F) :
    (Multiset.ofList (F.map Prod.snd)) =
      T ::ₘ Multiset.ofList ((F.filter (fun e => decide (e.1 ≠ x))).map Prod.snd) := by
  induction F with
  | nil => simp at hmem
  | cons e l ih =>
    simp only [List.map_cons, List.nodup_cons] at hnd
    rcases List.mem_cons.1 hmem with h | h
    · subst h
      have hfil : l.filter (fun e => decide (e.1 ≠ x)) = l := by
        apply List.filter_eq_self.2
        intro e1 he1
        have : e1.1 ≠ x := by
          intro e2
          apply hnd.1
          have h3 := List.mem_map_of_mem Prod.fst he1
          rw [e2] at h3
          exact h3
        simpa using this
      have hx : decide ((x, T).1 ≠ x) = false := by simp
      rw [List.filter_cons, hx]
      simp only [Bool.false_eq_true, if_false, hfil, List.map_cons]
      rfl
    · have hex : e.1 ≠ x := by
        intro e2
        apply hnd.1
        rw [e2]
        exact List.mem_map_of_mem Prod.fst h
      have := ih hnd.2 h
      simp only [List.map_cons, List.filter_cons, hex, ne_eq, not_false_eq_true, decide_True,
        if_true]
      rw [← Multiset.cons_coe, this, ← Multiset.cons_coe, Multiset.cons_swap]

theorem Linked_node_intro (mem : List HCNode) (c : Int) (l r : Tree) (x : Nat) (n : HCNode)
    (a b : Nat) (hn : mem[x]? = some n) (h0 : n.c0 = some a) (h1 : n.c1 = some b) (hab : a ≠ b)
    (pa : parentOf mem a = some x) (pb : parentOf mem b = some x)
    (hl : Linked mem l a) (hr : Linked mem r b) : Linked mem (.node c l r) x := by
  rw [Linked]
  simp only [hn]
  obtain ⟨cnt, sym, c0, c1, p⟩ := n
  simp only at h0 h1
  subst h0 h1
  exact ⟨hab, pa, pb, hl, hr⟩

theorem Linked_frame (mem mem1 : List HCNode) (hag : Agree mem mem1) (hkp : KeepP mem mem1)
    (T : Tree) : ∀ x, Linked mem T x → Linked mem1 T x := by
  induction T with
  | leaf c s => intro x _; simp [Linked]
  | node c l r ihl ihr =>
    intro x h
    obtain ⟨n, a, b, hn, e0, e1, hab, pa, pb, hl, hr⟩ := Linked_node mem c l r x h
    obtain ⟨n1, hn1, _, _, f0, f1⟩ := hag x n hn
    exact Linked_node_intro mem1 c l r x n1 a b hn1 (by rw [f0, e0]) (by rw [f1, e1]) hab
      (hkp a x pa) (hkp b x pb) (ihl a hl) (ihr b hr)

theorem ptrAt_agree (mem mem1 : List HCNode) (hag : Agree mem mem1) (bs : List Bool) :
    ∀ (x y : Nat), ptrAt mem x bs = some y → ptrAt mem1 x bs = some y := by
  induction bs with
  | nil => intro x y h; simpa [ptrAt] using h
  | cons b bs ih =>
    intro x y h
    simp only [ptrAt] at h
    cases hx : mem[x]? with
    | none => simp [hx] at h
    | some n =>
      simp only [hx] at h
      obtain ⟨n1, hn1, _, _, f0, f1⟩ := hag x n hx
      have hc : n1.child b = n.child b := by
        cases b <;> simp [HCNode.child, f0, f1]
      cases hch : n.child b with
      | none => simp [hch] at h
      | some z =>
        simp only [hch] at h
        simp only [ptrAt, hn1, hc, hch]
        exact ih z y h

theorem KeepP_append (mem l : List HCNode) : KeepP mem (mem ++ l) := by
  intro a y h
  obtain ⟨n, hn, hp⟩ := parentOf_some mem a y h
  have hlt := (List.getElem?_eq_some_iff.1 hn).1
  simp [parentOf, List.getElem?_append_left hlt, hn, hp]

theorem parentOf_setP (mem : List HCNode) (y : Nat) (v : Option Nat) (x : Nat) :
    parentOf (setP mem y v) x = if x = y ∧ x < mem.length then v else parentOf mem x := by
  unfold parentOf
  rw [getElem?_setP]
  cases hx : mem[x]? with
  | none =>
    have : ¬ x < mem.length := by
      intro hlt
      rw [List.getElem?_eq_getElem hlt] at hx
      cases hx
    simp [this]
  | some n =>
    have hlt := (List.getElem?_eq_some_iff.1 hx).1
    by_cases hxy : x = y
    · subst hxy
      simp [hlt]
    · simp [hxy]

theorem KeepP_setP (mem : List HCNode) (y : Nat) (v : Option Nat)
    (hy : parentOf mem y = none) : KeepP mem (setP mem y v) := by
  intro a z h
  rw [parentOf_setP]
  have : a ≠ y := by
    intro e
    rw [e, hy] at h
    cases h
  simp [this, h]

theorem KeepP_trans (m1 m2 m3 : List HCNode) (h12 : KeepP m1 m2) (h23 : KeepP m2 m3) :
    KeepP m1 m3 := fun a y h => h23 a y (h12 a y h)

theorem parentOf_lt (mem : List HCNode) (x y : Nat) (h : parentOf mem x = some y) :
    x < mem.length := by
  obtain ⟨n, hn, _⟩ := parentOf_some mem x y h
  exact (List.getElem?_eq_some_iff.1 hn).1

theorem parentOf_append_old (mem l : List HCNode) (x : Nat) (hlt : x < mem.length) :
    parentOf (mem ++ l) x = parentOf mem x := by
  simp [parentOf, List.getElem?_append_left hlt]

/-- One round of the second loop of `build` keeps the invariant: the two
trees taken off the queue become the children of the new node. -/
theorem merge_inv (freqs : List Int) (mem : List HCNode) (leaves : List (Option Nat))
    (F : List (Nat × Tree)) (hinv : Inv freqs mem leaves F) (x1 x2 : Nat) (t1 t2 : Tree)
    (h1 : (x1, t1) ∈ F) (h2 : (x2, t2) ∈ F) (hne : x1 ≠ x2) (c : Int) :
    Inv freqs
      (setP (setP (mem ++ [{ count := c, symbol := 96, c0 := some x1, c1 := some x2, p := none }])
        x1 (some mem.length)) x2 (some mem.length))
      leaves
      ((F.filter (fun e => decide (e.1 ≠ x1))).filter (fun e => decide (e.1 ≠ x2))
        ++ [(mem.length, .node c t1 t2)]) := by
  have r1 : Rep mem t1 x1 := hinv.rep _ h1
  have r2 : Rep mem t2 x2 := hinv.rep _ h2
  have l1 : x1 < mem.length := Rep_lt mem t1 x1 r1
  have l2 : x2 < mem.length := Rep_lt mem t2 x2 r2
  have q1 : parentOf mem x1 = none := hinv.rootp _ h1
  have q2 : parentOf mem x2 = none := hinv.rootp _ h2
  generalize hN : ({ count := c, symbol := 96, c0 := some x1, c1 := some x2, p := none } : HCNode)
    = N
  generalize hm3 : setP (setP (mem ++ [N]) x1 (some mem.length)) x2 (some mem.length) = mem3
  have hag : Agree mem mem3 := by
    rw [← hm3]
    exact Agree_trans _ _ _ (Agree_append mem [N])
      (Agree_trans _ _ _ (Agree_setP _ _ _) (Agree_setP _ _ _))
  have hpar : ∀ x, parentOf mem3 x =
      if x = x2 then some mem.length else if x = x1 then some mem.length
      else parentOf (mem ++ [N]) x := by
    intro x
    rw [← hm3, parentOf_setP, parentOf_setP, length_setP]
    simp only [List.length_append, List.length_singleton]
    by_cases e2 : x = x2
    · subst e2
      have : x < mem.length + 1 := by omega
      simp [this]
    · by_cases e1 : x = x1
      · subst e1
        have : x < mem.length + 1 := by omega
        simp [e2, this]
      · simp [e2, e1]
  have hkp : KeepP mem mem3 := by
    intro a y h
    have hlt := parentOf_lt mem a y h
    have a1 : a ≠ x1 := by intro e; rw [e, q1] at h; cases h
    have a2 : a ≠ x2 := by intro e; rw [e, q2] at h; cases h
    rw [hpar, if_neg a2, if_neg a1, parentOf_append_old mem [N] a hlt]
    exact h
  have hlen : mem3.length = mem.length + 1 := by
    rw [← hm3, length_setP, length_setP]
    simp
  have hnew : mem3[mem.length]? = some N := by
    rw [← hm3, getElem?_setP, getElem?_setP]
    have e1 : ¬ mem.length = x1 := by omega
    have e2 : ¬ mem.length = x2 := by omega
    simp [e1, e2]
  have p1 : parentOf mem3 x1 = some mem.length := by
    rw [hpar]; simp
  have p2 : parentOf mem3 x2 = some mem.length := by
    rw [hpar]; simp
  have hsub : ∀ e, e ∈ ((F.filter (fun e => decide (e.1 ≠ x1))).filter
      (fun e => decide (e.1 ≠ x2))) → e ∈ F ∧ e.1 ≠ x1 ∧ e.1 ≠ x2 := by
    intro e he
    simp only [List.mem_filter, decide_eq_true_eq] at he
    exact ⟨he.1.1, he.1.2, he.2⟩
  have c0N : N.c0 = some x1 := by rw [← hN]
  have c1N : N.c1 = some x2 := by rw [← hN]
  have cN : N.count = c := by rw [← hN]
  have pN : N.p = none := by rw [← hN]
  constructor
  · rw [List.map_append, List.nodup_append]
    refine ⟨?_, by simp, ?_⟩
    · exact (hinv.nodup.sublist ((List.filter_sublist _).map _)).sublist
        ((List.filter_sublist _).map _)
    · intro a ha hb
      simp only [List.map_cons, List.map_nil, List.mem_singleton] at hb
      obtain ⟨e, he, rfl⟩ := List.mem_map.1 ha
      have := Rep_lt mem e.2 e.1 (hinv.rep e (hsub e he).1)
      omega
  · intro e he
    rcases List.mem_append.1 he with h | h
    · exact Rep_agree mem mem3 hag e.2 e.1 (hinv.rep e (hsub e h).1)
    · simp only [List.mem_singleton] at h
      subst h
      exact (Rep_node_iff mem3 c t1 t2 mem.length).2
        ⟨N, x1, x2, hnew, cN, c0N, c1N, Rep_agree mem mem3 hag t1 x1 r1,
          Rep_agree mem mem3 hag t2 x2 r2⟩
  · intro e he
    rcases List.mem_append.1 he with h | h
    · exact Linked_frame mem mem3 hag hkp e.2 e.1 (hinv.linked e (hsub e h).1)
    · simp only [List.mem_singleton] at h
      subst h
      exact Linked_node_intro mem3 c t1 t2 mem.length N x1 x2 hnew c0N c1N hne p1 p2
        (Linked_frame mem mem3 hag hkp t1 x1 (hinv.linked _ h1))
        (Linked_frame mem mem3 hag hkp t2 x2 (hinv.linked _ h2))
  · intro e he
    rcases List.mem_append.1 he with h | h
    · obtain ⟨hF, n1, n2⟩ := hsub e h
      have hlt := Rep_lt mem e.2 e.1 (hinv.rep e hF)
      rw [hpar, if_neg n2, if_neg n1, parentOf_append_old mem [N] e.1 hlt]
      exact hinv.rootp e hF
    · simp only [List.mem_singleton] at h
      subst h
      simp [parentOf, hnew, pN]
  · intro x n hx
    have hxl := (List.getElem?_eq_some_iff.1 hx).1
    rw [hlen] at hxl
    by_cases hlt : x < mem.length
    · obtain ⟨n1, hn1, _, _, f0, f1⟩ := hag x mem[x] (List.getElem?_eq_getElem hlt)
      rw [hx] at hn1
      cases hn1
      rw [f0, f1]
      exact hinv.full x mem[x] (List.getElem?_eq_getElem hlt)
    · have : x = mem.length := by omega
      subst this
      rw [hnew] at hx
      cases hx
      simp [c0N, c1N]
  · intro s x hs
    obtain ⟨e, he, bs, hp, hsb⟩ := hinv.leaf s x hs
    by_cases e1 : e.1 = x1
    · have : e.2 = t1 := Rep_functional mem e.2 t1 x1 (e1 ▸ hinv.rep e he) r1
      refine ⟨(mem.length, .node c t1 t2), by simp, false :: bs, ?_, ?_⟩
      · simp only [ptrAt, hnew, HCNode.child, Bool.false_eq_true, if_false, c0N]
        rw [← e1]
        exact ptrAt_agree mem mem3 hag bs e.1 x hp
      · simp only [Tree.sub, Bool.false_eq_true, if_false]
        rw [← this]
        exact hsb
    · by_cases e2 : e.1 = x2
      · have : e.2 = t2 := Rep_functional mem e.2 t2 x2 (e2 ▸ hinv.rep e he) r2
        refine ⟨(mem.length, .node c t1 t2), by simp, true :: bs, ?_, ?_⟩
        · simp only [ptrAt, hnew, HCNode.child, if_true, c1N]
          rw [← e2]
          exact ptrAt_agree mem mem3 hag bs e.1 x hp
        · simp only [Tree.sub, if_true]
          rw [← this]
          exact hsb
      · refine ⟨e, ?_, bs, ptrAt_agree mem mem3 hag bs e.1 x hp, hsb⟩
        apply List.mem_append_left
        simp only [List.mem_filter, decide_eq_true_eq]
        exact ⟨⟨he, e1⟩, e2⟩

theorem mem_forest_of_mem_pq (F : List (Nat × Tree)) (x : Nat) (h : x ∈ F.map Prod.fst) :
    ∃ t, (x, t) ∈ F := by
  obtain ⟨e, he, rfl⟩ := List.mem_map.1 h
  exact ⟨e.2, he⟩

/-- The second loop of `build` ends with a single tree in the queue; the
invariant holds for it, and it arises from the trees at the start by rounds
of `Step`. -/
theorem buildLoop_inv (tie : List HCNode → List Nat → Nat) (freqs : List Int)
    (leaves : List (Option Nat)) :
    ∀ (fuel : Nat) (mem : List HCNode) (F : List (Nat × Tree)),
      Inv freqs mem leaves F → F.length ≤ fuel → F ≠ [] →
      ∃ (mem1 : List HCNode) (R : Nat) (T : Tree),
        buildLoop tie fuel mem (F.map Prod.fst) = (mem1, [R]) ∧
        Inv freqs mem1 leaves [(R, T)] ∧
        Steps (Multiset.ofList (F.map Prod.snd)) {T} := by
  intro fuel
  induction fuel with
  | zero =>
    intro mem F _ hlen hne
    cases F with
    | nil => exact absurd rfl hne
    | cons e l => simp at hlen
  | succ fuel ih =>
    intro mem F hinv hlen hne
    by_cases h1 : 1 < (F.map Prod.fst).length
    · obtain ⟨x1, hx1⟩ := pq_top_some tie mem (F.map Prod.fst) (by
        intro e; rw [e] at h1; simp at h1)
      obtain ⟨m1, min1⟩ := pq_top_spec tie mem _ x1 hx1
      obtain ⟨t1, ht1⟩ := mem_forest_of_mem_pq F x1 m1
      have hpq1 := erase_map_fst F x1 hinv.nodup
      have hlen1 : ((F.map Prod.fst).erase x1).length = (F.map Prod.fst).length - 1 :=
        List.length_erase_of_mem m1
      obtain ⟨x2, hx2⟩ := pq_top_some tie mem ((F.map Prod.fst).erase x1) (by
        intro e; rw [e] at hlen1; simp only [List.length_nil] at hlen1; omega)
      obtain ⟨m2, min2⟩ := pq_top_spec tie mem _ x2 hx2
      have nd1 : ((F.filter (fun e => decide (e.1 ≠ x1))).map Prod.fst).Nodup := by
        rw [← hpq1]; exact hinv.nodup.erase x1
      have hpq2 := erase_map_fst (F.filter (fun e => decide (e.1 ≠ x1))) x2 nd1
      have hlen2 : (((F.map Prod.fst).erase x1).erase x2).length
          = ((F.map Prod.fst).erase x1).length - 1 := List.length_erase_of_mem m2
      have m2a := m2
      rw [hpq1] at m2a
      obtain ⟨t2, ht2⟩ := mem_forest_of_mem_pq _ x2 m2a
      have ht2F : (x2, t2) ∈ F := (List.mem_filter.1 ht2).1
      have hne12 : x1 ≠ x2 := by
        have := (List.mem_filter.1 ht2).2
        simp only [ne_eq, decide_eq_true_eq] at this
        exact fun e => this e.symm
      have c1 := countOf_Rep mem t1 x1 (hinv.rep _ ht1)
      have c2 := countOf_Rep mem t2 x2 (hinv.rep _ ht2F)
      have hinv1 := merge_inv freqs mem leaves F hinv x1 x2 t1 t2 ht1 ht2F hne12
        (wrap32 (countOf mem x1 + countOf mem x2))
      have hmap : List.map Prod.fst
          ((F.filter (fun e => decide (e.1 ≠ x1))).filter (fun e => decide (e.1 ≠ x2))
            ++ [(mem.length, Tree.node (wrap32 (countOf mem x1 + countOf mem x2)) t1 t2)])
          = pq_push (pq_pop (pq_pop (F.map Prod.fst) x1) x2) mem.length := by
        simp only [pq_push, pq_pop, hpq1, hpq2, List.map_append, List.map_cons, List.map_nil]
      have hFlen : (F.map Prod.fst).length = F.length := List.length_map _ _
      obtain ⟨mem1, R, T, hrun, hfin, hsteps⟩ := ih _ _ hinv1 (by
        have h3 := congrArg List.length hmap
        simp only [List.length_map, pq_push, pq_pop, List.length_append, List.length_singleton]
          at h3
        rw [hlen2, hlen1] at h3
        rw [List.length_append, List.length_singleton, h3]
        omega) (by simp)
      refine ⟨mem1, R, T, ?_, hfin, ?_⟩
      · rw [hmap] at hrun
        simp only [buildLoop, h1, if_true, hx1, pq_pop, hx2]
        simpa [pq_pop] using hrun
      · refine Steps.step _ _ _ ?_ hsteps
        refine ⟨t1, t2, Multiset.ofList (((F.filter (fun e => decide (e.1 ≠ x1))).filter
          (fun e => decide (e.1 ≠ x2))).map Prod.snd), ?_, ?_, ?_, ?_⟩
        · rw [forest_remove F x1 t1 hinv.nodup ht1, forest_remove _ x2 t2 nd1 ht2]
        · intro t ht
          simp only [Multiset.mem_coe] at ht
          obtain ⟨e, he, rfl⟩ := List.mem_map.1 ht
          have := min1 e.1 (List.mem_map_of_mem Prod.fst he)
          rw [c1, countOf_Rep mem e.2 e.1 (hinv.rep e he)] at this
          exact this
        · intro t ht
          rw [← forest_remove _ x2 t2 nd1 ht2] at ht
          simp only [Multiset.mem_coe] at ht
          obtain ⟨e, he, rfl⟩ := List.mem_map.1 ht
          have hmem : e.1 ∈ (F.map Prod.fst).erase x1 := by
            rw [hpq1]; exact List.mem_map_of_mem Prod.fst he
          have := min2 e.1 hmem
          rw [c2, countOf_Rep mem e.2 e.1 (hinv.rep e (List.mem_filter.1 he).1)] at this
          exact this
        · rw [c1, c2, List.map_append, ← Multiset.coe_add, add_comm]
          rfl
    · cases F with
      | nil => exact absurd rfl hne
      | cons e l =>
        cases l with
        | nil =>
          refine ⟨mem, e.1, e.2, ?_, hinv, Steps.refl _⟩
          simp [buildLoop]
        | cons e1 l1 => simp at h1

theorem syms_succ (freqs : List Int) (n : Nat) :
    syms freqs (n + 1) = syms freqs n ++ (if freqs.getD n 0 ≠ 0 then [n] else []) := by
  unfold syms
  rw [List.range_succ, List.filter_append]
  congr 1
  by_cases h : freqs.getD n 0 = 0
  · simp only [List.filter_cons, List.filter_nil, h, ne_eq, not_true_eq_false, decide_False,
      Bool.false_eq_true, if_false]
  · simp only [List.filter_cons, List.filter_nil, h, ne_eq, not_false_eq_true, decide_True,
      if_true]

theorem mem_syms (freqs : List Int) (n s : Nat) :
    s ∈ syms freqs n ↔ s < n ∧ freqs.getD s 0 ≠ 0 := by
  simp [syms]

theorem syms_nodup (freqs : List Int) (n : Nat) : (syms freqs n).Nodup :=
  (List.nodup_range n).filter _

/-- The state after `n` rounds of the first loop of `build` on a fresh tree. -/
theorem buildLeaves_spec (freqs : List Int) (n : Nat) :
    ((List.range n).foldl (buildLeaf freqs) (HCTree.fresh, [])).1.mem
        = (syms freqs n).map (newLeaf freqs) ∧
    ((List.range n).foldl (buildLeaf freqs) (HCTree.fresh, [])).2
        = List.range (syms freqs n).length ∧
    ((List.range n).foldl (buildLeaf freqs) (HCTree.fresh, [])).1.root = none ∧
    ((List.range n).foldl (buildLeaf freqs) (HCTree.fresh, [])).1.leaves.length = 256 ∧
    (∀ (s x : Nat),
      ((List.range n).foldl (buildLeaf freqs) (HCTree.fresh, [])).1.leaves[s]? = some (some x) →
        s < n ∧ s < 256 ∧ (syms freqs n)[x]? = some s) ∧
    (∀ (s : Nat), s < n → s < 256 → freqs.getD s 0 ≠ 0 →
      ∃ x, ((List.range n).foldl (buildLeaf freqs) (HCTree.fresh, [])).1.leaves[s]?
        = some (some x)) := by
  induction n with
  | zero =>
    have hm : HCTree.fresh.mem = [] := rfl
    have hr : HCTree.fresh.root = none := rfl
    have hl : HCTree.fresh.leaves = List.replicate 256 none := rfl
    refine ⟨by simp [syms, hm], by simp [syms], by simp [hr],
      by simp only [List.range_zero, List.foldl_nil, hl, List.length_replicate], ?_, ?_⟩
    · intro s x h
      simp only [List.range_zero, List.foldl_nil, hl] at h
      rw [List.getElem?_replicate] at h
      split at h <;> simp at h
    · intro s hs
      omega
  | succ n ih =>
    obtain ⟨i1, i2, i3, i4, i5, i6⟩ := ih
    rw [List.range_succ, List.foldl_append]
    simp only [List.foldl_cons, List.foldl_nil]
    generalize (List.range n).foldl (buildLeaf freqs) (HCTree.fresh, []) = st at *
    rw [syms_succ]
    by_cases h : freqs.getD n 0 = 0
    · simp only [buildLeaf, h, ne_eq, not_true_eq_false, if_false, List.append_nil]
      refine ⟨i1, i2, i3, i4, ?_, ?_⟩
      · intro s x hs
        obtain ⟨a, b, c⟩ := i5 s x hs
        exact ⟨by omega, b, c⟩
      · intro s hs hs2 hf
        have : s ≠ n := by
          intro e; rw [e] at hf; exact hf h
        exact i6 s (by omega) hs2 hf
    · simp only [buildLeaf, h, ne_eq, not_false_eq_true, if_true]
      refine ⟨?_, ?_, i3, ?_, ?_, ?_⟩
      · simp [i1, newLeaf]
      · simp [pq_push, i2, i1, List.range_succ]
      · simp [i4]
      · intro s x hs
        rw [List.getElem?_set] at hs
        by_cases e : n = s
        · subst e
          simp only [if_true] at hs
          split at hs
          · rename_i hlt
            simp only [Option.some.injEq] at hs
            subst hs
            refine ⟨by omega, by omega, ?_⟩
            simp [i1]
          · cases hs
        · simp only [e, if_false] at hs
          obtain ⟨a, b, c⟩ := i5 s x hs
          refine ⟨by omega, b, ?_⟩
          have hlt := (List.getElem?_eq_some_iff.1 c).1
          rw [List.getElem?_append_left hlt]
          exact c
      · intro s hs hs2 hf
        rw [List.getElem?_set]
        by_cases e : n = s
        · subst e
          simp [i4, hs2]
        · simp only [e, if_false]
          exact i6 s (by omega) hs2 hf

theorem leafForest_fst (freqs : List Int) :
    (leafForest freqs).map Prod.fst = List.range (syms freqs freqs.length).length := by
  simp only [leafForest, List.map_map]
  rw [← List.enum_map_fst]
  rfl

theorem leafForest_snd (freqs : List Int) :
    (leafForest freqs).map Prod.snd = (syms freqs freqs.length).map (leafTree freqs) := by
  simp only [leafForest, List.map_map]
  conv_rhs => rw [← List.enum_map_snd (syms freqs freqs.length), List.map_map]
  rfl

theorem mem_leafForest (freqs : List Int) (e : Nat × Tree) (h : e ∈ leafForest freqs) :
    ∃ s, (syms freqs freqs.length)[e.1]? = some s ∧ e.2 = leafTree freqs s := by
  simp only [leafForest, List.mem_map] at h
  obtain ⟨p, hp, rfl⟩ := h
  exact ⟨p.2, List.mem_enum_iff_getElem?.1 hp, rfl⟩

theorem buildLeaves_getElem (freqs : List Int) (x s : Nat)
    (h : (syms freqs freqs.length)[x]? = some s) :
    (buildLeaves freqs HCTree.fresh).1.mem[x]? = some (newLeaf freqs s) := by
  unfold buildLeaves
  rw [(buildLeaves_spec freqs freqs.length).1, List.getElem?_map, h]
  rfl

/-- After the first loop of `build` on a fresh tree the invariant of the
second loop holds. -/
theorem init_inv (freqs : List Int) :
    Inv freqs (buildLeaves freqs HCTree.fresh).1.mem (buildLeaves freqs HCTree.fresh).1.leaves
      (leafForest freqs) := by
  constructor
  · rw [leafForest_fst]
    exact List.nodup_range _
  · intro e he
    obtain ⟨s, hs, he2⟩ := mem_leafForest freqs e he
    rw [he2]
    exact (Rep_leaf_iff _ _ _ _).2
      ⟨newLeaf freqs s, buildLeaves_getElem freqs e.1 s hs, rfl, rfl, rfl, rfl⟩
  · intro e he
    obtain ⟨s, hs, he2⟩ := mem_leafForest freqs e he
    rw [he2]
    simp [leafTree, Linked]
  · intro e he
    obtain ⟨s, hs, he2⟩ := mem_leafForest freqs e he
    simp [parentOf, buildLeaves_getElem freqs e.1 s hs, newLeaf, HCNode.new]
  · intro x n hx
    unfold buildLeaves at hx
    rw [(buildLeaves_spec freqs freqs.length).1, List.getElem?_map] at hx
    cases hs : (syms freqs freqs.length)[x]? with
    | none => simp [hs] at hx
    | some s =>
      rw [hs] at hx
      simp only [Option.map, Option.some.injEq] at hx
      rw [← hx]
      simp [newLeaf, HCNode.new]
  · intro s x hs
    unfold buildLeaves at hs
    obtain ⟨_, _, hx⟩ := (buildLeaves_spec freqs freqs.length).2.2.2.2.1 s x hs
    refine ⟨(x, leafTree freqs s), ?_, [], by simp [ptrAt], by simp [Tree.sub, leafTree]⟩
    simp only [leafForest, List.mem_map]
    exact ⟨(x, s), List.mem_enum_iff_getElem?.2 hx, rfl⟩

/-- The outcome of `build` on a fresh tree when some frequency is not zero:
`root` points to a tree `T` for which the invariant holds and which arises
from the one-leaf trees by rounds of `Step`. -/
theorem build_spec (tie : List HCNode → List Nat → Nat) (freqs : List Int)
    (hne : syms freqs freqs.length ≠ []) :
    ∃ (R : Nat) (T : Tree), (build tie freqs HCTree.fresh).root = some R ∧
      Inv freqs (build tie freqs HCTree.fresh).mem (build tie freqs HCTree.fresh).leaves
        [(R, T)] ∧
      Steps (Multiset.ofList ((syms freqs freqs.length).map (leafTree freqs))) {T} := by
  have hpq : (buildLeaves freqs HCTree.fresh).2 = (leafForest freqs).map Prod.fst := by
    rw [leafForest_fst]
    exact (buildLeaves_spec freqs freqs.length).2.1
  have hF : leafForest freqs ≠ [] := by
    intro e
    have := congrArg (List.map Prod.fst) e
    rw [leafForest_fst] at this
    simp only [List.map_nil, List.range_eq_nil, List.length_eq_zero] at this
    exact hne this
  obtain ⟨mem1, R, T, hrun, hinv, hsteps⟩ :=
    buildLoop_inv tie freqs (buildLeaves freqs HCTree.fresh).1.leaves
      (buildLeaves freqs HCTree.fresh).2.length (buildLeaves freqs HCTree.fresh).1.mem
      (leafForest freqs) (init_inv freqs) (by rw [hpq, List.length_map]) hF
  rw [← hpq] at hrun
  rw [leafForest_snd] at hsteps
  refine ⟨R, T, ?_, ?_, hsteps⟩
  · simp only [build, hrun, List.length_singleton, ne_eq, one_ne_zero, not_false_eq_true,
      if_true, pq_top_singleton]
  · simp only [build, hrun]
    exact hinv

theorem Tree.sub_length_le (bs : List Bool) :
    ∀ (T T1 : Tree), T.sub bs = some T1 → bs.length + T1.height ≤ T.height := by
  induction bs with
  | nil =>
    intro T T1 h
    simp only [Tree.sub, Option.some.injEq] at h
    subst h
    simp
  | cons b bs ih =>
    intro T T1 h
    cases T with
    | leaf c s => simp [Tree.sub] at h
    | node c l r =>
      cases b with
      | false =>
        simp only [Tree.sub, Bool.false_eq_true, if_false] at h
        have := ih l T1 h
        simp only [Tree.height, List.length_cons]
        omega
      | true =>
        simp only [Tree.sub, if_true] at h
        have := ih r T1 h
        simp only [Tree.height, List.length_cons]
        omega

theorem foldl_write_bit (bs : List Bool) :
    ∀ out : FancyOutputStream, (bs.map bitInt).foldl write_bit out = out ++ bitCalls bs := by
  induction bs with
  | nil => intro out; simp [bitCalls]
  | cons b bs ih =>
    intro out
    simp only [List.map_cons, List.foldl_cons, ih, bitCalls, write_bit, List.append_assoc,
      List.singleton_append]
    cases b <;> simp [bitInt]

theorem bitsOf_append (a b : FancyOutputStream) : bitsOf (a ++ b) = bitsOf a ++ bitsOf b := by
  induction a with
  | nil => simp [bitsOf]
  | cons c a ih =>
    cases c <;> simp [bitsOf, ih]

theorem bitsOf_bitCalls (bs : List Bool) : bitsOf (bitCalls bs) = bs := by
  induction bs with
  | nil => simp [bitsOf, bitCalls]
  | cons b bs ih =>
    simp only [bitCalls, List.map_cons, bitsOf] at ih ⊢
    rw [ih]

/-- What `encode` writes for a symbol whose leaf is at the end of the way `bs`
from the root: the bits of `bs`, in order. -/
theorem encode_eq (t : HCTree) (T : Tree) (R x s : Nat) (bs : List Bool)
    (hroot : t.root = some R) (hrep : Rep t.mem T R) (hlink : Linked t.mem T R)
    (hleaf : t.leaves[s]? = some (some x)) (hp : ptrAt t.mem R bs = some x)
    (out : FancyOutputStream) : encode t s out = some (out ++ bitCalls bs) := by
  obtain ⟨T1, hs1, _⟩ := Rep_ptrAt t.mem bs T R x hrep hp
  have h1 := Tree.sub_length_le bs T T1 hs1
  have h2 := Rep_height t.mem T R hrep
  have hw := encodeLoop_walk t T R hroot hrep hlink bs x (t.mem.length + 1) [] hp (by omega)
  simp only [encode, hleaf, hw, List.nil_append]
  rw [← List.map_reverse, List.reverse_reverse, foldl_write_bit]

/-- What `decode` returns on a tree that lives in the store. -/
theorem decode_eq (eof : Int) (t : HCTree) (T : Tree) (R : Nat) (hroot : t.root = some R)
    (hrep : Rep t.mem T R) (inp : FancyInputStream) :
    decode eof t inp = some (T.decode eof inp) := by
  have h2 := Rep_height t.mem T R hrep
  simp only [decode, hroot]
  exact decodeLoop_eq eof t T R (t.mem.length + 1) inp hrep (by omega)

theorem build_leaves_some (tie : List HCNode → List Nat → Nat) (freqs : List Int) (s : Nat)
    (hs : s < freqs.length) (hs2 : s < 256) (hf : freqs.getD s 0 ≠ 0) :
    ∃ x, (build tie freqs HCTree.fresh).leaves[s]? = some (some x) :=
  (buildLeaves_spec freqs freqs.length).2.2.2.2.2 s hs hs2 hf

theorem syms_ne_nil (freqs : List Int) (s : Nat) (hs : s < freqs.length)
    (hf : freqs.getD s 0 ≠ 0) : syms freqs freqs.length ≠ [] := by
  intro e
  have := (mem_syms freqs freqs.length s).2 ⟨hs, hf⟩
  rw [e] at this
  simp at this

/-- The way from the root of the built tree to the leaf of a symbol of
nonzero frequency. -/
theorem build_path (tie : List HCNode → List Nat → Nat) (freqs : List Int) (s : Nat)
    (hs : s < freqs.length) (hs2 : s < 256) (hf : freqs.getD s 0 ≠ 0) :
    ∃ (R x : Nat) (T : Tree) (bs : List Bool),
      (build tie freqs HCTree.fresh).root = some R ∧
      Inv freqs (build tie freqs HCTree.fresh).mem (build tie freqs HCTree.fresh).leaves
        [(R, T)] ∧
      Steps (Multiset.ofList ((syms freqs freqs.length).map (leafTree freqs))) {T} ∧
      (build tie freqs HCTree.fresh).leaves[s]? = some (some x) ∧
      ptrAt (build tie freqs HCTree.fresh).mem R bs = some x ∧
      T.sub bs = some (.leaf (freqs.getD s 0) s) := by
  obtain ⟨R, T, hroot, hinv, hsteps⟩ := build_spec tie freqs (syms_ne_nil freqs s hs hf)
  obtain ⟨x, hx⟩ := build_leaves_some tie freqs s hs hs2 hf
  obtain ⟨e, he, bs, hp, hsub⟩ := hinv.leaf s x hx
  simp only [List.mem_singleton] at he
  subst he
  rw [Nat.mod_eq_of_lt hs2] at hsub
  exact ⟨R, x, T, bs, hroot, hinv, hsteps, hx, hp, hsub⟩

/-- C1: for a frequency table of 256 entries (non-negative or not) and a
symbol `s` of nonzero frequency, `encode` on the built tree writes a bit
sequence, and `decode` on a source holding exactly that sequence returns `s`
having read all of it. -/
theorem C1_decode_encode (tie : List HCNode → List Nat → Nat) (eof : Int) (freqs : List Int)
    (s : Nat) (out : FancyOutputStream) (hlen : freqs.length = 256)
    (hf : freqs.getD s 0 ≠ 0) :
    ∃ bs : List Bool,
      encode (build tie freqs HCTree.fresh) s out = some (out ++ bitCalls bs) ∧
      decode eof (build tie freqs HCTree.fresh) (FancyInputStream.ofBits bs)
        = some (s, FancyInputStream.ofBits []) := by
  have hs : s < freqs.length := by
    by_contra h
    apply hf
    simp [List.getElem?_eq_none (Nat.le_of_not_lt h)]
  obtain ⟨R, x, T, bs, hroot, hinv, _, hx, hp, hsub⟩ :=
    build_path tie freqs s hs (by omega) hf
  refine ⟨bs, ?_, ?_⟩
  · exact encode_eq _ T R x s bs hroot (hinv.rep (R, T) (List.mem_singleton.2 rfl))
      (hinv.linked (R, T) (List.mem_singleton.2 rfl)) hx hp out
  · rw [decode_eq eof _ T R hroot (hinv.rep (R, T) (List.mem_singleton.2 rfl))]
    have := Tree.decode_path eof bs T _ s [] true hsub
    simp only [List.append_nil] at this
    simp only [FancyInputStream.ofBits, this]

set_option maxRecDepth 100000 in
/-- C1 at the textbook table, symbol `a`. -/
theorem C1_decode_encode_witness :
    (exFreqs.length = 256 ∧ exFreqs.getD 97 0 ≠ 0) ∧
    ∃ bs : List Bool,
      encode (build (fun _ _ => 0) exFreqs HCTree.fresh) 97 [] = some ([] ++ bitCalls bs) ∧
      decode 0 (build (fun _ _ => 0) exFreqs HCTree.fresh) (FancyInputStream.ofBits bs)
        = some (97, FancyInputStream.ofBits []) :=
  ⟨⟨by decide, by decide⟩,
    C1_decode_encode (fun _ _ => 0) 0 exFreqs 97 [] (by decide) (by decide)⟩


theorem getD_nonneg (freqs : List Int) (hnn : ∀ f ∈ freqs, 0 ≤ f) (b : Nat) :
    0 ≤ freqs.getD b 0 := by
  by_cases h : b < freqs.length
  · rw [List.getD_eq_getElem _ _ h]
    exact hnn _ (List.getElem_mem h)
  · simp [List.getElem?_eq_none (Nat.le_of_not_lt h)]

theorem build_leaves_length (tie : List HCNode → List Nat → Nat) (freqs : List Int) :
    (build tie freqs HCTree.fresh).leaves.length = 256 :=
  (buildLeaves_spec freqs freqs.length).2.2.2.1

theorem build_leaves_nonzero (tie : List HCNode → List Nat → Nat) (freqs : List Int) (s x : Nat)
    (h : (build tie freqs HCTree.fresh).leaves[s]? = some (some x)) :
    s < freqs.length ∧ s < 256 ∧ freqs.getD s 0 ≠ 0 := by
  obtain ⟨h1, h2, h3⟩ := (buildLeaves_spec freqs freqs.length).2.2.2.2.1 s x h
  exact ⟨h1, h2, ((mem_syms freqs freqs.length s).1 (List.getElem?_mem h3)).2⟩

/-- C6: after `build` on a fresh tree with a table of 256 non-negative
entries, `leaves[b]` is non-null exactly when `freqs[b] > 0`; the node it
then points to has two null children, symbol `b` and weight `freqs[b]`, and
is reached from `root` by following child links. -/
theorem C6_leaf_table (tie : List HCNode → List Nat → Nat) (freqs : List Int) (b : Nat)
    (hlen : freqs.length = 256) (hnn : ∀ f ∈ freqs, 0 ≤ f) (hb : b < 256) :
    (build tie freqs HCTree.fresh).leaves.length = 256 ∧
    ((∃ x, (build tie freqs HCTree.fresh).leaves[b]? = some (some x)) ↔ 0 < freqs.getD b 0) ∧
    (∀ x, (build tie freqs HCTree.fresh).leaves[b]? = some (some x) →
      ∃ n, (build tie freqs HCTree.fresh).mem[x]? = some n ∧ n.c0 = none ∧ n.c1 = none ∧
        n.symbol = b ∧ n.count = freqs.getD b 0 ∧
        ∃ (R : Nat) (bs : List Bool), (build tie freqs HCTree.fresh).root = some R ∧
          ptrAt (build tie freqs HCTree.fresh).mem R bs = some x) := by
  have key : ∀ x, (build tie freqs HCTree.fresh).leaves[b]? = some (some x) →
      ∃ n, (build tie freqs HCTree.fresh).mem[x]? = some n ∧ n.c0 = none ∧ n.c1 = none ∧
        n.symbol = b ∧ n.count = freqs.getD b 0 ∧
        ∃ (R : Nat) (bs : List Bool), (build tie freqs HCTree.fresh).root = some R ∧
          ptrAt (build tie freqs HCTree.fresh).mem R bs = some x := by
    intro x hx
    obtain ⟨h1, h2, h3⟩ := build_leaves_nonzero tie freqs b x hx
    obtain ⟨R, x1, T, bs, hroot, hinv, _, hx1, hp, hsub⟩ := build_path tie freqs b h1 h2 h3
    rw [hx] at hx1
    simp only [Option.some.injEq] at hx1
    subst hx1
    obtain ⟨T1, hs1, hrep1⟩ := Rep_ptrAt _ bs T R x (hinv.rep (R, T) (List.mem_singleton.2 rfl)) hp
    rw [hsub] at hs1
    simp only [Option.some.injEq] at hs1
    subst hs1
    obtain ⟨n, hn, e1, e2, e3, e4⟩ := (Rep_leaf_iff _ _ _ _).1 hrep1
    exact ⟨n, hn, e3, e4, e2, e1, R, bs, hroot, hp⟩
  refine ⟨build_leaves_length tie freqs, ⟨?_, ?_⟩, key⟩
  · rintro ⟨x, hx⟩
    have h3 := (build_leaves_nonzero tie freqs b x hx).2.2
    have := getD_nonneg freqs hnn b
    omega
  · intro hpos
    exact build_leaves_some tie freqs b (by omega) hb (by omega)

set_option maxRecDepth 100000 in
/-- C6 at the textbook table, byte `a`. -/
theorem C6_leaf_table_witness :
    (exFreqs.length = 256 ∧ (∀ f ∈ exFreqs, 0 ≤ f) ∧ 97 < 256) ∧
    ((build (fun _ _ => 0) exFreqs HCTree.fresh).leaves.length = 256 ∧
    ((∃ x, (build (fun _ _ => 0) exFreqs HCTree.fresh).leaves[97]? = some (some x))
      ↔ 0 < exFreqs.getD 97 0) ∧
    (∀ x, (build (fun _ _ => 0) exFreqs HCTree.fresh).leaves[97]? = some (some x) →
      ∃ n, (build (fun _ _ => 0) exFreqs HCTree.fresh).mem[x]? = some n ∧ n.c0 = none ∧
        n.c1 = none ∧ n.symbol = 97 ∧ n.count = exFreqs.getD 97 0 ∧
        ∃ (R : Nat) (bs : List Bool), (build (fun _ _ => 0) exFreqs HCTree.fresh).root = some R ∧
          ptrAt (build (fun _ _ => 0) exFreqs HCTree.fresh).mem R bs = some x)) :=
  ⟨⟨by decide, by decide, by decide⟩,
    C6_leaf_table (fun _ _ => 0) exFreqs 97 (by decide) (by decide) (by decide)⟩

theorem Steps_singleton (a : Tree) (G : Multiset Tree) (h : Steps {a} G) : G = {a} := by
  generalize hF : ({a} : Multiset Tree) = F at h
  cases h with
  | refl => rfl
  | step F1 F2 F3 hstep _ =>
    obtain ⟨t1, t2, R, hF1, _⟩ := hstep
    rw [← hF] at hF1
    have := congrArg Multiset.card hF1
    simp at this

theorem syms_single (freqs : List Int) (s : Nat) (hs : s < freqs.length)
    (hf : freqs.getD s 0 ≠ 0) (hz : ∀ i, i ≠ s → freqs.getD i 0 = 0) :
    syms freqs freqs.length = [s] := by
  have hperm : (syms freqs freqs.length).Perm [s] := by
    rw [List.perm_ext_iff_of_nodup (syms_nodup freqs freqs.length) (List.nodup_singleton s)]
    intro a
    rw [mem_syms, List.mem_singleton]
    constructor
    · rintro ⟨_, ha⟩
      by_contra hne
      exact ha (hz a hne)
    · rintro rfl
      exact ⟨hs, hf⟩
  exact List.perm_singleton.1 hperm

/-- C8: when exactly one entry of the table, at `s`, is not zero, `root` is a
leaf carrying `s`, `encode` of `s` writes nothing, and `decode` returns `s`
without reading a bit. -/
theorem C8_single_symbol (tie : List HCNode → List Nat → Nat) (eof : Int) (freqs : List Int)
    (s : Nat) (hlen : freqs.length = 256) (hs : s < 256) (hf : freqs.getD s 0 ≠ 0)
    (hz : ∀ i, i < 256 → i ≠ s → freqs.getD i 0 = 0) :
    ∃ (R : Nat) (n : HCNode), (build tie freqs HCTree.fresh).root = some R ∧
      (build tie freqs HCTree.fresh).mem[R]? = some n ∧ n.c0 = none ∧ n.c1 = none ∧
      n.symbol = s ∧
      (∀ out : FancyOutputStream, encode (build tie freqs HCTree.fresh) s out = some out) ∧
      (∀ inp : FancyInputStream,
        decode eof (build tie freqs HCTree.fresh) inp = some (s, inp)) := by
  obtain ⟨R, x, T, bs, hroot, hinv, hsteps, hx, hp, hsub⟩ :=
    build_path tie freqs s (by omega) hs hf
  have hz1 : ∀ i, i ≠ s → freqs.getD i 0 = 0 := by
    intro i hi
    by_cases h : i < 256
    · exact hz i h hi
    · simp [List.getElem?_eq_none (by omega : freqs.length ≤ i)]
  rw [syms_single freqs s (by omega) hf hz1] at hsteps
  have hT := Steps_singleton _ _ hsteps
  simp only [List.map_cons, List.map_nil, Multiset.coe_singleton, Multiset.singleton_inj]
    at hT
  have hrep := hinv.rep (R, T) (List.mem_singleton.2 rfl)
  have hlink := hinv.linked (R, T) (List.mem_singleton.2 rfl)
  simp only [hT, leafTree, Nat.mod_eq_of_lt hs] at hrep hlink hsub
  have hbs : bs = [] := by
    cases bs with
    | nil => rfl
    | cons b l => simp [Tree.sub] at hsub
  subst hbs
  obtain ⟨n, hn, _, e2, e3, e4⟩ := (Rep_leaf_iff _ _ _ _).1 hrep
  refine ⟨R, n, hroot, hn, e3, e4, e2, ?_, ?_⟩
  · intro out
    have := encode_eq _ _ R x s [] hroot hrep hlink hx hp out
    simpa [bitCalls] using this
  · intro inp
    rw [decode_eq eof _ _ R hroot hrep]
    simp [Tree.decode]

set_option maxRecDepth 100000 in
/-- C8 at a table whose only nonzero entry is at byte 65. -/
theorem C8_single_symbol_witness :
    (oneFreqs.length = 256 ∧ 65 < 256 ∧ oneFreqs.getD 65 0 ≠ 0 ∧
      (∀ i, i < 256 → i ≠ 65 → oneFreqs.getD i 0 = 0)) ∧
    ∃ (R : Nat) (n : HCNode), (build (fun _ _ => 0) oneFreqs HCTree.fresh).root = some R ∧
      (build (fun _ _ => 0) oneFreqs HCTree.fresh).mem[R]? = some n ∧ n.c0 = none ∧
      n.c1 = none ∧ n.symbol = 65 ∧
      (∀ out : FancyOutputStream,
        encode (build (fun _ _ => 0) oneFreqs HCTree.fresh) 65 out = some out) ∧
      (∀ inp : FancyInputStream,
        decode 0 (build (fun _ _ => 0) oneFreqs HCTree.fresh) inp = some (65, inp)) :=
  ⟨⟨by decide, by decide, by decide, by decide⟩,
    C8_single_symbol (fun _ _ => 0) 0 oneFreqs 65 (by decide) (by decide) (by decide)
      (by decide)⟩

set_option maxRecDepth 100000 in
/-- C7: for the all-zero table `build` on a fresh tree leaves `root` null and
all 256 entries of `leaves` null, and `serialize` then makes no `write<int>`
and no `write_bit` call: the only call on the sink is the closing `flush`. -/
theorem C7_empty_table (tie : List HCNode → List Nat → Nat) (out : FancyOutputStream) :
    (build tie (List.replicate 256 0) HCTree.fresh).root = none ∧
    (build tie (List.replicate 256 0) HCTree.fresh).leaves = List.replicate 256 none ∧
    serialize (build tie (List.replicate 256 0) HCTree.fresh) out
      = some (out ++ [OutCall.flush]) := by
  have h : build tie (List.replicate 256 0) HCTree.fresh = HCTree.fresh := by
    rfl
  rw [h]
  exact ⟨rfl, rfl, rfl⟩

theorem two_pow_cast (i : Nat) : (2 : Int) ^ i = ((2 ^ i : Nat) : Int) := by
  push_cast
  rfl

theorem ldiff_two_pow (m i : Nat) :
    Nat.ldiff (2 ^ i) m = if m.testBit i then 0 else 2 ^ i := by
  apply Nat.eq_of_testBit_eq
  intro j
  rw [Nat.testBit_ldiff, Nat.testBit_two_pow]
  by_cases hij : i = j
  · subst hij
    cases h : m.testBit i <;> simp [Nat.testBit_two_pow]
  · cases h : m.testBit i <;> simp [hij, Nat.testBit_two_pow]

theorem two_pow_shiftRight (i : Nat) : (2 ^ i) >>> i = 1 := by
  rw [Nat.shiftRight_eq_div_pow]
  exact Nat.div_self (Nat.pos_pow_of_pos i (by norm_num))

set_option maxRecDepth 100000 in
theorem testBit_byte_pos :
    ∀ k, k < 256 → ∀ i, i < 8 → decide ((k &&& 2 ^ i) >>> i = 1) = k.testBit i := by
  decide

set_option maxRecDepth 100000 in
theorem testBit_byte_neg :
    ∀ k, k < 256 → ∀ i, i < 8 → (255 - k).testBit i = !k.testBit i := by
  decide

/-- The test of line 243 reads bit `i` of the byte, for a byte below 128 as
for a byte from 128 on. -/
theorem charBit_toChar (s i : Nat) (hi : i < 8) : charBit (toChar s) i = s.testBit i := by
  have hk : s % 256 < 256 := Nat.mod_lt _ (by norm_num)
  have hs : s.testBit i = (s % 256).testBit i := by
    have := Nat.testBit_mod_two_pow s 8 i
    simp only [hi, decide_True, Bool.true_and] at this
    exact this.symm
  rw [hs]
  unfold toChar charBit
  generalize s % 256 = k at hk
  rw [two_pow_cast]
  by_cases h : 128 ≤ k
  · have e : ((k : Nat) : Int) - 256 = Int.negSucc (255 - k) := by
      rw [Int.negSucc_eq]
      omega
    simp only [h, if_true, e]
    have e2 : Int.land (Int.negSucc (255 - k)) ((2 ^ i : Nat) : Int)
        = ((Nat.ldiff (2 ^ i) (255 - k) : Nat) : Int) := rfl
    rw [e2, ldiff_two_pow, testBit_byte_neg k hk i hi]
    cases hb : k.testBit i
    · simp only [Bool.not_false, if_true]
      have : Int.shiftRight ((0 : Nat) : Int) i = ((0 >>> i : Nat) : Int) := rfl
      rw [this]
      simp
    · simp only [Bool.not_true, Bool.false_eq_true, if_false]
      have : Int.shiftRight ((2 ^ i : Nat) : Int) i = (((2 ^ i) >>> i : Nat) : Int) := rfl
      rw [this, two_pow_shiftRight]
      simp
  · simp only [h, if_false]
    have e2 : Int.land ((k : Nat) : Int) ((2 ^ i : Nat) : Int) = ((k &&& 2 ^ i : Nat) : Int) := rfl
    have e3 : Int.shiftRight ((k &&& 2 ^ i : Nat) : Int) i
        = (((k &&& 2 ^ i) >>> i : Nat) : Int) := rfl
    rw [e2, e3, ← testBit_byte_pos k hk i hi]
    congr 1
    exact propext (by exact_mod_cast Iff.rfl)

/-- The loop of lines 239-249 writes the 8 bits of the byte, most
significant first. -/
theorem writeSymbol_eq (s : Nat) (out : FancyOutputStream) :
    writeSymbol (toChar s) out
      = out ++ bitCalls ([7, 6, 5, 4, 3, 2, 1, 0].map (fun i => Nat.testBit s i)) := by
  simp only [writeSymbol, List.foldl_cons, List.foldl_nil,
    charBit_toChar s 7 (by norm_num), charBit_toChar s 6 (by norm_num),
    charBit_toChar s 5 (by norm_num), charBit_toChar s 4 (by norm_num),
    charBit_toChar s 3 (by norm_num), charBit_toChar s 2 (by norm_num),
    charBit_toChar s 1 (by norm_num), charBit_toChar s 0 (by norm_num)]
  have hw : ∀ (o : FancyOutputStream) (b : Bool),
      (if b = true then write_bit o 1 else write_bit o 0) = o ++ [OutCall.writeBit b] := by
    intro o b
    cases b <;> simp [write_bit]
  simp only [hw, bitCalls, List.map_cons, List.map_nil, List.append_assoc, List.singleton_append,
    List.cons_append, List.nil_append]

theorem serialization_null (t : HCTree) (R fuel : Nat) (hroot : t.root = some R)
    (out : FancyOutputStream) : serialization t (fuel + 1) none out = some out := by
  simp [serialization, hroot]

/-- Below the root `serialization` writes the preorder encoding of the
subtree and nothing else. -/
theorem serialization_below (t : HCTree) (R : Nat) (hroot : t.root = some R) (T : Tree) :
    ∀ (x fuel : Nat) (out : FancyOutputStream), Rep t.mem T x →
      (∀ bs y, ptrAt t.mem x bs = some y → y ≠ R) → T.height + 2 ≤ fuel →
      serialization t fuel (some x) out = some (out ++ bitCalls T.enc) := by
  induction T with
  | leaf c s =>
    intro x fuel out hrep hne hf
    obtain ⟨n, hn, _, e2, e3, e4⟩ := (Rep_leaf_iff t.mem c s x).1 hrep
    obtain ⟨f, rfl⟩ : ∃ f, fuel = f + 2 := ⟨fuel - 2, by omega⟩
    have hx : x ≠ R := hne [] x (by simp [ptrAt])
    have hx2 : ¬ (some x = some R) := by simpa using hx
    simp only [serialization, hroot, hx2, if_false, hn, e3, e4, and_self, if_true, e2,
      reduceCtorEq, Option.map]
    rw [writeSymbol_eq]
    simp [Tree.enc, bitCalls, write_bit]
  | node c l r ihl ihr =>
    intro x fuel out hrep hne hf
    obtain ⟨n, a, b, hn, _, e2, e3, e4, e5⟩ := (Rep_node_iff t.mem c l r x).1 hrep
    obtain ⟨f, rfl⟩ : ∃ f, fuel = f + 1 := ⟨fuel - 1, by omega⟩
    have hx : x ≠ R := hne [] x (by simp [ptrAt])
    have hx2 : ¬ (some x = some R) := by simpa using hx
    simp only [Tree.height] at hf
    have hl := ihl a f (write_bit out 0) e4 (by
      intro bs y hp
      exact hne (false :: bs) y (by simp [ptrAt, hn, HCNode.child, e2, hp])) (by omega)
    have hr := ihr b f (write_bit out 0 ++ bitCalls l.enc) e5 (by
      intro bs y hp
      exact hne (true :: bs) y (by simp [ptrAt, hn, HCNode.child, e3, hp])) (by omega)
    simp only [serialization, hroot, hx2, if_false, hn, e2, e3, reduceCtorEq, false_and, hl, hr]
    simp [Tree.enc, bitCalls, write_bit]

/-- What `serialization(root, out)` writes: the header, then the preorder
encoding of the whole tree. -/
theorem serialization_root (t : HCTree) (R : Nat) (hroot : t.root = some R) (T : Tree)
    (hrep : Rep t.mem T R) (fuel : Nat) (hf : T.height + 2 ≤ fuel) (out : FancyOutputStream) :
    serialization t fuel (some R) out
      = some (out ++ [OutCall.writeInt T.count] ++ bitCalls T.enc) := by
  obtain ⟨f, rfl⟩ : ∃ f, fuel = f + 1 := ⟨fuel - 1, by omega⟩
  cases T with
  | leaf c s =>
    obtain ⟨n, hn, e1, e2, e3, e4⟩ := (Rep_leaf_iff t.mem c s R).1 hrep
    obtain ⟨g, rfl⟩ : ∃ g, f = g + 1 := ⟨f - 1, by simp [Tree.height] at hf; omega⟩
    simp only [serialization, hroot, if_true, deref, hn, Option.map, e3, e4, and_self, e2, e1,
      reduceCtorEq, if_false]
    rw [writeSymbol_eq]
    simp [Tree.enc, bitCalls, write_bit, Tree.count]
  | node c l r =>
    obtain ⟨n, a, b, hn, e1, e2, e3, e4, e5⟩ := (Rep_node_iff t.mem c l r R).1 hrep
    simp only [Tree.height] at hf
    have ha : ∀ bs y, ptrAt t.mem a bs = some y → y ≠ R := by
      intro bs y hp e
      rw [e] at hp
      have := Rep_acyclic t.mem _ R (false :: bs) hrep
        (by simp [ptrAt, hn, HCNode.child, e2, hp])
      simp at this
    have hb : ∀ bs y, ptrAt t.mem b bs = some y → y ≠ R := by
      intro bs y hp e
      rw [e] at hp
      have := Rep_acyclic t.mem _ R (true :: bs) hrep
        (by simp [ptrAt, hn, HCNode.child, e3, hp])
      simp at this
    have hl := serialization_below t R hroot l a f
      (write_bit (out ++ [OutCall.writeInt c]) 0) e4 ha (by omega)
    have hr := serialization_below t R hroot r b f
      (write_bit (out ++ [OutCall.writeInt c]) 0 ++ bitCalls l.enc) e5 hb (by omega)
    simp only [serialization, hroot, if_true, deref, hn, Option.map, e1, e2, e3, reduceCtorEq,
      false_and, if_false, hl, hr]
    simp [Tree.enc, bitCalls, write_bit, Tree.count]

/-- What `serialize` does on a tree whose root unfolds to `T`: one
`write<int>` of the root's weight, the bits of `enc T`, and `flush`. -/
theorem serialize_eq (t : HCTree) (T : Tree) (R : Nat) (out : FancyOutputStream)
    (hroot : t.root = some R) (hrep : Rep t.mem T R) :
    serialize t out
      = some (out ++ [OutCall.writeInt T.count] ++ bitCalls T.enc ++ [OutCall.flush]) := by
  have h := Rep_height t.mem T R hrep
  simp only [serialize, hroot]
  rw [serialization_root t R hroot T hrep (t.mem.length + 1) (by omega) out]

/-- C4: for every tree with a non-null root, `serialize` first writes the
root's weight with one `write<int>` call, then exactly the preorder encoding
`enc` of the tree bit by bit (a leaf is bit 1 and the 8 bits of its symbol,
most significant first, for every byte value; an inner node is bit 0, the
left subtree, the right subtree), and then only flushes. -/
theorem C4_serialize_format (t : HCTree) (T : Tree) (R : Nat) (out : FancyOutputStream)
    (hroot : t.root = some R) (hrep : Rep t.mem T R) :
    serialize t out
      = some (out ++ [OutCall.writeInt T.count] ++ bitCalls T.enc ++ [OutCall.flush]) :=
  serialize_eq t T R out hroot hrep

/-- C4 at a three-node tree whose right leaf carries byte 200. -/
theorem C4_serialize_format_witness :
    (smallTree.root = some 0 ∧
      Rep smallTree.mem (.node 5 (.leaf 2 97) (.leaf 3 200)) 0) ∧
    serialize smallTree []
      = some ([] ++ [OutCall.writeInt (Tree.node 5 (.leaf 2 97) (.leaf 3 200)).count]
          ++ bitCalls (Tree.node 5 (.leaf 2 97) (.leaf 3 200)).enc ++ [OutCall.flush]) :=
  ⟨⟨rfl, (by simp [Rep, smallMem] : Rep smallMem _ 0)⟩,
    C4_serialize_format smallTree (.node 5 (.leaf 2 97) (.leaf 3 200)) 0 [] rfl
      (by simp [Rep, smallMem] : Rep smallMem _ 0)⟩

theorem setCharBit_testBit (d i : Nat) (bit : Int) (j : Nat) :
    (setCharBit d i bit).testBit j
      = (decide (j < 8) && (if i = j then decide (bit = 1) else d.testBit j)) := by
  have hclr : Int.land (d : Int) (Int.lnot ((2 : Int) ^ i)) = ((Nat.ldiff d (2 ^ i) : Nat) : Int) := by
    rw [two_pow_cast]
    rfl
  have hor : ∀ a b : Nat, Int.lor (a : Int) (b : Int) = ((a ||| b : Nat) : Int) := fun _ _ => rfl
  unfold setCharBit
  simp only [hclr]
  by_cases hb : bit = 1
  · simp only [hb, if_true, two_pow_cast, hor, decide_True]
    have : ((((Nat.ldiff d (2 ^ i) ||| 2 ^ i : Nat) : Int) % 256).toNat)
        = (Nat.ldiff d (2 ^ i) ||| 2 ^ i) % 2 ^ 8 := by
      norm_cast
    rw [this, Nat.testBit_mod_two_pow, Nat.testBit_or, Nat.testBit_ldiff, Nat.testBit_two_pow]
    by_cases hij : i = j <;> simp [hij]
  · simp only [hb, if_false, decide_False]
    have h0 : Int.lor ((Nat.ldiff d (2 ^ i) : Nat) : Int) 0 = ((Nat.ldiff d (2 ^ i) ||| 0 : Nat) : Int) :=
      rfl
    rw [h0]
    have : ((((Nat.ldiff d (2 ^ i) ||| 0 : Nat) : Int) % 256).toNat)
        = (Nat.ldiff d (2 ^ i) ||| 0) % 2 ^ 8 := by
      norm_cast
    rw [this, Nat.testBit_mod_two_pow, Nat.testBit_or, Nat.testBit_ldiff, Nat.testBit_two_pow]
    by_cases hij : i = j <;> simp [hij]

theorem bitInt_eq_one (b : Bool) : decide (bitInt b = 1) = b := by
  cases b <;> simp [bitInt]

/-- The loop of lines 322-336 reads back the byte whose 8 bits lie ahead in
the source, most significant first. -/
theorem readSymbol_eq (eof : Int) (s : Nat) (rest : List Bool) (g : Bool) (bc : Int) :
    readSymbol eof
        { bits := [7, 6, 5, 4, 3, 2, 1, 0].map (fun i => Nat.testBit s i) ++ rest, good := g } bc
      = (s % 256, { bits := rest, good := g }, bc + 8) := by
  simp only [readSymbol, List.map_cons, List.map_nil, List.cons_append, List.nil_append,
    List.foldl_cons, List.foldl_nil, readSymbolBit, read_bit_cons]
  refine Prod.ext ?_ (Prod.ext rfl (by simp only; ring))
  simp only
  apply Nat.eq_of_testBit_eq
  intro j
  have h8 : (s % 256).testBit j = (decide (j < 8) && s.testBit j) :=
    Nat.testBit_mod_two_pow s 8 j
  rw [h8]
  simp only [setCharBit_testBit, bitInt_eq_one, Nat.zero_testBit]
  by_cases hj : j < 8
  · interval_cases j <;> simp
  · simp [hj]

theorem setC0_mid (M rest : List HCNode) (n : HCNode) (v : Option Nat) :
    setC0 (M ++ n :: rest) M.length v = M ++ { n with c0 := v } :: rest := by
  unfold setC0
  rw [List.getElem?_append_right (Nat.le_refl _)]
  simp [List.set_append_right]

theorem setC1_mid (M rest : List HCNode) (n : HCNode) (v : Option Nat) :
    setC1 (M ++ n :: rest) M.length v = M ++ { n with c1 := v } :: rest := by
  unfold setC1
  rw [List.getElem?_append_right (Nat.le_refl _)]
  simp [List.set_append_right]

theorem layout_length (T : Tree) : ∀ x, (layout T x).length = T.size := by
  induction T with
  | leaf c s => intro x; simp [layout, Tree.size]
  | node c l r ihl ihr =>
    intro x
    simp only [layout, List.length_cons, List.length_append, ihl, ihr, Tree.size]

theorem Tree.enc_length_pos (T : Tree) : 0 < T.enc.length := by
  cases T <;> simp [Tree.enc]

theorem Tree.Bytes_node (c : Int) (l r : Tree) (h : (Tree.node c l r).Bytes) :
    l.Bytes ∧ r.Bytes := by
  constructor
  · intro p hp
    exact h p (by simp [Tree.leafList, hp])
  · intro p hp
    exact h p (by simp [Tree.leafList, hp])

/-- On a source that starts with the encoding of a tree, and with `len` large
enough for the index of every node, `deseriallization` allocates the nodes
of the tree in preorder, fills `leaves`, and reads exactly the encoding. -/
theorem deseriallization_enc (eof : Int) (len : Int) (T : Tree) :
    ∀ (fuel : Nat) (st : DesState) (rest : List Bool) (g : Bool), T.Bytes →
      st.inp = { bits := T.enc ++ rest, good := g } → st.index + T.size ≤ len →
      T.height < fuel →
      deseriallization eof len fuel st = some (some st.mem.length,
        { mem := st.mem ++ layout T st.mem.length,
          leaves := layLeaves T st.mem.length st.leaves,
          index := st.index + T.size - 1,
          inp := { bits := rest, good := g },
          bitcounter := st.bitcounter + T.enc.length }) := by
  induction T with
  | leaf c s =>
    intro fuel st rest g hby hinp hidx hf
    obtain ⟨f, rfl⟩ : ∃ f, fuel = f + 1 := ⟨fuel - 1, by omega⟩
    have hs : s < 256 := hby (c, s) (by simp [Tree.leafList])
    simp only [Tree.size, Nat.cast_one] at hidx
    have hguard : ¬ st.index ≥ len := by omega
    simp only [deseriallization, hguard, if_false, hinp, Tree.enc, List.cons_append,
      read_bit_cons, bitInt, if_true, one_ne_zero, readSymbol_eq, Nat.mod_eq_of_lt hs,
      layout, layLeaves, Tree.size, Nat.cast_one, List.length_cons, List.length_map,
      List.length_nil]
    congr 3
    · ring
    · push_cast; ring
  | node c l r ihl ihr =>
    intro fuel st rest g hby hinp hidx hf
    obtain ⟨f, rfl⟩ : ∃ f, fuel = f + 1 := ⟨fuel - 1, by omega⟩
    obtain ⟨hbl, hbr⟩ := Tree.Bytes_node c l r hby
    simp only [Tree.size, Nat.cast_add, Nat.cast_one] at hidx
    simp only [Tree.height] at hf
    have hguard : ¬ st.index ≥ len := by omega
    have hl := ihl f
      { mem := st.mem ++ [HCNode.new 0 96], leaves := st.leaves, index := st.index + 1,
        inp := { bits := l.enc ++ (r.enc ++ rest), good := g },
        bitcounter := st.bitcounter + 1 }
      (r.enc ++ rest) g hbl rfl (by simp only; omega) (by omega)
    simp only [List.length_append, List.length_singleton] at hl
    have hr := ihr f
      { mem := st.mem ++ { count := 0, symbol := 96, c0 := some (st.mem.length + 1),
                           c1 := none, p := none } :: layout l (st.mem.length + 1),
        leaves := layLeaves l (st.mem.length + 1) st.leaves,
        index := st.index + 1 + l.size - 1 + 1,
        inp := { bits := r.enc ++ rest, good := g },
        bitcounter := st.bitcounter + 1 + l.enc.length }
      rest g hbr rfl (by simp only; omega) (by omega)
    simp only [List.length_append, List.length_cons, layout_length] at hr
    simp only [deseriallization, hguard, if_false, hinp, Tree.enc, List.cons_append,
      read_bit_cons, bitInt, Bool.false_eq_true, if_true, List.append_assoc, hl]
    have hm : setC0 (st.mem ++ HCNode.new 0 96 :: ([] ++ layout l (st.mem.length + 1)))
        st.mem.length (some (st.mem.length + 1))
        = st.mem ++ { count := 0, symbol := 96, c0 := some (st.mem.length + 1),
                      c1 := none, p := none } :: layout l (st.mem.length + 1) := by
      rw [List.nil_append, setC0_mid]
      rfl
    simp only [hm, hr, List.append_assoc, List.cons_append]
    rw [setC1_mid]
    simp only [layout, layLeaves, Tree.size, List.length_cons, List.length_append, Nat.cast_add,
      Nat.cast_one, List.cons_append, List.append_assoc]
    have e1 : st.mem.length + (l.size + 1) = st.mem.length + 1 + l.size := by omega
    have e2 : st.index + 1 + (l.size : Int) - 1 + 1 + (r.size : Int) - 1
        = st.index + ((l.size : Int) + (r.size : Int) + 1) - 1 := by ring
    have e3 : st.bitcounter + 1 + (l.enc.length : Int) + (r.enc.length : Int)
        = st.bitcounter + ((l.enc.length : Int) + (r.enc.length : Int) + 1) := by ring
    rw [e1, e2, e3]

/-- The nodes allocated for the encoding of a tree unfold to the shape of
that tree. -/
theorem Rep_layout (T : Tree) :
    ∀ (pre post : List HCNode), Rep (pre ++ layout T pre.length ++ post) T.shape pre.length := by
  induction T with
  | leaf c s =>
    intro pre post
    refine (Rep_leaf_iff _ _ _ _).2 ⟨HCNode.new 0 s, ?_, rfl, rfl, rfl, rfl⟩
    simp only [layout, List.append_assoc, List.singleton_append]
    rw [List.getElem?_append_right (Nat.le_refl _)]
    simp
  | node c l r ihl ihr =>
    intro pre post
    have hl := ihl (pre ++ [HCNode.mk 0 96 (some (pre.length + 1))
      (some (pre.length + 1 + l.size)) none])
      (layout r (pre.length + 1 + l.size) ++ post)
    have hr := ihr (pre ++ [HCNode.mk 0 96 (some (pre.length + 1))
      (some (pre.length + 1 + l.size)) none] ++ layout l (pre.length + 1)) post
    simp only [List.length_append, List.length_singleton, layout_length] at hl hr
    refine (Rep_node_iff _ _ _ _ _).2 ⟨HCNode.mk 0 96 (some (pre.length + 1))
      (some (pre.length + 1 + l.size)) none, pre.length + 1, pre.length + 1 + l.size, ?_, rfl,
      rfl, rfl, ?_, ?_⟩
    · simp only [layout, List.append_assoc, List.cons_append]
      rw [List.getElem?_append_right (Nat.le_refl _)]
      simp
    · simpa [layout, List.append_assoc] using hl
    · simpa [layout, List.append_assoc] using hr

theorem layLeaves_length (T : Tree) :
    ∀ (x : Nat) (L : List (Option Nat)), (layLeaves T x L).length = L.length := by
  induction T with
  | leaf c s => intro x L; simp [layLeaves]
  | node c l r ihl ihr => intro x L; simp [layLeaves, ihl, ihr]

/-- An entry of `leaves` is non-null after reading the encoding of a tree
exactly when it was non-null before or its index is a leaf symbol. -/
theorem layLeaves_some (T : Tree) :
    ∀ (x : Nat) (L : List (Option Nat)) (s : Nat),
      (∃ y, (layLeaves T x L)[s]? = some (some y)) ↔
        ((s < L.length ∧ s ∈ T.symbols) ∨ ∃ y, L[s]? = some (some y)) := by
  induction T with
  | leaf c s0 =>
    intro x L s
    simp only [layLeaves, Tree.symbols, Tree.leafList, List.map_cons, List.map_nil,
      List.mem_singleton, List.getElem?_set]
    by_cases h : s0 = s
    · subst h
      by_cases hlt : s0 < L.length
      · simp [hlt]
      · simp only [hlt, if_false, if_true, false_and, false_or]
        simp
        intro y hy
        exact hlt (List.getElem?_eq_some_iff.1 hy).1
    · have : ¬ s = s0 := fun e => h e.symm
      simp [h, this]
  | node c l r ihl ihr =>
    intro x L s
    simp only [layLeaves]
    rw [ihr, ihl, layLeaves_length]
    simp only [Tree.symbols, Tree.leafList, List.map_append, List.mem_append]
    constructor
    · rintro (⟨h1, h2⟩ | ⟨h1, h2⟩ | h)
      · exact Or.inl ⟨h1, Or.inr h2⟩
      · exact Or.inl ⟨h1, Or.inl h2⟩
      · exact Or.inr h
    · rintro (⟨h1, h2 | h2⟩ | h)
      · exact Or.inr (Or.inl ⟨h1, h2⟩)
      · exact Or.inl ⟨h1, h2⟩
      · exact Or.inr (Or.inr h)

theorem Tree.size_le_enc (T : Tree) : T.size ≤ T.enc.length := by
  induction T with
  | leaf c s => simp [Tree.size, Tree.enc]
  | node c l r ihl ihr =>
    simp only [Tree.size, Tree.enc, List.length_cons, List.length_append]
    omega

theorem Tree.height_lt_size (T : Tree) : T.height < T.size := by
  induction T with
  | leaf c s => simp [Tree.size, Tree.height]
  | node c l r ihl ihr =>
    simp only [Tree.size, Tree.height]
    omega

theorem Tree.decode_shape (eof : Int) (T : Tree) :
    ∀ inp, T.shape.decode eof inp = T.decode eof inp := by
  induction T with
  | leaf c s => intro inp; rfl
  | node c l r ihl ihr =>
    intro inp
    simp only [Tree.shape, Tree.decode, ihl, ihr]

theorem wrap32_eq (x : Int) (h0 : -2147483648 ≤ x) (h1 : x < 2147483648) : wrap32 x = x := by
  unfold wrap32
  omega

theorem Tree.count_node (c : Int) (l r : Tree) : (Tree.node c l r).count = c := rfl

theorem Step_leavesOf (F F1 : Multiset Tree) (h : Step F F1) : leavesOf F1 = leavesOf F := by
  obtain ⟨t1, t2, R, hF, _, _, hF1⟩ := h
  subst hF hF1
  simp only [leavesOf, Multiset.cons_bind, Tree.leafList, ← Multiset.coe_add, add_assoc]

/-- The rounds of the second loop of `build` keep the leaves of the queue. -/
theorem Steps_leavesOf (F G : Multiset Tree) (h : Steps F G) : leavesOf G = leavesOf F := by
  induction h with
  | refl => rfl
  | step F F1 F2 hstep _ ih => rw [ih, Step_leavesOf F F1 hstep]

/-- Without overflow a round of the loop stores the exact sum in the new
node and keeps `NoOvf`. -/
theorem Step_exact (F F1 : Multiset Tree) (h : Step F F1) (hno : NoOvf F) :
    NoOvf F1 ∧ ∃ (t1 t2 : Tree) (R : Multiset Tree), F = t1 ::ₘ t2 ::ₘ R ∧
      (∀ t ∈ F, t1.count ≤ t.count) ∧ (∀ t ∈ t2 ::ₘ R, t2.count ≤ t.count) ∧
      F1 = Tree.node (t1.count + t2.count) t1 t2 ::ₘ R ∧
      0 ≤ t1.count ∧ 0 ≤ t2.count := by
  obtain ⟨t1, t2, R, hF, m1, m2, hF1⟩ := h
  obtain ⟨hnn, hsum⟩ := hno
  subst hF
  have h1 : 0 ≤ t1.count := hnn t1 (by simp)
  have h2 : 0 ≤ t2.count := hnn t2 (by simp)
  have hR : 0 ≤ (R.map Tree.count).sum := by
    apply Multiset.sum_nonneg
    intro x hx
    obtain ⟨t, ht, rfl⟩ := Multiset.mem_map.1 hx
    exact hnn t (by simp [ht])
  simp only [Multiset.map_cons, Multiset.sum_cons] at hsum
  have hw : wrap32 (t1.count + t2.count) = t1.count + t2.count :=
    wrap32_eq _ (by omega) (by omega)
  rw [hw] at hF1
  subst hF1
  refine ⟨⟨?_, ?_⟩, t1, t2, R, rfl, m1, m2, rfl, h1, h2⟩
  · intro t ht
    rcases Multiset.mem_cons.1 ht with e | e
    · rw [e, Tree.count_node]; omega
    · exact hnn t (by simp [e])
  · simp only [Multiset.map_cons, Multiset.sum_cons, Tree.count_node]
    omega

theorem Step_sum (F F1 : Multiset Tree) (h : Step F F1) (hno : NoOvf F) :
    (F1.map Tree.count).sum = (F.map Tree.count).sum := by
  obtain ⟨_, t1, t2, R, hF, _, _, hF1, _, _⟩ := Step_exact F F1 h hno
  subst hF hF1
  simp only [Multiset.map_cons, Multiset.sum_cons, Tree.count_node]
  ring

theorem Step_summed (F F1 : Multiset Tree) (h : Step F F1) (hno : NoOvf F)
    (hs : ∀ t ∈ F, t.Summed) : ∀ t ∈ F1, t.Summed := by
  obtain ⟨_, t1, t2, R, hF, _, _, hF1, _, _⟩ := Step_exact F F1 h hno
  subst hF hF1
  intro t ht
  rcases Multiset.mem_cons.1 ht with e | e
  · rw [e]
    exact ⟨rfl, hs t1 (by simp), hs t2 (by simp)⟩
  · exact hs t (by simp [e])

/-- Without overflow the rounds of the loop keep the sum of the counts in the
queue and keep every tree `Summed`. -/
theorem Steps_exact (F G : Multiset Tree) (h : Steps F G) :
    NoOvf F → (∀ t ∈ F, t.Summed) →
      NoOvf G ∧ (∀ t ∈ G, t.Summed) ∧ (G.map Tree.count).sum = (F.map Tree.count).sum := by
  induction h with
  | refl => intro hno hs; exact ⟨hno, hs, rfl⟩
  | step F F1 F2 hstep _ ih =>
    intro hno hs
    obtain ⟨a, b, c⟩ := ih (Step_exact F F1 hstep hno).1 (Step_summed F F1 hstep hno hs)
    exact ⟨a, b, by rw [c, Step_sum F F1 hstep hno]⟩

theorem leavesOf_leafForest (freqs : List Int) (S : List Nat) :
    leavesOf (Multiset.ofList (S.map (leafTree freqs)))
      = Multiset.ofList (S.map (fun s => (freqs.getD s 0, s % 256))) := by
  induction S with
  | nil => simp [leavesOf]
  | cons s S ih =>
    simp only [List.map_cons, ← Multiset.cons_coe, leavesOf, Multiset.cons_bind] at ih ⊢
    rw [ih]
    simp [leafTree, Tree.leafList]

theorem leavesOf_singleton (T : Tree) : leavesOf {T} = Multiset.ofList T.leafList := by
  simp [leavesOf]

/-- The leaves of the built tree are the symbols of nonzero frequency, each
with its frequency as `count`. -/
theorem build_leafList (freqs : List Int) (T : Tree)
    (h : Steps (Multiset.ofList ((syms freqs freqs.length).map (leafTree freqs))) {T}) :
    T.leafList.Perm ((syms freqs freqs.length).map (fun s => (freqs.getD s 0, s % 256))) := by
  have := Steps_leavesOf _ _ h
  rw [leavesOf_singleton, leavesOf_leafForest] at this
  exact Multiset.coe_eq_coe.1 this

theorem build_symbols (freqs : List Int) (T : Tree) (hlen : freqs.length ≤ 256)
    (h : Steps (Multiset.ofList ((syms freqs freqs.length).map (leafTree freqs))) {T}) :
    T.symbols.Perm (syms freqs freqs.length) := by
  have hp := (build_leafList freqs T h).map Prod.snd
  simp only [List.map_map] at hp
  have he : (syms freqs freqs.length).map (Prod.snd ∘ fun s => (freqs.getD s 0, s % 256))
      = syms freqs freqs.length := by
    conv_rhs => rw [← List.map_id (syms freqs freqs.length)]
    apply List.map_congr_left
    intro s hs
    have := ((mem_syms freqs freqs.length s).1 hs).1
    simp only [Function.comp, id]
    exact Nat.mod_eq_of_lt (by omega)
  rw [he] at hp
  exact hp

theorem build_bytes (freqs : List Int) (T : Tree)
    (h : Steps (Multiset.ofList ((syms freqs freqs.length).map (leafTree freqs))) {T}) :
    T.Bytes := by
  intro p hp
  have := (build_leafList freqs T h).mem_iff.1 hp
  obtain ⟨s, _, rfl⟩ := List.mem_map.1 this
  exact Nat.mod_lt _ (by norm_num)

theorem build_leaf_count (freqs : List Int) (T : Tree) (hlen : freqs.length ≤ 256)
    (h : Steps (Multiset.ofList ((syms freqs freqs.length).map (leafTree freqs))) {T})
    (p : Int × Nat) (hp : p ∈ T.leafList) : p.1 = freqs.getD p.2 0 ∧ p.2 ∈ syms freqs freqs.length := by
  have := (build_leafList freqs T h).mem_iff.1 hp
  obtain ⟨s, hs, rfl⟩ := List.mem_map.1 this
  have hlt := ((mem_syms freqs freqs.length s).1 hs).1
  rw [Nat.mod_eq_of_lt (by omega : s < 256)]
  exact ⟨rfl, hs⟩

theorem range_map_getD (freqs : List Int) :
    (List.range freqs.length).map (fun i => freqs.getD i 0) = freqs := by
  apply List.ext_getElem
  · simp
  · intro n h1 h2
    simp only [List.getElem_map, List.getElem_range]
    exact List.getD_eq_getElem _ _ h2

theorem sum_filter_ne_zero (l : List Int) : (l.filter (fun x => decide (x ≠ 0))).sum = l.sum := by
  induction l with
  | nil => rfl
  | cons a l ih =>
    by_cases h : a = 0
    · simp only [List.filter_cons, h, ne_eq, not_true_eq_false, decide_False, Bool.false_eq_true,
        if_false, List.sum_cons, zero_add]
      exact ih
    · simp only [List.filter_cons, h, ne_eq, not_false_eq_true, decide_True, if_true,
        List.sum_cons, ih]

/-- The frequencies of the symbols of nonzero frequency add up to the sum
of the whole table. -/
theorem syms_sum (freqs : List Int) :
    ((syms freqs freqs.length).map (fun s => freqs.getD s 0)).sum = freqs.sum := by
  have h1 : (syms freqs freqs.length).map (fun s => freqs.getD s 0)
      = ((List.range freqs.length).map (fun i => freqs.getD i 0)).filter
          (fun x => decide (x ≠ 0)) := by
    unfold syms
    rw [List.filter_map]
    rfl
  rw [h1, range_map_getD, sum_filter_ne_zero]

theorem leafForest_counts (freqs : List Int) (S : List Nat) :
    (Multiset.map Tree.count (Multiset.ofList (S.map (leafTree freqs))))
      = Multiset.ofList (S.map (fun s => freqs.getD s 0)) := by
  simp only [Multiset.map_coe, List.map_map]
  rfl

/-- When the table has no negative entry and its sum fits in a signed 32-bit
integer, the second loop of `build` starts without overflow ahead. -/
theorem leafForest_noOvf (freqs : List Int) (hnn : ∀ f ∈ freqs, 0 ≤ f)
    (hsum : freqs.sum < 2147483648) :
    NoOvf (Multiset.ofList ((syms freqs freqs.length).map (leafTree freqs))) := by
  constructor
  · intro t ht
    simp only [Multiset.mem_coe, List.mem_map] at ht
    obtain ⟨s, _, rfl⟩ := ht
    exact getD_nonneg freqs hnn s
  · rw [leafForest_counts, Multiset.sum_coe, syms_sum]
    exact hsum

theorem leafForest_summed (freqs : List Int) (S : List Nat) :
    ∀ t ∈ Multiset.ofList (S.map (leafTree freqs)), t.Summed := by
  intro t ht
  simp only [Multiset.mem_coe, List.mem_map] at ht
  obtain ⟨s, _, rfl⟩ := ht
  simp [leafTree, Tree.Summed]

theorem bitsOf_serialized (c : Int) (bs : List Bool) :
    bitsOf ([] ++ [OutCall.writeInt c] ++ bitCalls bs ++ [OutCall.flush]) = bs := by
  simp [bitsOf_append, bitsOf_bitCalls, bitsOf]

theorem fresh_leaves_none (s : Nat) : ¬ ∃ y, HCTree.fresh.leaves[s]? = some (some y) := by
  rintro ⟨y, hy⟩
  have hl : HCTree.fresh.leaves = List.replicate 256 none := rfl
  rw [hl, List.getElem?_replicate] at hy
  split at hy <;> simp at hy

/-- What `deserialize` builds from the encoding of a tree when `len` is at
least the number of nodes. -/
theorem deserialize_enc (eof : Int) (len : Int) (T : Tree) (rest : List Bool) (hby : T.Bytes)
    (hlen : (T.size : Int) ≤ len) :
    deserializeWalk eof len HCTree.fresh (FancyInputStream.ofBits (T.enc ++ rest))
      = some (some 0,
          { mem := layout T 0, leaves := layLeaves T 0 HCTree.fresh.leaves,
            index := (T.size : Int) - 1,
            inp := FancyInputStream.ofBits rest, bitcounter := T.enc.length }) := by
  have hfuel : T.height < len.toNat + 1 := by
    have := Tree.height_lt_size T
    omega
  have h := deseriallization_enc eof len T (len.toNat + 1)
    { mem := HCTree.fresh.mem, leaves := HCTree.fresh.leaves, index := 0,
      inp := FancyInputStream.ofBits (T.enc ++ rest), bitcounter := 0 }
    rest true hby rfl (by simp only; omega) hfuel
  have hm : HCTree.fresh.mem = [] := rfl
  simp only [hm, List.length_nil, List.nil_append, zero_add] at h
  rw [deserializeWalk, hm, h]
  rfl

/-- C3: for a table of 256 entries with a nonzero entry, take the bits
`serialize` writes for the built tree after the header and give them, followed
by anything, to `deserialize` on a fresh tree with `len` the number of those
bits.  The two trees unfold to the same shape with the same symbol at every
leaf, their `leaves` tables are non-null for the same symbols, and `decode`
returns the same on both for every source. -/
theorem C3_deserialize_serialize (tie : List HCNode → List Nat → Nat) (eof : Int)
    (freqs : List Int) (i : Nat) (rest : List Bool) (hlen : freqs.length = 256)
    (hi : freqs.getD i 0 ≠ 0) :
    ∃ (out : FancyOutputStream) (T : Tree) (R R1 : Nat) (t1 : HCTree)
      (inp1 : FancyInputStream),
      serialize (build tie freqs HCTree.fresh) [] = some out ∧
      deserialize eof (bitsOf out).length HCTree.fresh
        (FancyInputStream.ofBits (bitsOf out ++ rest)) = some (t1, inp1) ∧
      (build tie freqs HCTree.fresh).root = some R ∧
      Rep (build tie freqs HCTree.fresh).mem T R ∧
      t1.root = some R1 ∧ Rep t1.mem T.shape R1 ∧
      (∀ s : Nat, (∃ x : Nat, t1.leaves[s]? = some (some x)) ↔
        (∃ x : Nat, (build tie freqs HCTree.fresh).leaves[s]? = some (some x))) ∧
      (∀ inp, decode eof t1 inp = decode eof (build tie freqs HCTree.fresh) inp) := by
  have his : i < freqs.length := by
    by_contra h
    apply hi
    simp [List.getElem?_eq_none (Nat.le_of_not_lt h)]
  obtain ⟨R, T, hroot, hinv, hsteps⟩ := build_spec tie freqs (syms_ne_nil freqs i his hi)
  have hrep := hinv.rep (R, T) (List.mem_singleton.2 rfl)
  have hser := serialize_eq _ T R [] hroot hrep
  have hby := build_bytes freqs T hsteps
  have hwalk := deserialize_enc eof (T.enc.length : Int) T rest hby
    (by exact_mod_cast Tree.size_le_enc T)
  have hrep1 : Rep (layout T 0) T.shape 0 := by
    have := Rep_layout T [] []
    simpa using this
  refine ⟨_, T, R, 0,
    { mem := layout T 0, root := some 0, leaves := layLeaves T 0 HCTree.fresh.leaves },
    skipBits eof (8 - (T.enc.length : Int) % 8).toNat (FancyInputStream.ofBits rest),
    hser, ?_, hroot, hrep, rfl, hrep1, ?_, ?_⟩
  · rw [bitsOf_serialized]
    simp only [deserialize, hwalk]
  · intro s
    simp only
    rw [layLeaves_some]
    have hl : HCTree.fresh.leaves.length = 256 := by
      rw [show HCTree.fresh.leaves = List.replicate 256 none from rfl, List.length_replicate]
    rw [hl]
    constructor
    · rintro (⟨h1, h2⟩ | h)
      · have hs := (build_symbols freqs T (by omega) hsteps).mem_iff.1 h2
        obtain ⟨h3, h4⟩ := (mem_syms freqs freqs.length s).1 hs
        exact build_leaves_some tie freqs s h3 h1 h4
      · exact absurd h (fresh_leaves_none s)
    · rintro ⟨x, hx⟩
      obtain ⟨h1, h2, h3⟩ := build_leaves_nonzero tie freqs s x hx
      exact Or.inl ⟨h2, (build_symbols freqs T (by omega) hsteps).mem_iff.2
        ((mem_syms freqs freqs.length s).2 ⟨h1, h3⟩)⟩
  · intro inp
    have hd1 : decode eof
        { mem := layout T 0, root := some 0, leaves := layLeaves T 0 HCTree.fresh.leaves } inp
        = some (T.shape.decode eof inp) := decode_eq eof _ T.shape 0 rfl hrep1 inp
    rw [hd1, decode_eq eof _ T R hroot hrep inp, Tree.decode_shape]

set_option maxRecDepth 100000 in
/-- C3 at the textbook table, with two more bits after the encoding. -/
theorem C3_deserialize_serialize_witness :
    (exFreqs.length = 256 ∧ exFreqs.getD 97 0 ≠ 0) ∧
    ∃ (out : FancyOutputStream) (T : Tree) (R R1 : Nat) (t1 : HCTree)
      (inp1 : FancyInputStream),
      serialize (build (fun _ _ => 0) exFreqs HCTree.fresh) [] = some out ∧
      deserialize 0 (bitsOf out).length HCTree.fresh
        (FancyInputStream.ofBits (bitsOf out ++ [true, false])) = some (t1, inp1) ∧
      (build (fun _ _ => 0) exFreqs HCTree.fresh).root = some R ∧
      Rep (build (fun _ _ => 0) exFreqs HCTree.fresh).mem T R ∧
      t1.root = some R1 ∧ Rep t1.mem T.shape R1 ∧
      (∀ s : Nat, (∃ x : Nat, t1.leaves[s]? = some (some x)) ↔
        (∃ x : Nat, (build (fun _ _ => 0) exFreqs HCTree.fresh).leaves[s]? = some (some x))) ∧
      (∀ inp, decode 0 t1 inp = decode 0 (build (fun _ _ => 0) exFreqs HCTree.fresh) inp) :=
  ⟨⟨by decide, by decide⟩,
    C3_deserialize_serialize (fun _ _ => 0) 0 exFreqs 97 [true, false] (by decide) (by decide)⟩

theorem Tree.Summed_sub (bs : List Bool) :
    ∀ (T T1 : Tree), T.Summed → T.sub bs = some T1 → T1.Summed := by
  induction bs with
  | nil =>
    intro T T1 h hs
    simp only [Tree.sub, Option.some.injEq] at hs
    subst hs
    exact h
  | cons b bs ih =>
    intro T T1 h hs
    cases T with
    | leaf c s => simp [Tree.sub] at hs
    | node c l r =>
      cases b with
      | false =>
        simp only [Tree.sub, Bool.false_eq_true, if_false] at hs
        exact ih l T1 h.2.1 hs
      | true =>
        simp only [Tree.sub, if_true] at hs
        exact ih r T1 h.2.2 hs

theorem Tree.leafList_sub (bs : List Bool) :
    ∀ (T T1 : Tree), T.sub bs = some T1 → ∀ p ∈ T1.leafList, p ∈ T.leafList := by
  induction bs with
  | nil =>
    intro T T1 hs p hp
    simp only [Tree.sub, Option.some.injEq] at hs
    subst hs
    exact hp
  | cons b bs ih =>
    intro T T1 hs p hp
    cases T with
    | leaf c s => simp [Tree.sub] at hs
    | node c l r =>
      cases b with
      | false =>
        simp only [Tree.sub, Bool.false_eq_true, if_false] at hs
        simp only [Tree.leafList, List.mem_append]
        exact Or.inl (ih l T1 hs p hp)
      | true =>
        simp only [Tree.sub, if_true] at hs
        simp only [Tree.leafList, List.mem_append]
        exact Or.inr (ih r T1 hs p hp)

/-- In a `Summed` tree the top `count` is the sum of the counts of the
leaves. -/
theorem Tree.Summed_count (T : Tree) (h : T.Summed) :
    T.count = (T.leafList.map Prod.fst).sum := by
  induction T with
  | leaf c s => simp [Tree.count, Tree.leafList]
  | node c l r ihl ihr =>
    obtain ⟨h1, h2, h3⟩ := h
    simp only [Tree.count_node, Tree.leafList, List.map_append, List.sum_append, h1, ihl h2,
      ihr h3]

/-- C9: for a table of 256 non-negative entries with a positive entry and a
sum that fits in a signed 32-bit integer, every node of the built tree
carries the sum of the frequencies of the symbols at the leaves below it, an
inner node carries the sum of the weights of its two children, the root
carries the sum of the whole table, and that sum is the header `serialize`
writes. -/
theorem C9_weights (tie : List HCNode → List Nat → Nat) (freqs : List Int) (i : Nat)
    (out : FancyOutputStream) (hlen : freqs.length = 256) (hnn : ∀ f ∈ freqs, 0 ≤ f)
    (hi : 0 < freqs.getD i 0) (hsum : freqs.sum < 2147483648) :
    ∃ (R : Nat) (T : Tree), (build tie freqs HCTree.fresh).root = some R ∧
      Rep (build tie freqs HCTree.fresh).mem T R ∧
      (∀ (bs : List Bool) (x : Nat), ptrAt (build tie freqs HCTree.fresh).mem R bs = some x →
        ∃ T1, Rep (build tie freqs HCTree.fresh).mem T1 x ∧
          countOf (build tie freqs HCTree.fresh).mem x
            = (T1.symbols.map (fun s => freqs.getD s 0)).sum ∧
          ∀ (n : HCNode) (a b : Nat), (build tie freqs HCTree.fresh).mem[x]? = some n →
            n.c0 = some a → n.c1 = some b →
            n.count = countOf (build tie freqs HCTree.fresh).mem a
              + countOf (build tie freqs HCTree.fresh).mem b) ∧
      countOf (build tie freqs HCTree.fresh).mem R = freqs.sum ∧
      serialize (build tie freqs HCTree.fresh) out
        = some (out ++ [OutCall.writeInt freqs.sum] ++ bitCalls T.enc ++ [OutCall.flush]) := by
  have hne : freqs.getD i 0 ≠ 0 := by omega
  have his : i < freqs.length := by
    by_contra h
    apply hne
    simp [List.getElem?_eq_none (Nat.le_of_not_lt h)]
  obtain ⟨R, T, hroot, hinv, hsteps⟩ := build_spec tie freqs (syms_ne_nil freqs i his hne)
  have hrep := hinv.rep (R, T) (List.mem_singleton.2 rfl)
  obtain ⟨_, hsm, hcs⟩ := Steps_exact _ _ hsteps (leafForest_noOvf freqs hnn hsum)
    (leafForest_summed freqs _)
  have hT : T.Summed := hsm T (by simp)
  have key : ∀ (bs : List Bool) (T1 : Tree), T.sub bs = some T1 →
      T1.count = (T1.symbols.map (fun s => freqs.getD s 0)).sum := by
    intro bs T1 hs
    rw [Tree.Summed_count T1 (Tree.Summed_sub bs T T1 hT hs), Tree.symbols, List.map_map]
    congr 1
    apply List.map_congr_left
    intro p hp
    exact (build_leaf_count freqs T (by omega) hsteps p (Tree.leafList_sub bs T T1 hs p hp)).1
  have hRc : T.count = freqs.sum := by
    have h1 : (Multiset.map Tree.count {T}).sum = T.count := by simp
    rw [← h1, hcs, leafForest_counts, Multiset.sum_coe, syms_sum]
  refine ⟨R, T, hroot, hrep, ?_, ?_, ?_⟩
  · intro bs x hp
    obtain ⟨T1, hs1, hrep1⟩ := Rep_ptrAt _ bs T R x hrep hp
    refine ⟨T1, hrep1, ?_, ?_⟩
    · rw [countOf_Rep _ T1 x hrep1]
      exact key bs T1 hs1
    · intro n a b hn h0 h1
      have hS1 := Tree.Summed_sub bs T T1 hT hs1
      cases T1 with
      | leaf c s =>
        obtain ⟨m, hm, _, _, e3, _⟩ := (Rep_leaf_iff _ _ _ _).1 hrep1
        rw [hn] at hm
        cases hm
        rw [h0] at e3
        cases e3
      | node c l r =>
        obtain ⟨m, a1, b1, hm, e1, e2, e3, e4, e5⟩ := (Rep_node_iff _ _ _ _ _).1 hrep1
        rw [hn] at hm
        cases hm
        rw [h0] at e2
        rw [h1] at e3
        cases e2
        cases e3
        rw [e1, countOf_Rep _ l a e4, countOf_Rep _ r b e5]
        exact hS1.1
  · rw [countOf_Rep _ T R hrep]
    exact hRc
  · rw [← hRc]
    exact serialize_eq _ T R out hroot hrep

set_option maxRecDepth 100000 in
/-- C9 at the textbook table, whose entries add up to 100. -/
theorem C9_weights_witness :
    (exFreqs.length = 256 ∧ (∀ f ∈ exFreqs, 0 ≤ f) ∧ 0 < exFreqs.getD 97 0 ∧
      exFreqs.sum < 2147483648) ∧
    ∃ (R : Nat) (T : Tree), (build (fun _ _ => 0) exFreqs HCTree.fresh).root = some R ∧
      Rep (build (fun _ _ => 0) exFreqs HCTree.fresh).mem T R ∧
      (∀ (bs : List Bool) (x : Nat),
        ptrAt (build (fun _ _ => 0) exFreqs HCTree.fresh).mem R bs = some x →
        ∃ T1, Rep (build (fun _ _ => 0) exFreqs HCTree.fresh).mem T1 x ∧
          countOf (build (fun _ _ => 0) exFreqs HCTree.fresh).mem x
            = (T1.symbols.map (fun s => exFreqs.getD s 0)).sum ∧
          ∀ (n : HCNode) (a b : Nat),
            (build (fun _ _ => 0) exFreqs HCTree.fresh).mem[x]? = some n →
            n.c0 = some a → n.c1 = some b →
            n.count = countOf (build (fun _ _ => 0) exFreqs HCTree.fresh).mem a
              + countOf (build (fun _ _ => 0) exFreqs HCTree.fresh).mem b) ∧
      countOf (build (fun _ _ => 0) exFreqs HCTree.fresh).mem R = exFreqs.sum ∧
      serialize (build (fun _ _ => 0) exFreqs HCTree.fresh) []
        = some ([] ++ [OutCall.writeInt exFreqs.sum] ++ bitCalls T.enc ++ [OutCall.flush]) :=
  ⟨⟨by decide, by decide, by decide, by decide⟩,
    C9_weights (fun _ _ => 0) exFreqs 97 [] (by decide) (by decide) (by decide) (by decide)⟩

theorem read_bit_bits (eof : Int) (inp : FancyInputStream) :
    (inp.read_bit eof).2.bits = inp.bits.drop 1 := by
  unfold FancyInputStream.read_bit
  cases inp.bits <;> simp

theorem readSymbol_counter (eof : Int) (inp : FancyInputStream) (bc : Int) :
    (readSymbol eof inp bc).2.2 = bc + 8 := by
  simp only [readSymbol, List.foldl_cons, List.foldl_nil, readSymbolBit]
  ring

theorem readSymbol_bits (eof : Int) (inp : FancyInputStream) (bc : Int) :
    (readSymbol eof inp bc).2.1.bits = inp.bits.drop 8 := by
  simp only [readSymbol, List.foldl_cons, List.foldl_nil, readSymbolBit, read_bit_bits,
    List.drop_drop]

theorem skipBits_bits (eof : Int) (n : Nat) :
    ∀ inp : FancyInputStream, (skipBits eof n inp).bits = inp.bits.drop n := by
  induction n with
  | zero => intro inp; simp [skipBits]
  | succ n ih =>
    intro inp
    rw [skipBits, ih, read_bit_bits, List.drop_drop]
    congr 1
    omega

/-- Every call of `deseriallization` returns when the fuel exceeds
`len - index`, and the state it returns satisfies `DesPost`. -/
theorem deseriallization_post (eof : Int) (len : Int) :
    ∀ (fuel : Nat) (st : DesState), (len - st.index).toNat < fuel →
      ∃ (r : Option Nat) (st1 : DesState) (ext : List HCNode),
        deseriallization eof len fuel st = some (r, st1) ∧ DesPost len st r st1 ext := by
  intro fuel
  induction fuel with
  | zero => intro st h; omega
  | succ f ih =>
    intro st hf
    by_cases hg : st.index ≥ len
    · refine ⟨none, st, [], by simp [deseriallization, hg], ?_⟩
      exact
        { mem_eq := by simp
          index_le := le_refl _
          null_iff := by simp; omega
          result := by intro x h; cases h
          children := by simp
          parents := by simp
          nodes_le_index := by simp
          nodes_le_len := by intro h; simp; omega
          nodes_zero := by intro _; rfl
          counter_le := le_refl _
          counter_nodes := by simp
          bits := by simp
          leaves_length := rfl }
    · by_cases hb : (st.inp.read_bit eof).1 = 0
      · obtain ⟨l, st3, ext1, hrun1, p1⟩ := ih
          { mem := st.mem ++ [HCNode.new 0 96], leaves := st.leaves, index := st.index + 1,
            inp := (st.inp.read_bit eof).2, bitcounter := st.bitcounter + 1 }
          (by simp only; omega)
        have h3 := p1.index_le
        simp only at h3
        obtain ⟨r1, st5, ext2, hrun2, p2⟩ := ih
          { mem := setC0 st3.mem st.mem.length l, leaves := st3.leaves,
            index := st3.index + 1, inp := st3.inp, bitcounter := st3.bitcounter }
          (by simp only; omega)
        have hm3 : st3.mem = st.mem ++ HCNode.new 0 96 :: ext1 := by
          rw [p1.mem_eq]; simp
        have hm4 : setC0 st3.mem st.mem.length l
            = st.mem ++ { HCNode.new 0 96 with c0 := l } :: ext1 := by
          rw [hm3, setC0_mid]
        have hm5 : st5.mem = st.mem ++ { HCNode.new 0 96 with c0 := l } :: (ext1 ++ ext2) := by
          rw [p2.mem_eq]; simp only [hm4]; simp
        have hm6 : setC1 st5.mem st.mem.length r1
            = st.mem ++ { HCNode.new 0 96 with c0 := l, c1 := r1 } :: (ext1 ++ ext2) := by
          rw [hm5, setC1_mid]
        refine ⟨some st.mem.length, { st5 with mem := setC1 st5.mem st.mem.length r1 },
          { HCNode.new 0 96 with c0 := l, c1 := r1 } :: (ext1 ++ ext2), ?_, ?_⟩
        · simp only [deseriallization, hg, if_false, hb, if_true, List.length_append,
            List.length_singleton, hrun1, hrun2]
        · have i5 := p2.index_le
          have c3 := p1.counter_le
          have c5 := p2.counter_le
          have n1 := p1.nodes_le_index
          have n2 := p2.nodes_le_index
          have b1 := p1.bits
          have b2 := p2.bits
          have k1 := p1.counter_nodes
          have k2 := p2.counter_nodes
          simp only at i5 c3 c5 n1 n2 b1 b2 k1 k2
          exact
            { mem_eq := hm6
              index_le := by simp only; omega
              null_iff := by simp; omega
              result := by intro x h; simp at h; exact ⟨h.symm, by simp⟩
              children := by
                intro n hn
                rcases List.mem_cons.1 hn with e | e
                · subst e
                  have hl := p1.null_iff
                  have hr := p2.null_iff
                  simp only at hl hr
                  by_cases e1 : l = none
                  · have : r1 = none := hr.2 (by have := hl.1 e1; omega)
                    exact Or.inl ⟨e1, this⟩
                  · by_cases e2 : r1 = none
                    · exact Or.inr (Or.inr ⟨e1, e2, by have := hr.1 e2; simp only; omega⟩)
                    · exact Or.inr (Or.inl ⟨e1, e2⟩)
                · rcases List.mem_append.1 e with e | e
                  · rcases p1.children n e with h | h | ⟨h1, h2, h3⟩
                    · exact Or.inl h
                    · exact Or.inr (Or.inl h)
                    · exact Or.inr (Or.inr ⟨h1, h2, by simp only; omega⟩)
                  · rcases p2.children n e with h | h | ⟨h1, h2, h3⟩
                    · exact Or.inl h
                    · exact Or.inr (Or.inl h)
                    · exact Or.inr (Or.inr ⟨h1, h2, h3⟩)
              parents := by
                intro n hn
                rcases List.mem_cons.1 hn with e | e
                · subst e; rfl
                · rcases List.mem_append.1 e with e | e
                  · exact p1.parents n e
                  · exact p2.parents n e
              nodes_le_index := by
                simp only [List.length_cons, List.length_append]
                push_cast
                omega
              nodes_le_len := by
                intro _
                simp only [List.length_cons, List.length_append]
                push_cast
                by_cases q : st3.index + 1 ≤ len
                · have a1 := p1.nodes_le_index
                  have a2 := p2.nodes_le_len (by simp only; omega)
                  simp only at a1 a2
                  omega
                · have a1 := p1.nodes_le_len (by simp only; omega)
                  have a2 := p2.nodes_zero (by simp only; omega)
                  simp only at a1
                  rw [a2]
                  simp only [List.length_nil, Nat.cast_zero]
                  omega
              nodes_zero := by intro h; omega
              counter_le := by simp only; omega
              counter_nodes := by
                simp only [List.length_cons, List.length_append]
                push_cast
                omega
              bits := by
                simp only
                rw [b2, b1, read_bit_bits, List.drop_drop, List.drop_drop]
                congr 1
                omega
              leaves_length := by
                simp only
                rw [p2.leaves_length, p1.leaves_length] }
      · refine ⟨some st.mem.length,
          { mem := st.mem ++ [HCNode.new 0
              (readSymbol eof (st.inp.read_bit eof).2 (st.bitcounter + 1)).1],
            leaves := st.leaves.set
              (readSymbol eof (st.inp.read_bit eof).2 (st.bitcounter + 1)).1
              (some st.mem.length),
            index := st.index,
            inp := (readSymbol eof (st.inp.read_bit eof).2 (st.bitcounter + 1)).2.1,
            bitcounter := (readSymbol eof (st.inp.read_bit eof).2 (st.bitcounter + 1)).2.2 },
          [HCNode.new 0 (readSymbol eof (st.inp.read_bit eof).2 (st.bitcounter + 1)).1],
          ?_, ?_⟩
        · simp only [deseriallization, hg, if_false, hb]
        · exact
            { mem_eq := rfl
              index_le := le_refl _
              null_iff := by simp; omega
              result := by intro x h; simp at h; exact ⟨h.symm, by simp⟩
              children := by
                intro n hn
                simp only [List.mem_singleton] at hn
                subst hn
                exact Or.inl ⟨rfl, rfl⟩
              parents := by
                intro n hn
                simp only [List.mem_singleton] at hn
                subst hn
                rfl
              nodes_le_index := by simp
              nodes_le_len := by intro _; simp; omega
              nodes_zero := by intro h; omega
              counter_le := by simp only [readSymbol_counter]; omega
              counter_nodes := by simp only [readSymbol_counter]; simp; omega
              bits := by
                simp only [readSymbol_counter, readSymbol_bits, read_bit_bits, List.drop_drop]
                congr 1
                omega
              leaves_length := by simp }

/-- Every node that `build` leaves in the store has two null children or two
non-null children. -/
theorem build_children (tie : List HCNode → List Nat → Nat) (freqs : List Int) (n : HCNode)
    (hn : n ∈ (build tie freqs HCTree.fresh).mem) :
    (n.c0 = none ∧ n.c1 = none) ∨ (n.c0 ≠ none ∧ n.c1 ≠ none) := by
  by_cases hS : syms freqs freqs.length = []
  · exfalso
    have h1 := (buildLeaves_spec freqs freqs.length).1
    have h2 := (buildLeaves_spec freqs freqs.length).2.1
    rw [hS] at h1 h2
    simp only [List.map_nil, List.length_nil, List.range_zero] at h1 h2
    have : (build tie freqs HCTree.fresh).mem = [] := by
      simp only [build, buildLeaves, h1, h2, List.length_nil, buildLoop]
    rw [this] at hn
    simp at hn
  · obtain ⟨R, T, _, hinv, _⟩ := build_spec tie freqs hS
    obtain ⟨x, hx⟩ := List.mem_iff_getElem?.1 hn
    have := hinv.full x n hx
    by_cases h0 : n.c0 = none
    · exact Or.inl ⟨h0, this.1 h0⟩
    · exact Or.inr ⟨h0, fun h1 => h0 (this.2 h1)⟩

/-- The walk of `deserialize` on a fresh tree returns for every `len` and
every source. -/
theorem deserializeWalk_post (eof : Int) (len : Int) (inp : FancyInputStream) :
    ∃ (r : Option Nat) (st : DesState) (ext : List HCNode),
      deserializeWalk eof len HCTree.fresh inp = some (r, st) ∧
      DesPost len
        { mem := [], leaves := HCTree.fresh.leaves, index := 0, inp := inp, bitcounter := 0 }
        r st ext := by
  obtain ⟨r, st, ext, hrun, hp⟩ := deseriallization_post eof len (len.toNat + 1)
    { mem := [], leaves := HCTree.fresh.leaves, index := 0, inp := inp, bitcounter := 0 }
    (by simp only [sub_zero]; omega)
  exact ⟨r, st, ext, hrun, hp⟩

/-- C10, as amended: every node `build` makes has two null or two non-null
children.  `deserialize` returns for every `len` and every source; a node it
makes never has a null left child with a non-null right child, and it has a
non-null left child with a null right child only when the node index has
reached `len` by the end of the walk. -/
theorem C10_children (tie : List HCNode → List Nat → Nat) (freqs : List Int) (eof : Int)
    (len : Int) (inp : FancyInputStream) :
    (∀ n ∈ (build tie freqs HCTree.fresh).mem,
      (n.c0 = none ∧ n.c1 = none) ∨ (n.c0 ≠ none ∧ n.c1 ≠ none)) ∧
    ∃ (r : Option Nat) (st : DesState),
      deserializeWalk eof len HCTree.fresh inp = some (r, st) ∧
      deserialize eof len HCTree.fresh inp
        = some ({ mem := st.mem, root := r, leaves := st.leaves },
            skipBits eof (8 - st.bitcounter % 8).toNat st.inp) ∧
      ∀ n ∈ st.mem, (n.c0 = none ∧ n.c1 = none) ∨ (n.c0 ≠ none ∧ n.c1 ≠ none) ∨
        (n.c0 ≠ none ∧ n.c1 = none ∧ len ≤ st.index) := by
  refine ⟨fun n hn => build_children tie freqs n hn, ?_⟩
  obtain ⟨r, st, ext, hrun, hp⟩ := deserializeWalk_post eof len inp
  refine ⟨r, st, hrun, by simp only [deserialize, hrun], ?_⟩
  intro n hn
  have hm := hp.mem_eq
  simp only [List.nil_append] at hm
  rw [hm] at hn
  exact hp.children n hn

/-- C10 as stated fails: `deserialize` with `len = 2` on a source of zero
bits makes a root whose left child is a node and whose right child is null. -/
theorem C10_counterexample :
    ∃ (t : HCTree) (inp : FancyInputStream) (n : HCNode),
      deserialize 0 2 HCTree.fresh (FancyInputStream.ofBits (List.replicate 8 false))
        = some (t, inp) ∧
      n ∈ t.mem ∧ n.c0 ≠ none ∧ n.c1 = none :=
  ⟨_, _, { count := 0, symbol := 96, c0 := some 1, c1 := none, p := none }, rfl,
    by decide, by decide, rfl⟩

/-- The bits `deserialize` takes from the source: those of the walk, `k`, and
then `8 - k % 8` more. -/
theorem deserialize_bits (eof : Int) (len : Int) (inp : FancyInputStream) :
    ∃ (r : Option Nat) (st : DesState) (t : HCTree) (inp1 : FancyInputStream),
      deserializeWalk eof len HCTree.fresh inp = some (r, st) ∧
      deserialize eof len HCTree.fresh inp = some (t, inp1) ∧
      0 ≤ st.bitcounter ∧
      st.inp.bits = inp.bits.drop st.bitcounter.toNat ∧
      inp1.bits = inp.bits.drop (st.bitcounter.toNat + (8 - st.bitcounter % 8).toNat) := by
  obtain ⟨r, st, ext, hrun, hp⟩ := deserializeWalk_post eof len inp
  have hb := hp.bits
  have hc := hp.counter_le
  simp only [sub_zero] at hb hc
  refine ⟨r, st, { mem := st.mem, root := r, leaves := st.leaves },
    skipBits eof (8 - st.bitcounter % 8).toNat st.inp, hrun,
    by simp only [deserialize, hrun], hc, hb, ?_⟩
  rw [skipBits_bits, hb, List.drop_drop]

/-- C5, the failing case: with `len = 0` the walk reads no bit (`k = 0`, a
multiple of 8), yet `deserialize` takes 8 bits from a source of 16: the next
read starts at byte 1, not at byte `ceil(0/8) = 0`. -/
theorem C5_aligned_walk_reads_a_byte :
    ∃ (r : Option Nat) (st : DesState) (t : HCTree) (inp1 : FancyInputStream),
      deserializeWalk 0 0 HCTree.fresh (FancyInputStream.ofBits (List.replicate 16 false))
        = some (r, st) ∧
      st.bitcounter = 0 ∧
      deserialize 0 0 HCTree.fresh (FancyInputStream.ofBits (List.replicate 16 false))
        = some (t, inp1) ∧
      inp1.bits = List.replicate 8 false :=
  ⟨_, _, _, _, rfl, rfl, rfl, rfl⟩

theorem kraftSum_cons (c : List Bool) (cs : List (List Bool)) :
    kraftSum (c :: cs) = (1 / 2 : ℚ) ^ c.length + kraftSum cs := by
  simp [kraftSum]

theorem kraftSum_nonneg (cs : List (List Bool)) : 0 ≤ kraftSum cs := by
  induction cs with
  | nil => simp [kraftSum]
  | cons c cs ih =>
    rw [kraftSum_cons]
    positivity

theorem kraftSum_split (cs : List (List Bool)) (h : [] ∉ cs) :
    kraftSum cs = (kraftSum (tailsOf false cs) + kraftSum (tailsOf true cs)) / 2 := by
  induction cs with
  | nil => simp [kraftSum, tailsOf]
  | cons c cs ih =>
    have hc : [] ∉ cs := fun hm => h (List.mem_cons_of_mem _ hm)
    have ih1 := ih hc
    cases c with
    | nil => exact absurd (List.mem_cons_self _ _) h
    | cons x r =>
      rw [kraftSum_cons, ih1]
      cases x
      · have e0 : tailsOf false ((false :: r) :: cs) = r :: tailsOf false cs := by
          simp [tailsOf, List.filterMap_cons]
        have e1 : tailsOf true ((false :: r) :: cs) = tailsOf true cs := by
          simp [tailsOf, List.filterMap_cons]
        rw [e0, e1, kraftSum_cons]
        simp only [List.length_cons, pow_succ]
        ring
      · have e0 : tailsOf false ((true :: r) :: cs) = tailsOf false cs := by
          simp [tailsOf, List.filterMap_cons]
        have e1 : tailsOf true ((true :: r) :: cs) = r :: tailsOf true cs := by
          simp [tailsOf, List.filterMap_cons]
        rw [e0, e1, kraftSum_cons]
        simp only [List.length_cons, pow_succ]
        ring

theorem mem_tailsOf (b : Bool) (cs : List (List Bool)) (r : List Bool) :
    r ∈ tailsOf b cs ↔ (b :: r) ∈ cs := by
  simp only [tailsOf, List.mem_filterMap]
  constructor
  · rintro ⟨c, hc, h⟩
    cases c with
    | nil => simp at h
    | cons x l =>
      by_cases hx : x = b
      · simp only [hx, if_true, Option.some.injEq] at h
        rw [← h, ← hx]
        exact hc
      · simp [hx] at h
  · intro h
    exact ⟨b :: r, h, by simp⟩

theorem tailsOf_pairwise (b : Bool) (cs : List (List Bool)) (h : cs.Pairwise Apart) :
    (tailsOf b cs).Pairwise Apart := by
  unfold tailsOf
  apply List.Pairwise.filterMap _ _ h
  intro a a1 hA r hr r1 hr1
  cases a with
  | nil => simp at hr
  | cons x l =>
    cases a1 with
    | nil => simp at hr1
    | cons x1 l1 =>
      by_cases hx : x = b
      · by_cases hx1 : x1 = b
        · simp only [hx, if_true, Option.mem_def, Option.some.injEq] at hr
          simp only [hx1, if_true, Option.mem_def, Option.some.injEq] at hr1
          subst hr hr1 hx hx1
          unfold Apart at hA ⊢
          rw [List.cons_prefix_cons, List.cons_prefix_cons] at hA
          exact ⟨fun hp => hA.1 ⟨rfl, hp⟩, fun hp => hA.2 ⟨rfl, hp⟩⟩
        · simp [hx1] at hr1
      · simp [hx] at hr

/-- Kraft's inequality for a list of code words no one of which is the
beginning of another. -/
theorem kraft_le_one (n : Nat) :
    ∀ cs : List (List Bool), (∀ c ∈ cs, c.length ≤ n) → cs.Pairwise Apart → kraftSum cs ≤ 1 := by
  induction n with
  | zero =>
    intro cs hlen hp
    cases cs with
    | nil => simp [kraftSum]
    | cons a l =>
      have ha : a = [] := List.length_eq_zero.1 (Nat.le_zero.1 (hlen a (List.mem_cons_self _ _)))
      cases l with
      | nil => simp [kraftSum, ha]
      | cons b l1 =>
        exfalso
        have := (List.pairwise_cons.1 hp).1 b (List.mem_cons_self _ _)
        rw [ha] at this
        exact this.1 List.nil_prefix
  | succ n ih =>
    intro cs hlen hp
    by_cases hnil : [] ∈ cs
    · cases cs with
      | nil => simp [kraftSum]
      | cons a l =>
        have hpa := List.pairwise_cons.1 hp
        have hl : l = [] := by
          cases l with
          | nil => rfl
          | cons b l1 =>
            exfalso
            rcases List.mem_cons.1 hnil with e | e
            · have := hpa.1 b (List.mem_cons_self _ _)
              rw [← e] at this
              exact this.1 List.nil_prefix
            · have := hpa.1 [] e
              exact this.2 List.nil_prefix
        subst hl
        have ha : a = [] := by simpa [eq_comm] using hnil
        simp [kraftSum, ha]
    · rw [kraftSum_split cs hnil]
      have h0 := ih (tailsOf false cs) (by
        intro c hc
        have := hlen _ ((mem_tailsOf false cs c).1 hc)
        simp only [List.length_cons] at this
        omega) (tailsOf_pairwise false cs hp)
      have h1 := ih (tailsOf true cs) (by
        intro c hc
        have := hlen _ ((mem_tailsOf true cs c).1 hc)
        simp only [List.length_cons] at this
        omega) (tailsOf_pairwise true cs hp)
      linarith

theorem acost_cons (p : Int × Nat) (l : Multiset (Int × Nat)) :
    acost (p ::ₘ l) = p.1 * (p.2 : Int) + acost l := by
  simp [acost]

theorem dkraft_cons (d : Nat) (ds : Multiset Nat) :
    dkraft (d ::ₘ ds) = (1 / 2 : ℚ) ^ d + dkraft ds := by
  simp [dkraft]

theorem dkraft_nonneg (ds : Multiset Nat) : 0 ≤ dkraft ds := by
  unfold dkraft
  apply Multiset.sum_nonneg
  intro x hx
  obtain ⟨d, _, rfl⟩ := Multiset.mem_map.1 hx
  positivity

theorem acost_nonneg (l : Multiset (Int × Nat)) (h : ∀ p ∈ l, 0 ≤ p.1) : 0 ≤ acost l := by
  unfold acost
  apply Multiset.sum_nonneg
  intro x hx
  obtain ⟨p, hp, rfl⟩ := Multiset.mem_map.1 hx
  exact mul_nonneg (h p hp) (by positivity)

/-- Exchange: an entry whose weight is least can take the greatest length
without raising the cost; weights and lengths stay the same as multisets. -/
theorem max_first (x : Int) (L : Multiset (Int × Nat)) :
    ∀ dx : Nat, (∀ p ∈ L, x ≤ p.1) →
      ∃ (dx1 : Nat) (L1 : Multiset (Int × Nat)),
        L1.map Prod.fst = L.map Prod.fst ∧
        dx1 ::ₘ L1.map Prod.snd = dx ::ₘ L.map Prod.snd ∧
        acost ((x, dx1) ::ₘ L1) ≤ acost ((x, dx) ::ₘ L) ∧
        ∀ p ∈ L1, p.2 ≤ dx1 := by
  induction L using Multiset.induction_on with
  | empty =>
    intro dx _
    exact ⟨dx, 0, rfl, rfl, le_refl _, by simp⟩
  | cons q L0 ih =>
    intro dx hx
    obtain ⟨d1, L1, h1, h2, h3, h4⟩ := ih dx (fun p hp => hx p (Multiset.mem_cons_of_mem hp))
    have hxq : x ≤ q.1 := hx q (Multiset.mem_cons_self _ _)
    simp only [acost_cons] at h3
    by_cases hq : q.2 ≤ d1
    · refine ⟨d1, q ::ₘ L1, by simp [h1], ?_, ?_, ?_⟩
      · simp only [Multiset.map_cons]
        rw [Multiset.cons_swap, h2, Multiset.cons_swap]
      · simp only [acost_cons]
        linarith
      · intro p hp
        rcases Multiset.mem_cons.1 hp with e | e
        · rw [e]; exact hq
        · exact h4 p e
    · have hlt : d1 < q.2 := Nat.lt_of_not_le hq
      refine ⟨q.2, (q.1, d1) ::ₘ L1, by simp [h1], ?_, ?_, ?_⟩
      · simp only [Multiset.map_cons]
        rw [h2, Multiset.cons_swap]
      · simp only [acost_cons]
        have hd : (d1 : Int) ≤ (q.2 : Int) := by exact_mod_cast hlt.le
        nlinarith [mul_nonneg (sub_nonneg.2 hxq) (sub_nonneg.2 hd)]
      · intro p hp
        rcases Multiset.mem_cons.1 hp with e | e
        · rw [e]; exact hlt.le
        · exact le_trans (h4 p e) hlt.le

theorem dkraft_scaled (D : Nat) (ds : Multiset Nat) (h : ∀ d ∈ ds, d ≤ D) :
    ∃ M : Nat, dkraft ds = (M : ℚ) / 2 ^ D := by
  induction ds using Multiset.induction_on with
  | empty => exact ⟨0, by simp [dkraft]⟩
  | cons d ds ih =>
    obtain ⟨M, hM⟩ := ih (fun e he => h e (Multiset.mem_cons_of_mem he))
    have hd : d ≤ D := h d (Multiset.mem_cons_self _ _)
    refine ⟨2 ^ (D - d) + M, ?_⟩
    rw [dkraft_cons, hM]
    have e : (2 : ℚ) ^ D = 2 ^ (D - d) * 2 ^ d := by
      rw [← pow_add]
      congr 1
      omega
    push_cast
    rw [e]
    field_simp

/-- When one length exceeds all the others it can be cut down to the
greatest of the others without breaking Kraft's inequality. -/
theorem shorten_kraft (D1 D2 : Nat) (ds : Multiset Nat)
    (hds : ∀ d ∈ ds, d ≤ D2) (hk : dkraft (D1 ::ₘ ds) ≤ 1) : dkraft (D2 ::ₘ ds) ≤ 1 := by
  by_cases he : D1 = D2
  · rw [← he]; exact hk
  · obtain ⟨M, hM⟩ := dkraft_scaled D2 ds hds
    rw [dkraft_cons, hM] at hk ⊢
    have hpos : (0 : ℚ) < (1 / 2) ^ D1 := by positivity
    have h2 : (0 : ℚ) < 2 ^ D2 := by positivity
    have hlt : (M : ℚ) / 2 ^ D2 < 1 := by linarith
    rw [div_lt_one h2] at hlt
    have hM2 : M < 2 ^ D2 := by exact_mod_cast hlt
    have hM3 : ((M + 1 : Nat) : ℚ) ≤ 2 ^ D2 := by exact_mod_cast hM2
    have e : (1 / 2 : ℚ) ^ D2 + (M : ℚ) / 2 ^ D2 = ((M + 1 : Nat) : ℚ) / 2 ^ D2 := by
      rw [one_div, inv_pow]
      push_cast
      field_simp
      ring
    rw [e, div_le_one h2]
    exact hM3

theorem take_entry (l : Multiset (Int × Nat)) (a : Int) (R : Multiset Int)
    (h : l.map Prod.fst = a ::ₘ R) :
    ∃ (d : Nat) (L : Multiset (Int × Nat)), l = (a, d) ::ₘ L ∧ L.map Prod.fst = R := by
  obtain ⟨p, hp, e1, e2⟩ := (Multiset.map_eq_cons Prod.fst l R a).2 h
  refine ⟨p.2, l.erase p, ?_, e2⟩
  have : (a, p.2) = p := by rw [← e1]
  rw [this]
  exact (Multiset.cons_erase hp).symm

/-- The step of the optimality proof: from any assignment of code lengths
that obeys Kraft's inequality, an assignment for the weights with the two
least merged, obeying Kraft's inequality and cheaper by at least the sum of
the two. -/
theorem merge_two (a b : Int) (R : Multiset Int) (l : Multiset (Int × Nat))
    (hl : l.map Prod.fst = a ::ₘ b ::ₘ R) (ha : ∀ w ∈ a ::ₘ b ::ₘ R, a ≤ w)
    (hb : ∀ w ∈ b ::ₘ R, b ≤ w) (h0 : 0 ≤ a) (hk : dkraft (l.map Prod.snd) ≤ 1) :
    ∃ l1 : Multiset (Int × Nat), l1.map Prod.fst = (a + b) ::ₘ R ∧
      dkraft (l1.map Prod.snd) ≤ 1 ∧ acost l1 + a + b ≤ acost l := by
  obtain ⟨da, La, rfl, hLa⟩ := take_entry l a (b ::ₘ R) hl
  obtain ⟨D1, L1, f1, s1, c1, m1⟩ := max_first a La da (by
    intro p hp
    exact ha p.1 (Multiset.mem_cons_of_mem (hLa ▸ Multiset.mem_map_of_mem Prod.fst hp)))
  rw [hLa] at f1
  obtain ⟨db, Lb, rfl, hLb⟩ := take_entry L1 b R f1
  obtain ⟨D2, L2, f2, s2, c2, m2⟩ := max_first b Lb db (by
    intro p hp
    exact hb p.1 (Multiset.mem_cons_of_mem (hLb ▸ Multiset.mem_map_of_mem Prod.fst hp)))
  rw [hLb] at f2
  simp only [Multiset.map_cons] at hk s1 s2
  rw [← s1, ← s2] at hk
  have hD21 : D2 ≤ D1 := by
    have hmem : D2 ∈ D2 ::ₘ Multiset.map Prod.snd L2 := Multiset.mem_cons_self _ _
    rw [s2, ← Multiset.map_cons Prod.snd (b, db) Lb] at hmem
    obtain ⟨p, hp, e⟩ := Multiset.mem_map.1 hmem
    rw [← e]
    exact m1 p hp
  have hk2 : dkraft (D2 ::ₘ D2 ::ₘ Multiset.map Prod.snd L2) ≤ 1 := by
    apply shorten_kraft D1 D2 _ _ hk
    intro d hd
    rcases Multiset.mem_cons.1 hd with e | e
    · rw [e]
    · obtain ⟨p, hp, rfl⟩ := Multiset.mem_map.1 e
      exact m2 p hp
  have hpos : 0 < D2 := by
    by_contra hz
    have hz0 : D2 = 0 := by omega
    rw [hz0, dkraft_cons, dkraft_cons] at hk2
    have := dkraft_nonneg (Multiset.map Prod.snd L2)
    norm_num at hk2
    linarith
  obtain ⟨D, rfl⟩ : ∃ D, D2 = D + 1 := ⟨D2 - 1, by omega⟩
  refine ⟨(a + b, D) ::ₘ L2, by simp [f2], ?_, ?_⟩
  · simp only [Multiset.map_cons]
    rw [dkraft_cons, dkraft_cons] at hk2
    rw [dkraft_cons]
    have e : (1 / 2 : ℚ) ^ (D + 1) + (1 / 2 : ℚ) ^ (D + 1) = (1 / 2 : ℚ) ^ D := by
      rw [pow_succ]; ring
    linarith
  · simp only [acost_cons] at c1 c2 ⊢
    have hd : ((D + 1 : Nat) : Int) ≤ (D1 : Int) := by exact_mod_cast hD21
    push_cast at hd c2 ⊢
    nlinarith [mul_nonneg h0 (sub_nonneg.2 hd)]

/-- The merge cost of Huffman's algorithm is at most the cost of any
assignment of code lengths to the same weights that obeys Kraft's
inequality. -/
theorem Huff_le (W : Multiset Int) (c : Int) (h : Huff W c) :
    (∀ w ∈ W, 0 ≤ w) → ∀ l : Multiset (Int × Nat), l.map Prod.fst = W →
      dkraft (l.map Prod.snd) ≤ 1 → c ≤ acost l := by
  induction h with
  | single w =>
    intro hnn l hl _
    apply acost_nonneg
    intro p hp
    exact hnn p.1 (hl ▸ Multiset.mem_map_of_mem Prod.fst hp)
  | step a b R c ha hb _ ih =>
    intro hnn l hl hk
    have h0 : 0 ≤ a := hnn a (Multiset.mem_cons_self _ _)
    have h1 : 0 ≤ b := hnn b (Multiset.mem_cons_of_mem (Multiset.mem_cons_self _ _))
    obtain ⟨l1, f1, k1, c1⟩ := merge_two a b R l hl ha hb h0 hk
    have := ih (by
      intro w hw
      rcases Multiset.mem_cons.1 hw with e | e
      · rw [e]; omega
      · exact hnn w (Multiset.mem_cons_of_mem (Multiset.mem_cons_of_mem e))) l1 f1 k1
    omega

theorem Tree.costFrom_succ (T : Tree) :
    ∀ d : Nat, T.costFrom (d + 1) = T.costFrom d + (T.leafList.map Prod.fst).sum := by
  induction T with
  | leaf c s =>
    intro d
    simp only [Tree.costFrom, Tree.leafList, List.map_cons, List.map_nil, List.sum_cons,
      List.sum_nil]
    push_cast
    ring
  | node c l r ihl ihr =>
    intro d
    simp only [Tree.costFrom, Tree.leafList, List.map_append, List.sum_append, ihl (d + 1),
      ihr (d + 1)]
    ring

theorem Tree.cost_node (c : Int) (l r : Tree) :
    (Tree.node c l r).cost
      = l.cost + r.cost + (l.leafList.map Prod.fst).sum + (r.leafList.map Prod.fst).sum := by
  simp only [Tree.cost, Tree.costFrom, Nat.zero_add]
  rw [Tree.costFrom_succ l 0, Tree.costFrom_succ r 0]
  ring

/-- Without overflow the rounds of the second loop of `build` are the merges
of Huffman's algorithm on the counts in the queue, and the merge cost is what
the final tree costs on top of the trees at the start. -/
theorem Steps_Huff (F G : Multiset Tree) (h : Steps F G) :
    ∀ T : Tree, G = {T} → NoOvf F → (∀ t ∈ F, t.Summed) →
      Huff (F.map Tree.count) (T.cost - (F.map Tree.cost).sum) := by
  induction h with
  | refl F =>
    intro T hG _ _
    subst hG
    simp only [Multiset.map_singleton, Multiset.sum_singleton, sub_self]
    exact Huff.single _
  | step F F1 F2 hstep _ ih =>
    intro T hG hno hs
    obtain ⟨hno1, t1, t2, R, hF, m1, m2, hF1, _, _⟩ := Step_exact F F1 hstep hno
    have hs1 := Step_summed F F1 hstep hno hs
    have key := ih T hG hno1 hs1
    subst hF hF1
    simp only [Multiset.map_cons, Multiset.sum_cons, Tree.count_node, Tree.cost_node] at key ⊢
    have e1 := Tree.Summed_count t1 (hs t1 (by simp))
    have e2 := Tree.Summed_count t2 (hs t2 (by simp))
    rw [← e1, ← e2] at key
    have hstep2 := Huff.step t1.count t2.count (R.map Tree.count) _ (by
      intro w hw
      rw [← Multiset.map_cons Tree.count, ← Multiset.map_cons Tree.count] at hw
      obtain ⟨t, ht, rfl⟩ := Multiset.mem_map.1 hw
      exact m1 t ht) (by
      intro w hw
      rw [← Multiset.map_cons Tree.count] at hw
      obtain ⟨t, ht, rfl⟩ := Multiset.mem_map.1 hw
      exact m2 t ht) key
    have e : T.cost - (t1.cost + t2.cost + t1.count + t2.count + (R.map Tree.cost).sum)
        + t1.count + t2.count = T.cost - (t1.cost + (t2.cost + (R.map Tree.cost).sum)) := by
      ring
    rw [e] at hstep2
    exact hstep2

theorem Tree.paths_leafList (T : Tree) : T.paths.map (fun p => p.2) = T.leafList := by
  induction T with
  | leaf c s => rfl
  | node c l r ihl ihr =>
    simp only [Tree.paths, List.map_append, List.map_map, Tree.leafList, ← ihl, ← ihr]
    rfl

theorem Tree.paths_sub (T : Tree) :
    ∀ p ∈ T.paths, T.sub p.1 = some (.leaf p.2.1 p.2.2) := by
  induction T with
  | leaf c s =>
    intro p hp
    simp only [Tree.paths, List.mem_singleton] at hp
    subst hp
    rfl
  | node c l r ihl ihr =>
    intro p hp
    simp only [Tree.paths, List.mem_append, List.mem_map] at hp
    rcases hp with ⟨q, hq, rfl⟩ | ⟨q, hq, rfl⟩
    · simpa [Tree.sub] using ihl q hq
    · simpa [Tree.sub] using ihr q hq

theorem Tree.costFrom_paths (T : Tree) :
    ∀ d : Nat, T.costFrom d
      = (T.paths.map (fun p => p.2.1 * ((d + p.1.length : Nat) : Int))).sum := by
  induction T with
  | leaf c s => intro d; simp [Tree.costFrom, Tree.paths]
  | node c l r ihl ihr =>
    intro d
    simp only [Tree.costFrom, Tree.paths, List.map_append, List.sum_append, List.map_map,
      ihl (d + 1), ihr (d + 1)]
    congr 2
    · apply List.map_congr_left
      intro p _
      simp only [Function.comp, List.length_cons]
      congr 2
      omega
    · apply List.map_congr_left
      intro p _
      simp only [Function.comp, List.length_cons]
      congr 2
      omega

theorem Tree.cost_paths (T : Tree) :
    T.cost = (T.paths.map (fun p => p.2.1 * (p.1.length : Int))).sum := by
  rw [Tree.cost, Tree.costFrom_paths]
  simp

theorem Tree.sub_leaf_mem (bs : List Bool) (T : Tree) (c : Int) (s : Nat)
    (h : T.sub bs = some (.leaf c s)) : s ∈ T.symbols := by
  have := Tree.leafList_sub bs T _ h (c, s) (by simp [Tree.leafList])
  exact List.mem_map.2 ⟨(c, s), this, rfl⟩

/-- When no symbol occurs at two leaves, the way to the leaf of a symbol is
unique. -/
theorem Tree.path_unique (T : Tree) :
    ∀ (bs bs1 : List Bool) (c c1 : Int) (s : Nat), T.symbols.Nodup →
      T.sub bs = some (.leaf c s) → T.sub bs1 = some (.leaf c1 s) → bs = bs1 := by
  induction T with
  | leaf c0 s0 =>
    intro bs bs1 c c1 s _ h h1
    cases bs with
    | cons b l => simp [Tree.sub] at h
    | nil =>
      cases bs1 with
      | cons b l => simp [Tree.sub] at h1
      | nil => rfl
  | node c0 l r ihl ihr =>
    intro bs bs1 c c1 s hnd h h1
    simp only [Tree.symbols, Tree.leafList, List.map_append] at hnd
    obtain ⟨hl, hr, hdis⟩ := List.nodup_append.1 hnd
    cases bs with
    | nil => simp [Tree.sub] at h
    | cons b bs =>
      cases bs1 with
      | nil => simp [Tree.sub] at h1
      | cons b1 bs1 =>
        cases b <;> cases b1 <;>
          simp only [Tree.sub, Bool.false_eq_true, if_false, if_true] at h h1
        · rw [ihl bs bs1 c c1 s hl h h1]
        · exact absurd (Tree.sub_leaf_mem bs1 r c1 s h1)
            (fun hm => hdis (Tree.sub_leaf_mem bs l c s h) hm)
        · exact absurd (Tree.sub_leaf_mem bs r c s h)
            (fun hm => hdis (Tree.sub_leaf_mem bs1 l c1 s h1) hm)
        · rw [ihr bs bs1 c c1 s hr h h1]

theorem sum_map_filter (l : List Nat) (g : Nat → Int) (p : Nat → Bool)
    (h : ∀ x, p x = false → g x = 0) : (l.map g).sum = ((l.filter p).map g).sum := by
  induction l with
  | nil => rfl
  | cons a l ih =>
    cases hp : p a
    · simp [List.filter_cons, hp, h a hp, ih]
    · simp [List.filter_cons, hp, ih]

/-- Symbols of frequency zero add nothing to the weighted path length. -/
theorem wpl_syms (freqs : List Int) (len : Nat → Nat) :
    wpl freqs len
      = ((syms freqs freqs.length).map (fun s => freqs.getD s 0 * (len s : Int))).sum := by
  unfold wpl syms
  apply sum_map_filter
  intro x hx
  simp only [ne_eq, decide_not, Bool.not_eq_false', decide_eq_true_eq] at hx
  simp only [hx, zero_mul]

theorem exists_length_bound (cs : List (List Bool)) : ∃ n, ∀ c ∈ cs, c.length ≤ n := by
  induction cs with
  | nil => exact ⟨0, by simp⟩
  | cons a l ih =>
    obtain ⟨n, hn⟩ := ih
    refine ⟨max a.length n, ?_⟩
    intro c hc
    rcases List.mem_cons.1 hc with e | e
    · rw [e]; exact le_max_left _ _
    · exact le_trans (hn c e) (le_max_right _ _)

/-- A prefix code obeys Kraft's inequality. -/
theorem PrefixFree_kraft (freqs : List Int) (code : Nat → List Bool)
    (h : PrefixFree freqs code) : kraftSum ((syms freqs freqs.length).map code) ≤ 1 := by
  obtain ⟨n, hn⟩ := exists_length_bound ((syms freqs freqs.length).map code)
  apply kraft_le_one n _ hn
  rw [List.pairwise_map]
  apply List.Pairwise.imp_of_mem _ (syms_nodup freqs freqs.length)
  intro a b ha hb hab
  exact ⟨h a ha b hb hab, h b hb a ha (fun e => hab e.symm)⟩

/-- The number of bits `encode` writes for a symbol of the built tree is the
depth of its leaf. -/
theorem build_codeLen (tie : List HCNode → List Nat → Nat) (freqs : List Int)
    (hlen : freqs.length = 256) (R : Nat) (T : Tree)
    (hroot : (build tie freqs HCTree.fresh).root = some R)
    (hinv : Inv freqs (build tie freqs HCTree.fresh).mem (build tie freqs HCTree.fresh).leaves
      [(R, T)])
    (hsteps : Steps (Multiset.ofList ((syms freqs freqs.length).map (leafTree freqs))) {T})
    (p : List Bool × Int × Nat) (hp : p ∈ T.paths) :
    codeLen (build tie freqs HCTree.fresh) p.2.2 = p.1.length := by
  have hsub := Tree.paths_sub T p hp
  have hperm := build_symbols freqs T (by omega) hsteps
  have hmem : p.2.2 ∈ syms freqs freqs.length :=
    hperm.mem_iff.1 (Tree.sub_leaf_mem p.1 T p.2.1 p.2.2 hsub)
  obtain ⟨h1, h2⟩ := (mem_syms freqs freqs.length p.2.2).1 hmem
  obtain ⟨x, hx⟩ := build_leaves_some tie freqs p.2.2 h1 (by omega) h2
  obtain ⟨e, he, bs, hpt, hsb⟩ := hinv.leaf p.2.2 x hx
  simp only [List.mem_singleton] at he
  subst he
  rw [Nat.mod_eq_of_lt (by omega : p.2.2 < 256)] at hsb
  have hnd : T.symbols.Nodup := hperm.nodup_iff.2 (syms_nodup freqs freqs.length)
  have hbs := Tree.path_unique T bs p.1 _ _ p.2.2 hnd hsb hsub
  have henc := encode_eq _ T R x p.2.2 bs hroot (hinv.rep (R, T) (List.mem_singleton.2 rfl))
    (hinv.linked (R, T) (List.mem_singleton.2 rfl)) hx hpt []
  simp only [codeLen, henc, List.nil_append, bitsOf_bitCalls, hbs]

/-- The weighted path length of the code `encode` emits is the cost of the
built tree. -/
theorem build_cost_wpl (tie : List HCNode → List Nat → Nat) (freqs : List Int)
    (hlen : freqs.length = 256) (R : Nat) (T : Tree)
    (hroot : (build tie freqs HCTree.fresh).root = some R)
    (hinv : Inv freqs (build tie freqs HCTree.fresh).mem (build tie freqs HCTree.fresh).leaves
      [(R, T)])
    (hsteps : Steps (Multiset.ofList ((syms freqs freqs.length).map (leafTree freqs))) {T}) :
    T.cost = wpl freqs (codeLen (build tie freqs HCTree.fresh)) := by
  rw [wpl_syms, Tree.cost_paths]
  have h1 : T.paths.map (fun p => p.2.1 * (p.1.length : Int))
      = (T.paths.map (fun p => p.2)).map
          (fun q => q.1 * (codeLen (build tie freqs HCTree.fresh) q.2 : Int)) := by
    rw [List.map_map]
    apply List.map_congr_left
    intro p hp
    simp only [Function.comp, build_codeLen tie freqs hlen R T hroot hinv hsteps p hp]
  rw [h1, Tree.paths_leafList]
  have hperm := (build_leafList freqs T hsteps).map
    (fun q => q.1 * (codeLen (build tie freqs HCTree.fresh) q.2 : Int))
  rw [hperm.sum_eq, List.map_map]
  congr 1
  apply List.map_congr_left
  intro s hs
  have := ((mem_syms freqs freqs.length s).1 hs).1
  simp only [Function.comp, Nat.mod_eq_of_lt (by omega : s < 256)]

theorem uniqueTop_pq_top (tie : List HCNode → List Nat → Nat) (mem : List HCNode)
    (pq : List Nat) (x : Nat) (h : uniqueTop mem pq = some x) : pq_top tie mem pq = some x := by
  unfold uniqueTop at h
  unfold pq_top
  cases hf : pq.filter (isMin mem pq) with
  | nil => simp [hf] at h
  | cons a l =>
    cases l with
    | nil =>
      simp only [hf, Option.some.injEq] at h
      subst h
      simp [Nat.mod_one]
    | cons b l1 => simp [hf] at h

/-- When no tie occurs the second loop of `build` does the same for every
tie-break. -/
theorem buildLoopU_eq (tie : List HCNode → List Nat → Nat) :
    ∀ (fuel : Nat) (mem : List HCNode) (pq : List Nat) (r : List HCNode × List Nat),
      buildLoopU fuel mem pq = some r → buildLoop tie fuel mem pq = r := by
  intro fuel
  induction fuel with
  | zero =>
    intro mem pq r h
    simp only [buildLoopU, Option.some.injEq] at h
    simp [buildLoop, h]
  | succ f ih =>
    intro mem pq r h
    simp only [buildLoopU] at h
    by_cases h1 : 1 < pq.length
    · simp only [h1, if_true] at h
      cases hx1 : uniqueTop mem pq with
      | none => simp [hx1] at h
      | some x1 =>
        simp only [hx1] at h
        cases hx2 : uniqueTop mem (pq_pop pq x1) with
        | none => simp [hx2] at h
        | some x2 =>
          simp only [hx2] at h
          simp only [buildLoop, h1, if_true, uniqueTop_pq_top tie mem pq x1 hx1,
            uniqueTop_pq_top tie mem (pq_pop pq x1) x2 hx2]
          exact ih _ _ r h
    · simp only [h1, if_false, Option.some.injEq] at h
      simp [buildLoop, h1, h]

/-- When no tie occurs in the second loop, `build` yields the same tree for
every tie-break. -/
theorem build_no_ties (tie : List HCNode → List Nat → Nat) (freqs : List Int)
    (r : List HCNode × List Nat)
    (h : buildLoopU (buildLeaves freqs HCTree.fresh).2.length
      (buildLeaves freqs HCTree.fresh).1.mem (buildLeaves freqs HCTree.fresh).2 = some r)
    (hr : r.2.length ≤ 1) :
    build tie freqs HCTree.fresh = build (fun _ _ => 0) freqs HCTree.fresh := by
  have e1 := buildLoopU_eq tie _ _ _ r h
  have e2 := buildLoopU_eq (fun _ _ => 0) _ _ _ r h
  simp only [build, e1, e2]
  congr 1
  cases hq : r.2 with
  | nil => simp
  | cons a l =>
    cases l with
    | nil => simp [pq_top_singleton]
    | cons b l1 => rw [hq] at hr; simp at hr

set_option maxRecDepth 100000 in
/-- On the textbook table no tie occurs, so every tie-break builds the same
tree. -/
theorem build_exFreqs (tie : List HCNode → List Nat → Nat) :
    build tie exFreqs HCTree.fresh = build (fun _ _ => 0) exFreqs HCTree.fresh := by
  apply build_no_ties tie exFreqs
    ([{ count := 5, symbol := 97, c0 := none, c1 := none, p := some 6 },
      { count := 9, symbol := 98, c0 := none, c1 := none, p := some 6 },
      { count := 12, symbol := 99, c0 := none, c1 := none, p := some 7 },
      { count := 13, symbol := 100, c0 := none, c1 := none, p := some 7 },
      { count := 16, symbol := 101, c0 := none, c1 := none, p := some 8 },
      { count := 45, symbol := 102, c0 := none, c1 := none, p := some 10 },
      { count := 14, symbol := 96, c0 := some 0, c1 := some 1, p := some 8 },
      { count := 25, symbol := 96, c0 := some 2, c1 := some 3, p := some 9 },
      { count := 30, symbol := 96, c0 := some 6, c1 := some 4, p := some 9 },
      { count := 55, symbol := 96, c0 := some 7, c1 := some 8, p := some 10 },
      { count := 100, symbol := 96, c0 := some 5, c1 := some 9, p := none }], [10])
  · decide
  · decide

set_option maxRecDepth 100000 in
theorem exFreqs_lengths :
    [97, 98, 99, 100, 101, 102].map (codeLen (build (fun _ _ => 0) exFreqs HCTree.fresh))
      = [4, 4, 3, 3, 3, 1] ∧
    wpl exFreqs (codeLen (build (fun _ _ => 0) exFreqs HCTree.fresh)) = 224 := by
  constructor
  · decide
  · decide

theorem leafForest_cost (freqs : List Int) (S : List Nat) :
    (Multiset.map Tree.cost (Multiset.ofList (S.map (leafTree freqs)))).sum = 0 := by
  induction S with
  | nil => simp
  | cons s S ih =>
    simp only [List.map_cons, ← Multiset.cons_coe, Multiset.map_cons, Multiset.sum_cons] at ih ⊢
    rw [ih]
    simp [leafTree, Tree.cost, Tree.costFrom]

/-- Without overflow the code of the built tree has the least weighted path
length among the binary prefix codes for the table. -/
theorem huffman_optimal (tie : List HCNode → List Nat → Nat) (freqs : List Int)
    (code : Nat → List Bool) (hlen : freqs.length = 256) (hnn : ∀ f ∈ freqs, 0 ≤ f)
    (hsum : freqs.sum < 2147483648) (hpf : PrefixFree freqs code) :
    wpl freqs (codeLen (build tie freqs HCTree.fresh))
      ≤ wpl freqs (fun s => (code s).length) := by
  by_cases hS : syms freqs freqs.length = []
  · rw [wpl_syms, wpl_syms, hS]
    simp
  · obtain ⟨R, T, hroot, hinv, hsteps⟩ := build_spec tie freqs hS
    rw [← build_cost_wpl tie freqs hlen R T hroot hinv hsteps]
    have hH := Steps_Huff _ _ hsteps T rfl (leafForest_noOvf freqs hnn hsum)
      (leafForest_summed freqs _)
    rw [leafForest_cost, sub_zero, leafForest_counts] at hH
    have hle := Huff_le _ _ hH (by
      intro w hw
      simp only [Multiset.mem_coe, List.mem_map] at hw
      obtain ⟨s, _, rfl⟩ := hw
      exact getD_nonneg freqs hnn s)
      (Multiset.ofList ((syms freqs freqs.length).map
        (fun s => (freqs.getD s 0, (code s).length))))
      (by simp only [Multiset.map_coe, List.map_map]; rfl)
      (by
        have hk := PrefixFree_kraft freqs code hpf
        simp only [kraftSum, List.map_map] at hk
        simp only [dkraft, Multiset.map_coe, List.map_map, Multiset.sum_coe]
        exact hk)
    rw [wpl_syms]
    simp only [acost, Multiset.map_coe, List.map_map, Multiset.sum_coe] at hle
    exact hle

/-- C2, as amended: for a table of 256 non-negative entries whose sum fits in
a signed 32-bit integer, the code `encode` emits on the built tree has a
weighted path length no greater than that of any binary prefix code over the
symbols of nonzero frequency, whichever way the queue breaks ties; and for the
table `a:5, b:9, c:12, d:13, e:16, f:45` the code lengths are 4, 4, 3, 3, 3, 1
and the weighted path length is 224, for every tie-break. -/
theorem C2_optimal (tie : List HCNode → List Nat → Nat) (freqs : List Int)
    (code : Nat → List Bool) (hlen : freqs.length = 256) (hnn : ∀ f ∈ freqs, 0 ≤ f)
    (hsum : freqs.sum < 2147483648) (hpf : PrefixFree freqs code) :
    wpl freqs (codeLen (build tie freqs HCTree.fresh))
      ≤ wpl freqs (fun s => (code s).length) ∧
    [97, 98, 99, 100, 101, 102].map (codeLen (build tie exFreqs HCTree.fresh))
      = [4, 4, 3, 3, 3, 1] ∧
    wpl exFreqs (codeLen (build tie exFreqs HCTree.fresh)) = 224 := by
  refine ⟨huffman_optimal tie freqs code hlen hnn hsum hpf, ?_⟩
  rw [build_exFreqs tie]
  exact exFreqs_lengths

set_option maxRecDepth 100000 in
/-- C2 at the textbook table against a fixed-length code of three bits. -/
theorem C2_optimal_witness :
    (exFreqs.length = 256 ∧ (∀ f ∈ exFreqs, 0 ≤ f) ∧ exFreqs.sum < 2147483648 ∧
      PrefixFree exFreqs exCode) ∧
    (wpl exFreqs (codeLen (build (fun _ _ => 0) exFreqs HCTree.fresh))
      ≤ wpl exFreqs (fun s => (exCode s).length) ∧
    [97, 98, 99, 100, 101, 102].map (codeLen (build (fun _ _ => 0) exFreqs HCTree.fresh))
      = [4, 4, 3, 3, 3, 1] ∧
    wpl exFreqs (codeLen (build (fun _ _ => 0) exFreqs HCTree.fresh)) = 224) :=
  ⟨⟨by decide, by decide, by decide, by unfold PrefixFree; decide⟩,
    C2_optimal (fun _ _ => 0) exFreqs exCode (by decide) (by decide) (by decide)
      (by unfold PrefixFree; decide)⟩

set_option maxRecDepth 100000 in
/-- C2 as stated fails: four entries of 2^30 are non-negative and each fits
in an `int`, but the sums wrap around in the second loop of `build`, and the
code of the built tree (lengths 3, 3, 2, 1) has a greater weighted path
length than the fixed-length code of two bits. -/
theorem C2_counterexample :
    bigFreqs.length = 256 ∧ (∀ f ∈ bigFreqs, 0 ≤ f ∧ f < 2147483648) ∧
    2 ≤ (syms bigFreqs bigFreqs.length).length ∧ PrefixFree bigFreqs twoBit ∧
    wpl bigFreqs (fun s => (twoBit s).length)
      < wpl bigFreqs (codeLen (build (fun _ _ => 0) bigFreqs HCTree.fresh)) := by
  refine ⟨by decide, by decide, by decide, by unfold PrefixFree; decide, by decide⟩

theorem getD_ne_zero_lt (freqs : List Int) (s : Nat) (hf : freqs.getD s 0 ≠ 0) :
    s < freqs.length := by
  by_contra h
  apply hf
  simp [List.getElem?_eq_none (Nat.le_of_not_lt h)]

/-- The code of the built tree: the tree the root unfolds to, and for every
symbol of nonzero frequency the way to its leaf, which is what `encode`
writes. -/
theorem build_code (tie : List HCNode → List Nat → Nat) (freqs : List Int)
    (hlen : freqs.length = 256) (hne : syms freqs freqs.length ≠ []) :
    ∃ (R : Nat) (T : Tree), (build tie freqs HCTree.fresh).root = some R ∧
      Rep (build tie freqs HCTree.fresh).mem T R ∧
      Steps (Multiset.ofList ((syms freqs freqs.length).map (leafTree freqs))) {T} ∧
      T.symbols.Nodup ∧
      ∀ s : Nat, freqs.getD s 0 ≠ 0 →
        ∃ bs : List Bool, T.sub bs = some (.leaf (freqs.getD s 0) s) ∧
          ∀ out : FancyOutputStream,
            encode (build tie freqs HCTree.fresh) s out = some (out ++ bitCalls bs) := by
  obtain ⟨R, T, hroot, hinv, hsteps⟩ := build_spec tie freqs hne
  have hrep := hinv.rep (R, T) (List.mem_singleton.2 rfl)
  have hperm := build_symbols freqs T (by omega) hsteps
  refine ⟨R, T, hroot, hrep, hsteps, hperm.nodup_iff.2 (syms_nodup freqs freqs.length), ?_⟩
  intro s hf
  have hs := getD_ne_zero_lt freqs s hf
  obtain ⟨x, hx⟩ := build_leaves_some tie freqs s hs (by omega) hf
  obtain ⟨e, he, bs, hp, hsub⟩ := hinv.leaf s x hx
  simp only [List.mem_singleton] at he
  subst he
  rw [Nat.mod_eq_of_lt (by omega : s < 256)] at hsub
  exact ⟨bs, hsub, fun out => encode_eq _ T R x s bs hroot hrep
    (hinv.linked (R, T) (List.mem_singleton.2 rfl)) hx hp out⟩

theorem Tree.sub_leaf_nil (c : Int) (s : Nat) (k : List Bool) (T1 : Tree)
    (h : (Tree.leaf c s).sub k = some T1) : k = [] ∧ T1 = .leaf c s := by
  cases k with
  | nil => simp only [Tree.sub, Option.some.injEq] at h; exact ⟨rfl, h.symm⟩
  | cons b l => simp [Tree.sub] at h

/-- C13: for a frequency table of 256 entries and two different symbols `s`
and `t` of nonzero frequency (so the table has at least two such entries),
the bit sequence `encode` writes for `s` on the built tree is not empty and
is not a beginning of the bit sequence it writes for `t`. -/
theorem C13_prefix_code (tie : List HCNode → List Nat → Nat) (freqs : List Int) (s t : Nat)
    (out : FancyOutputStream) (hlen : freqs.length = 256) (hs : freqs.getD s 0 ≠ 0)
    (ht : freqs.getD t 0 ≠ 0) (hst : s ≠ t) :
    ∃ bs bt : List Bool,
      encode (build tie freqs HCTree.fresh) s out = some (out ++ bitCalls bs) ∧
      encode (build tie freqs HCTree.fresh) t out = some (out ++ bitCalls bt) ∧
      bs ≠ [] ∧ ¬ bs <+: bt := by
  obtain ⟨R, T, _, _, _, _, hcode⟩ :=
    build_code tie freqs hlen (syms_ne_nil freqs s (getD_ne_zero_lt freqs s hs) hs)
  obtain ⟨bs, hsub, hes⟩ := hcode s hs
  obtain ⟨bt, htsub, het⟩ := hcode t ht
  have key : ∀ k : List Bool, bt ≠ bs ++ k := by
    intro k e
    rw [e, Tree.sub_append, hsub] at htsub
    have := (Tree.sub_leaf_nil _ _ k _ htsub).2
    simp only [Tree.leaf.injEq] at this
    exact hst this.2.symm
  refine ⟨bs, bt, hes out, het out, ?_, ?_⟩
  · intro e
    subst e
    exact key bt rfl
  · rintro ⟨k, hk⟩
    exact key k hk.symm

set_option maxRecDepth 100000 in
/-- C13 at the textbook table, symbols `a` and `f`. -/
theorem C13_prefix_code_witness :
    (exFreqs.length = 256 ∧ exFreqs.getD 97 0 ≠ 0 ∧ exFreqs.getD 102 0 ≠ 0 ∧ 97 ≠ 102) ∧
    ∃ bs bt : List Bool,
      encode (build (fun _ _ => 0) exFreqs HCTree.fresh) 97 [] = some ([] ++ bitCalls bs) ∧
      encode (build (fun _ _ => 0) exFreqs HCTree.fresh) 102 [] = some ([] ++ bitCalls bt) ∧
      bs ≠ [] ∧ ¬ bs <+: bt :=
  ⟨⟨by decide, by decide, by decide, by decide⟩,
    C13_prefix_code (fun _ _ => 0) exFreqs 97 102 [] (by decide) (by decide) (by decide)
      (by decide)⟩

theorem bitCalls_append (a b : List Bool) : bitCalls (a ++ b) = bitCalls a ++ bitCalls b := by
  simp [bitCalls]

/-- The two payload loops of the drivers undo each other on the built tree. -/
theorem payload_round (tie : List HCNode → List Nat → Nat) (eof : Int) (freqs : List Int)
    (hlen : freqs.length = 256) (r : List Bool) :
    ∀ w : List Nat, (∀ s ∈ w, freqs.getD s 0 ≠ 0) →
      ∃ bits : List Bool,
        (∀ out : FancyOutputStream,
          compress.payload (build tie freqs HCTree.fresh) w out = some (out ++ bitCalls bits)) ∧
        (∀ (acc : List Nat) (g : Bool),
          decompress.payload eof (build tie freqs HCTree.fresh) w.length
            { bits := bits ++ r, good := g } acc = some (acc ++ w, { bits := r, good := g })) := by
  intro w
  induction w with
  | nil =>
    intro _
    exact ⟨[], fun out => by simp [compress.payload, bitCalls],
      fun acc g => by simp [decompress.payload]⟩
  | cons s w ih =>
    intro hw
    have hs : freqs.getD s 0 ≠ 0 := hw s (List.mem_cons_self s w)
    obtain ⟨bits, h1, h2⟩ := ih (fun x hx => hw x (List.mem_cons_of_mem s hx))
    have hslt := getD_ne_zero_lt freqs s hs
    obtain ⟨R, T, hroot, hrep, _, _, hcode⟩ := build_code tie freqs hlen (syms_ne_nil freqs s hslt hs)
    obtain ⟨bs, hsub, hes⟩ := hcode s hs
    refine ⟨bs ++ bits, ?_, ?_⟩
    · intro out
      simp only [compress.payload, Nat.mod_eq_of_lt (by omega : s < 256), hes out, h1,
        bitCalls_append, List.append_assoc]
    · intro acc g
      have hd := Tree.decode_path eof bs T _ s (bits ++ r) g hsub
      simp only [decompress.payload, List.length_cons, decode_eq eof _ T R hroot hrep,
        List.append_assoc, hd, h2, List.singleton_append]

/-- C18: for a frequency table of 256 entries, a list `w` of symbols of
nonzero frequency and trailing bits `r`: the encode loop of `compress` writes
the codes of the elements of `w` one after the other, and the decode loop of
`decompress`, run `w.length` times on a source that holds those bits followed
by `r`, returns `w` and leaves exactly `r` unread; a single `decode` call on
the code of a symbol followed by any bits returns the symbol and leaves those
bits, so it reads as many bits as `encode` wrote. -/
theorem C18_payload_round_trip (tie : List HCNode → List Nat → Nat) (eof : Int)
    (freqs : List Int) (w : List Nat) (r : List Bool) (hlen : freqs.length = 256)
    (hw : ∀ s ∈ w, freqs.getD s 0 ≠ 0) :
    ∃ out : FancyOutputStream,
      compress.payload (build tie freqs HCTree.fresh) w [] = some out ∧
      decompress.payload eof (build tie freqs HCTree.fresh) w.length
        (FancyInputStream.ofBits (bitsOf out ++ r)) [] = some (w, FancyInputStream.ofBits r) ∧
      ∀ s ∈ w, ∀ rest : List Bool, ∃ bs : List Bool,
        encode (build tie freqs HCTree.fresh) s [] = some (bitCalls bs) ∧
        decode eof (build tie freqs HCTree.fresh) (FancyInputStream.ofBits (bs ++ rest))
          = some (s, FancyInputStream.ofBits rest) := by
  obtain ⟨bits, h1, h2⟩ := payload_round tie eof freqs hlen r w hw
  refine ⟨bitCalls bits, by simpa using h1 [], ?_, ?_⟩
  · have := h2 [] true
    simpa [bitsOf_bitCalls, FancyInputStream.ofBits] using this
  · intro s hs rest
    have hf := hw s hs
    obtain ⟨R, T, hroot, hrep, _, _, hcode⟩ :=
      build_code tie freqs hlen (syms_ne_nil freqs s (getD_ne_zero_lt freqs s hf) hf)
    obtain ⟨bs, hsub, hes⟩ := hcode s hf
    refine ⟨bs, by simpa using hes [], ?_⟩
    rw [decode_eq eof _ T R hroot hrep]
    simp only [FancyInputStream.ofBits, Tree.decode_path eof bs T _ s rest true hsub]

set_option maxRecDepth 100000 in
/-- C18 at the textbook table, for the symbols `a`, `f`, `a` followed by two
bits. -/
theorem C18_payload_round_trip_witness :
    (exFreqs.length = 256 ∧ ∀ s ∈ [97, 102, 97], exFreqs.getD s 0 ≠ 0) ∧
    ∃ out : FancyOutputStream,
      compress.payload (build (fun _ _ => 0) exFreqs HCTree.fresh) [97, 102, 97] [] = some out ∧
      decompress.payload 0 (build (fun _ _ => 0) exFreqs HCTree.fresh) [97, 102, 97].length
        (FancyInputStream.ofBits (bitsOf out ++ [true, false])) []
          = some ([97, 102, 97], FancyInputStream.ofBits [true, false]) ∧
      ∀ s ∈ [97, 102, 97], ∀ rest : List Bool, ∃ bs : List Bool,
        encode (build (fun _ _ => 0) exFreqs HCTree.fresh) s [] = some (bitCalls bs) ∧
        decode 0 (build (fun _ _ => 0) exFreqs HCTree.fresh) (FancyInputStream.ofBits (bs ++ rest))
          = some (s, FancyInputStream.ofBits rest) :=
  ⟨⟨by decide, by decide⟩,
    C18_payload_round_trip (fun _ _ => 0) 0 exFreqs [97, 102, 97] [true, false] (by decide)
      (by decide)⟩

theorem Tree.enc_length (T : Tree) : T.enc.length + 1 = 10 * T.leafList.length := by
  induction T with
  | leaf c s => simp [Tree.enc, Tree.leafList]
  | node c l r ihl ihr =>
    simp only [Tree.enc, Tree.leafList, List.length_cons, List.length_append]
    omega

theorem Tree.size_leaves (T : Tree) : T.size + 1 = 2 * T.leafList.length := by
  induction T with
  | leaf c s => simp [Tree.size, Tree.leafList]
  | node c l r ihl ihr =>
    simp only [Tree.size, Tree.leafList, List.length_append]
    omega

theorem build_leaves_count (freqs : List Int) (T : Tree)
    (h : Steps (Multiset.ofList ((syms freqs freqs.length).map (leafTree freqs))) {T}) :
    T.leafList.length = (syms freqs freqs.length).length := by
  have := (build_leafList freqs T h).length_eq
  simpa using this

theorem skipBits_append (eof : Int) (pad rest : List Bool) (g : Bool) :
    skipBits eof pad.length { bits := pad ++ rest, good := g } = { bits := rest, good := g } := by
  induction pad with
  | nil => simp [skipBits]
  | cons b pad ih =>
    simp only [List.length_cons, skipBits, List.cons_append, read_bit_cons]
    exact ih

/-- C20: for a frequency table with `n >= 1` nonzero entries, the shape
encoding `serialize` writes for the built tree (the bits between the header
and the flush) has 10n - 1 bits, for `n` leaves and a tree of 2n - 1 nodes;
that number is not a multiple of 8; and `deserialize` with `len >= 2n - 1` on
a source that holds the encoding, then the padding up to the next multiple of
8 bits (whatever its bits are), then a payload, returns with the source at
the first bit of the payload, having read 8 * ceil((10n - 1) / 8) bits. -/
theorem C20_shape_bits (tie : List HCNode → List Nat → Nat) (eof : Int) (freqs : List Int)
    (len : Int) (pad payload : List Bool)
    (hn : 1 ≤ (syms freqs freqs.length).length)
    (hpad : pad.length + (10 * (syms freqs freqs.length).length - 1)
      = 8 * ((10 * (syms freqs freqs.length).length - 1 + 7) / 8))
    (hl : ((2 * (syms freqs freqs.length).length - 1 : Nat) : Int) ≤ len) :
    ∃ (out : FancyOutputStream) (T : Tree) (R : Nat) (t1 : HCTree),
      serialize (build tie freqs HCTree.fresh) [] = some out ∧
      (build tie freqs HCTree.fresh).root = some R ∧
      Rep (build tie freqs HCTree.fresh).mem T R ∧
      T.leafList.length = (syms freqs freqs.length).length ∧
      T.size = 2 * (syms freqs freqs.length).length - 1 ∧
      (bitsOf out).length = 10 * (syms freqs freqs.length).length - 1 ∧
      (bitsOf out).length % 8 ≠ 0 ∧
      deserialize eof len HCTree.fresh (FancyInputStream.ofBits (bitsOf out ++ pad ++ payload))
        = some (t1, FancyInputStream.ofBits payload) ∧
      (bitsOf out ++ pad).length = 8 * ((10 * (syms freqs freqs.length).length - 1 + 7) / 8) := by
  have hne : syms freqs freqs.length ≠ [] := by
    intro e
    rw [e] at hn
    simp at hn
  obtain ⟨R, T, hroot, hinv, hsteps⟩ := build_spec tie freqs hne
  have hrep := hinv.rep (R, T) (List.mem_singleton.2 rfl)
  have hser := serialize_eq _ T R [] hroot hrep
  have hby := build_bytes freqs T hsteps
  have hcount := build_leaves_count freqs T hsteps
  have henc := Tree.enc_length T
  have hsize := Tree.size_leaves T
  rw [hcount] at henc hsize
  have hwalk := deserialize_enc eof len T (pad ++ payload) hby (by omega)
  have hskip : (8 - (T.enc.length : Int) % 8).toNat = pad.length := by omega
  refine ⟨_, T, R,
    { mem := layout T 0, root := some 0, leaves := layLeaves T 0 HCTree.fresh.leaves },
    hser, hroot, hrep, hcount, by omega, ?_, ?_, ?_, ?_⟩
  · rw [bitsOf_serialized]
    omega
  · rw [bitsOf_serialized]
    omega
  · rw [bitsOf_serialized, List.append_assoc]
    simp only [deserialize, hwalk, hskip]
    simp only [FancyInputStream.ofBits, skipBits_append]
  · rw [bitsOf_serialized, List.length_append]
    omega

set_option maxRecDepth 100000 in
/-- C20 at the textbook table: six symbols, 59 bits of shape encoding, five
bits of padding. -/
theorem C20_shape_bits_witness :
    (1 ≤ (syms exFreqs exFreqs.length).length ∧
      [true, false, true, false, true].length + (10 * (syms exFreqs exFreqs.length).length - 1)
        = 8 * ((10 * (syms exFreqs exFreqs.length).length - 1 + 7) / 8) ∧
      ((2 * (syms exFreqs exFreqs.length).length - 1 : Nat) : Int) ≤ 11) ∧
    ∃ (out : FancyOutputStream) (T : Tree) (R : Nat) (t1 : HCTree),
      serialize (build (fun _ _ => 0) exFreqs HCTree.fresh) [] = some out ∧
      (build (fun _ _ => 0) exFreqs HCTree.fresh).root = some R ∧
      Rep (build (fun _ _ => 0) exFreqs HCTree.fresh).mem T R ∧
      T.leafList.length = (syms exFreqs exFreqs.length).length ∧
      T.size = 2 * (syms exFreqs exFreqs.length).length - 1 ∧
      (bitsOf out).length = 10 * (syms exFreqs exFreqs.length).length - 1 ∧
      (bitsOf out).length % 8 ≠ 0 ∧
      deserialize 0 11 HCTree.fresh
        (FancyInputStream.ofBits (bitsOf out ++ [true, false, true, false, true] ++ [true, true]))
        = some (t1, FancyInputStream.ofBits [true, true]) ∧
      (bitsOf out ++ [true, false, true, false, true]).length
        = 8 * ((10 * (syms exFreqs exFreqs.length).length - 1 + 7) / 8) :=
  ⟨⟨by decide, by decide, by decide⟩,
    C20_shape_bits (fun _ _ => 0) 0 exFreqs 11 [true, false, true, false, true] [true, true]
      (by decide) (by decide) (by decide)⟩

theorem deseriallization_null (eof : Int) (len : Int) (fuel : Nat) (st : DesState)
    (h0 : 0 < fuel) (h : len ≤ st.index) : deseriallization eof len fuel st = some (none, st) := by
  obtain ⟨f, rfl⟩ : ∃ f, fuel = f + 1 := ⟨fuel - 1, by omega⟩
  simp [deseriallization, h]

theorem cutLayout_nil (len : Int) (T : Tree) (x : Nat) (h : len ≤ (x : Int)) :
    cutLayout len T x = [] := by
  cases T <;> simp [cutLayout, not_lt.2 h]

theorem cutBits_zero (len : Int) (T : Tree) (x : Nat) (h : len ≤ (x : Int)) :
    cutBits len T x = 0 := by
  cases T <;> simp [cutBits, not_lt.2 h]

theorem cutLayout_length (len : Int) (T : Tree) :
    ∀ x : Nat, (cutLayout len T x).length = min T.size (len - x).toNat := by
  induction T with
  | leaf c s =>
    intro x
    by_cases h : (x : Int) < len
    · simp only [cutLayout, h, if_true, List.length_singleton, Tree.size]
      omega
    · simp only [cutLayout, h, if_false, List.length_nil, Tree.size]
      omega
  | node c l r ihl ihr =>
    intro x
    by_cases h : (x : Int) < len
    · simp only [cutLayout, h, if_true, List.length_cons, List.length_append, ihl, ihr, Tree.size]
      push_cast
      omega
    · simp only [cutLayout, h, if_false, List.length_nil, Tree.size]
      omega

theorem cutBits_full (len : Int) (T : Tree) :
    ∀ x : Nat, (x : Int) + T.size ≤ len → cutBits len T x = T.enc.length := by
  induction T with
  | leaf c s =>
    intro x h
    simp only [Tree.size, Nat.cast_one] at h
    have hx : (x : Int) < len := by omega
    simp [cutBits, hx, Tree.enc]
  | node c l r ihl ihr =>
    intro x h
    simp only [Tree.size, Nat.cast_add, Nat.cast_one] at h
    have hx : (x : Int) < len := by omega
    simp only [cutBits, hx, if_true, Tree.enc, List.length_cons, List.length_append]
    rw [ihl (x + 1) (by push_cast; omega), ihr (x + 1 + l.size) (by push_cast; omega)]
    omega

theorem cutLayout_full (len : Int) (T : Tree) :
    ∀ x : Nat, (x : Int) + T.size ≤ len → cutLayout len T x = layout T x := by
  induction T with
  | leaf c s =>
    intro x h
    simp only [Tree.size, Nat.cast_one] at h
    have hx : (x : Int) < len := by omega
    simp [cutLayout, hx, layout]
  | node c l r ihl ihr =>
    intro x h
    simp only [Tree.size, Nat.cast_add, Nat.cast_one] at h
    have hx : (x : Int) < len := by omega
    have h1 : ((x + 1 : Nat) : Int) < len := by
      have := Tree.height_lt_size l
      push_cast; omega
    have h2 : ((x + 1 + l.size : Nat) : Int) < len := by
      have := Tree.height_lt_size r
      push_cast; omega
    simp only [cutLayout, hx, if_true, layout, cutPtr, h1, h2]
    rw [ihl (x + 1) (by push_cast; omega), ihr (x + 1 + l.size) (by push_cast; omega)]

/-- One call of `deseriallization` that reads bit 0: the node, then the two
nested calls. -/
theorem deseriallization_inner (eof : Int) (len : Int) (f : Nat) (st : DesState)
    (rest : List Bool) (g : Bool) (hlt : st.index < len)
    (hinp : st.inp = { bits := false :: rest, good := g }) :
    deseriallization eof len (f + 1) st =
      (deseriallization eof len f
        { st with mem := st.mem ++ [HCNode.new 0 96], index := st.index + 1,
                  inp := { bits := rest, good := g },
                  bitcounter := st.bitcounter + 1 }).bind (fun p =>
        (deseriallization eof len f
          { p.2 with mem := setC0 p.2.mem st.mem.length p.1, index := p.2.index + 1 }).bind
          (fun q => some (some st.mem.length,
            { q.2 with mem := setC1 q.2.mem st.mem.length q.1 }))) := by
  have hguard : ¬ st.index ≥ len := by omega
  simp only [deseriallization, hguard, if_false, hinp, read_bit_cons, bitInt,
    Bool.false_eq_true, if_true]
  cases h1 : deseriallization eof len f
      { mem := st.mem ++ [HCNode.new 0 96], leaves := st.leaves, index := st.index + 1,
        inp := { bits := rest, good := g }, bitcounter := st.bitcounter + 1 } with
  | none => simp
  | some p =>
    obtain ⟨lp, st3⟩ := p
    simp only [Option.some_bind]
    cases h2 : deseriallization eof len f
      { mem := setC0 st3.mem st.mem.length lp, leaves := st3.leaves, index := st3.index + 1,
        inp := st3.inp, bitcounter := st3.bitcounter } with
    | none => simp
    | some q => simp

/-- One call of `deseriallization` that reads bit 1 and the 8 bits of a
byte. -/
theorem deseriallization_leaf (eof : Int) (len : Int) (f : Nat) (st : DesState)
    (s : Nat) (rest : List Bool) (g : Bool) (hlt : st.index < len) (hs : s < 256)
    (hinp : st.inp = { bits := (Tree.leaf 0 s).enc ++ rest, good := g }) :
    deseriallization eof len (f + 1) st =
      some (some st.mem.length,
        { mem := st.mem ++ [HCNode.new 0 s], leaves := st.leaves.set s (some st.mem.length),
          index := st.index, inp := { bits := rest, good := g },
          bitcounter := st.bitcounter + 1 + 8 }) := by
  have hguard : ¬ st.index ≥ len := by omega
  simp only [deseriallization, hguard, if_false, hinp, Tree.enc, List.cons_append,
    read_bit_cons, bitInt, if_true, one_ne_zero, if_false, readSymbol_eq, Nat.mod_eq_of_lt hs]

theorem deseriallization_cut (eof : Int) (len : Int) (T : Tree) :
    ∀ (fuel : Nat) (st : DesState) (rest : List Bool) (g : Bool), T.Bytes →
      st.inp = { bits := T.enc ++ rest, good := g } → st.index = (st.mem.length : Int) →
      st.index < len → (len - st.index).toNat < fuel →
      ∃ st1 : DesState,
        deseriallization eof len fuel st = some (some st.mem.length, st1) ∧
        st1.mem = st.mem ++ cutLayout len T st.mem.length ∧
        st1.inp = { bits := (T.enc ++ rest).drop (cutBits len T st.mem.length), good := g } ∧
        st1.bitcounter = st.bitcounter + cutBits len T st.mem.length ∧
        (st.index + T.size ≤ len → st1.index = st.index + T.size - 1) ∧
        (len < st.index + T.size → len ≤ st1.index) := by
  induction T with
  | leaf c s =>
    intro fuel st rest g hby hinp hidx hlt hf
    obtain ⟨f, rfl⟩ : ∃ f, fuel = f + 1 := ⟨fuel - 1, by omega⟩
    have hs : s < 256 := hby (c, s) (by simp [Tree.leafList])
    have hx : (st.mem.length : Int) < len := by omega
    refine ⟨_, deseriallization_leaf eof len f st s rest g hlt hs hinp, ?_, ?_, ?_, ?_, ?_⟩
    · simp [cutLayout, hx]
    · simp [cutBits, hx, Tree.enc]
    · simp only [cutBits, hx, if_true]
      push_cast
      ring
    · intro _
      simp [Tree.size]
    · intro h
      simp only [Tree.size, Nat.cast_one] at h
      omega
  | node c l r ihl ihr =>
    intro fuel st rest g hby hinp hidx hlt hf
    obtain ⟨f, rfl⟩ : ∃ f, fuel = f + 1 := ⟨fuel - 1, by omega⟩
    obtain ⟨hbl, hbr⟩ := Tree.Bytes_node c l r hby
    have hx : (st.mem.length : Int) < len := by omega
    have hf0 : 0 < f := by omega
    have hinp1 : st.inp = { bits := false :: (l.enc ++ (r.enc ++ rest)), good := g } := by
      rw [hinp]
      simp [Tree.enc]
    rw [deseriallization_inner eof len f st _ g hlt hinp1]
    by_cases h1 : ((st.mem.length + 1 : Nat) : Int) < len
    · obtain ⟨st3, hl, hm3, hi3, hb3, hfull3, hcut3⟩ := ihl f
        { st with mem := st.mem ++ [HCNode.new 0 96], index := st.index + 1,
                  inp := { bits := l.enc ++ (r.enc ++ rest), good := g },
                  bitcounter := st.bitcounter + 1 }
        (r.enc ++ rest) g hbl rfl (by simp [hidx])
        (by simp only; push_cast at h1; omega) (by simp only; omega)
      simp only [List.length_append, List.length_singleton] at hl hm3 hi3 hb3 hfull3 hcut3
      rw [hl, Option.some_bind]
      simp only
      by_cases h2 : ((st.mem.length + 1 + l.size : Nat) : Int) < len
      · have hsz : (cutLayout len l (st.mem.length + 1)).length = l.size := by
          rw [cutLayout_length]
          push_cast at h2 ⊢
          omega
        have hi3a : st3.index = st.index + 1 + l.size - 1 :=
          hfull3 (by push_cast at h2; omega)
        have hcb := cutBits_full len l (st.mem.length + 1) (by push_cast at h2 ⊢; omega)
        have hm4 : setC0 st3.mem st.mem.length (some (st.mem.length + 1))
            = st.mem ++ { count := 0, symbol := 96, c0 := some (st.mem.length + 1),
                          c1 := none, p := none } :: cutLayout len l (st.mem.length + 1) := by
          rw [hm3, List.append_assoc, List.singleton_append, setC0_mid]
          rfl
        obtain ⟨st5, hr, hm5, hi5, hb5, hfull5, hcut5⟩ := ihr f
          { st3 with mem := setC0 st3.mem st.mem.length (some (st.mem.length + 1)),
                     index := st3.index + 1 }
          rest g hbr (by simp only; rw [hi3, hcb, List.drop_left])
          (by simp only; rw [hm4, hi3a, List.length_append, List.length_cons, hsz]; push_cast; omega)
          (by simp only; rw [hi3a]; push_cast at h2; omega)
          (by simp only; rw [hi3a]; omega)
        simp only [hm4, List.length_append, List.length_cons, hsz] at hr hm5 hi5 hb5 hfull5 hcut5
        have e1 : st.mem.length + (l.size + 1) = st.mem.length + 1 + l.size := by omega
        rw [e1] at hr hm5 hi5 hb5
        rw [hm4, hr, Option.some_bind]
        refine ⟨_, rfl, ?_, ?_, ?_, ?_, ?_⟩
        · simp only [cutLayout, hx, if_true, cutPtr, h1, h2, hm5, List.append_assoc,
            List.cons_append]
          rw [setC1_mid]
        · simp only [cutBits, hx, if_true, Tree.enc, List.cons_append, hi5, hcb,
            List.append_assoc]
          rw [show 1 + l.enc.length + cutBits len r (st.mem.length + 1 + l.size)
            = (l.enc.length + cutBits len r (st.mem.length + 1 + l.size)) + 1 by omega,
            List.drop_succ_cons, ← List.drop_drop, List.drop_left]
        · simp only [cutBits, hx, if_true, hb5, hb3, hcb]
          push_cast
          ring
        · intro h
          simp only [Tree.size, Nat.cast_add, Nat.cast_one] at h
          simp only
          rw [hfull5 (by rw [hi3a]; omega), hi3a]
          simp only [Tree.size]
          push_cast
          ring
        · intro h
          simp only [Tree.size, Nat.cast_add, Nat.cast_one] at h
          simp only
          exact hcut5 (by rw [hi3a]; omega)
      · have hn2 : len ≤ st3.index + 1 := by
          by_cases hc : st.index + 1 + (l.size : Int) ≤ len
          · rw [hfull3 hc]
            push_cast at h2
            omega
          · have := hcut3 (by omega)
            omega
        have hr0 := cutLayout_nil len r (st.mem.length + 1 + l.size) (by omega)
        have hbr0 := cutBits_zero len r (st.mem.length + 1 + l.size) (by omega)
        rw [deseriallization_null eof len f _ hf0 (by simp only; omega), Option.some_bind]
        refine ⟨_, rfl, ?_, ?_, ?_, ?_, ?_⟩
        · simp only [cutLayout, hx, if_true, hr0, cutPtr, h1, h2, if_false, List.append_nil, hm3,
            List.append_assoc, List.singleton_append]
          rw [setC0_mid, setC1_mid]
          rfl
        · simp only [cutBits, hx, if_true, hbr0, Tree.enc, List.cons_append, add_zero, hi3,
            List.append_assoc]
          rw [Nat.add_comm 1, List.drop_succ_cons]
        · simp only [cutBits, hx, if_true, hbr0, add_zero, hb3]
          push_cast
          ring
        · intro h
          simp only [Tree.size, Nat.cast_add, Nat.cast_one] at h
          have := Tree.height_lt_size r
          push_cast at h2
          omega
        · intro _
          simp only
          omega
    · have hn1 : len ≤ st.index + 1 := by push_cast at h1; omega
      have hl0 := cutLayout_nil len l (st.mem.length + 1) (by push_cast at h1 ⊢; omega)
      have hr0 := cutLayout_nil len r (st.mem.length + 1 + l.size) (by push_cast at h1 ⊢; omega)
      have hbl0 := cutBits_zero len l (st.mem.length + 1) (by push_cast at h1 ⊢; omega)
      have hbr0 := cutBits_zero len r (st.mem.length + 1 + l.size) (by push_cast at h1 ⊢; omega)
      have h2 : ¬ ((st.mem.length + 1 + l.size : Nat) : Int) < len := by push_cast at h1 ⊢; omega
      have hsl := Tree.height_lt_size l
      rw [deseriallization_null eof len f _ hf0 (by simpa using hn1), Option.some_bind]
      simp only
      rw [deseriallization_null eof len f _ hf0 (by simp only; omega), Option.some_bind]
      refine ⟨_, rfl, ?_, ?_, ?_, ?_, ?_⟩
      · simp only [cutLayout, hx, if_true, hl0, hr0, cutPtr, h1, h2, if_false, List.append_nil]
        rw [setC0_mid, setC1_mid]
        rfl
      · simp only [cutBits, hx, if_true, hbl0, hbr0, Tree.enc, List.cons_append, add_zero,
          List.drop_succ_cons, List.drop_zero, List.append_assoc]
      · simp only [cutBits, hx, if_true, hbl0, hbr0, add_zero, Nat.cast_one]
      · intro h
        simp only [Tree.size, Nat.cast_add, Nat.cast_one] at h
        omega
      · intro _
        simp only
        omega

/-- The nodes of a cut-off walk are the first nodes of the full layout, with
the links to nodes that were not created set to null. -/
theorem cutLayout_eq (len : Int) (T : Tree) :
    ∀ x : Nat, cutLayout len T x
      = ((layout T x).take (len - x).toNat).map (cutNode len) := by
  induction T with
  | leaf c s =>
    intro x
    by_cases h : (x : Int) < len
    · obtain ⟨k, hk⟩ : ∃ k, (len - x).toNat = k + 1 := ⟨(len - x).toNat - 1, by omega⟩
      simp only [cutLayout, h, if_true, layout, hk, List.take_succ_cons, List.take_nil,
        List.map_cons, List.map_nil]
      rfl
    · have hk : (len - x).toNat = 0 := by omega
      simp [cutLayout, h, hk]
  | node c l r ihl ihr =>
    intro x
    by_cases h : (x : Int) < len
    · obtain ⟨k, hk⟩ : ∃ k, (len - x).toNat = k + 1 := ⟨(len - x).toNat - 1, by omega⟩
      have hk1 : (len - ((x + 1 : Nat) : Int)).toNat = k := by push_cast; omega
      have hk2 : (len - ((x + 1 + l.size : Nat) : Int)).toNat = k - l.size := by
        push_cast; omega
      simp only [cutLayout, h, if_true, layout, hk, List.take_succ_cons, List.map_cons,
        List.take_append_eq_append_take, List.map_append, layout_length, ihl, ihr, hk1, hk2]
      rfl
    · have hk : (len - x).toNat = 0 := by omega
      simp [cutLayout, h, hk]

/-- The walk of `deserialize` on the encoding of a tree, for any `len`: the
nodes below `len` are allocated in preorder and `cutBits` bits are read. -/
theorem deserializeWalk_cut (eof : Int) (len : Int) (T : Tree) (rest : List Bool)
    (hby : T.Bytes) :
    ∃ st1 : DesState,
      deserializeWalk eof len HCTree.fresh (FancyInputStream.ofBits (T.enc ++ rest))
        = some (cutPtr len (some 0), st1) ∧
      st1.mem = cutLayout len T 0 ∧
      st1.inp = { bits := (T.enc ++ rest).drop (cutBits len T 0), good := true } ∧
      st1.bitcounter = cutBits len T 0 := by
  have hm : HCTree.fresh.mem = [] := rfl
  by_cases h : 0 < len
  · obtain ⟨st1, h1, h2, h3, h4, _, _⟩ := deseriallization_cut eof len T (len.toNat + 1)
      { mem := HCTree.fresh.mem, leaves := HCTree.fresh.leaves, index := 0,
        inp := FancyInputStream.ofBits (T.enc ++ rest), bitcounter := 0 }
      rest true hby rfl (by simp [hm]) h (by simp only; omega)
    simp only [hm, List.length_nil, List.nil_append, zero_add] at h1 h2 h3 h4
    refine ⟨st1, ?_, h2, h3, h4⟩
    rw [deserializeWalk, hm, h1]
    simp [cutPtr, h]
  · have hw := deseriallization_null eof len (len.toNat + 1)
      { mem := HCTree.fresh.mem, leaves := HCTree.fresh.leaves, index := 0,
        inp := FancyInputStream.ofBits (T.enc ++ rest), bitcounter := 0 }
      (by omega) (by simp only; omega)
    refine ⟨DesState.mk HCTree.fresh.mem HCTree.fresh.leaves 0
      (FancyInputStream.ofBits (T.enc ++ rest)) 0, ?_, ?_, ?_, ?_⟩
    · rw [deserializeWalk, hw]
      simp [cutPtr, h]
    · simp only [hm]
      rw [cutLayout_nil len T 0 (by simpa using h)]
    · rw [cutBits_zero len T 0 (by simpa using h)]
      rfl
    · rw [cutBits_zero len T 0 (by simpa using h)]
      rfl

/-- C19: for a table with `n >= 1` nonzero entries and a source that starts
with the shape encoding `serialize` writes for the built tree (2n - 1 nodes),
`deserialize(len, source)` returns for every `len`.  Its nodes are the first
`len` nodes of the complete reconstruction in preorder, with every link to a
node from index `len` on left null, and its root is null when `len <= 0`.
The complete tree is reconstructed if and only if `len >= 2n - 1`, and then
it unfolds to the shape of the built tree. -/
theorem C19_len_bounds_nodes (tie : List HCNode → List Nat → Nat) (eof : Int)
    (freqs : List Int) (len : Int) (rest : List Bool)
    (hn : 1 ≤ (syms freqs freqs.length).length) :
    ∃ (out : FancyOutputStream) (T : Tree) (R : Nat) (t1 : HCTree) (inp1 : FancyInputStream),
      serialize (build tie freqs HCTree.fresh) [] = some out ∧
      (build tie freqs HCTree.fresh).root = some R ∧
      Rep (build tie freqs HCTree.fresh).mem T R ∧
      bitsOf out = T.enc ∧
      T.size = 2 * (syms freqs freqs.length).length - 1 ∧
      deserialize eof len HCTree.fresh (FancyInputStream.ofBits (bitsOf out ++ rest))
        = some (t1, inp1) ∧
      t1.mem = ((layout T 0).take len.toNat).map (cutNode len) ∧
      t1.root = (if 0 < len then some 0 else none) ∧
      ((t1.mem = layout T 0 ∧ t1.root = some 0)
        ↔ ((2 * (syms freqs freqs.length).length - 1 : Nat) : Int) ≤ len) ∧
      (((2 * (syms freqs freqs.length).length - 1 : Nat) : Int) ≤ len →
        Rep t1.mem T.shape 0) := by
  have hne : syms freqs freqs.length ≠ [] := by
    intro e
    rw [e] at hn
    simp at hn
  obtain ⟨R, T, hroot, hinv, hsteps⟩ := build_spec tie freqs hne
  have hrep := hinv.rep (R, T) (List.mem_singleton.2 rfl)
  have hser := serialize_eq _ T R [] hroot hrep
  have hby := build_bytes freqs T hsteps
  have hsize := Tree.size_leaves T
  rw [build_leaves_count freqs T hsteps] at hsize
  have hsz : T.size = 2 * (syms freqs freqs.length).length - 1 := by omega
  obtain ⟨st1, hw, hm, hi, hb⟩ := deserializeWalk_cut eof len T rest hby
  have hmem : st1.mem = ((layout T 0).take len.toNat).map (cutNode len) := by
    rw [hm, cutLayout_eq]
    simp
  have hlen1 : st1.mem.length = min T.size len.toNat := by
    rw [hm, cutLayout_length]
    simp
  have hroot1 : cutPtr len (some 0) = (if 0 < len then some 0 else none) := by
    simp [cutPtr]
  refine ⟨_, T, R, { mem := st1.mem, root := cutPtr len (some 0), leaves := st1.leaves },
    skipBits eof (8 - st1.bitcounter % 8).toNat st1.inp, hser, hroot, hrep,
    bitsOf_serialized _ _, hsz, ?_, hmem, hroot1, ?_, ?_⟩
  · rw [bitsOf_serialized]
    simp only [deserialize, hw]
  · simp only
    rw [← hsz]
    constructor
    · rintro ⟨h1, _⟩
      have := congrArg List.length h1
      rw [hlen1, layout_length] at this
      have := Tree.height_lt_size T
      omega
    · intro h
      have hpos : 0 < len := by
        have := Tree.height_lt_size T
        omega
      refine ⟨?_, by simp [cutPtr, hpos]⟩
      rw [hm, cutLayout_full len T 0 (by simpa using h)]
  · intro h
    rw [← hsz] at h
    simp only
    rw [hm, cutLayout_full len T 0 (by simpa using h)]
    have := Rep_layout T [] []
    simpa using this

set_option maxRecDepth 100000 in
/-- C19 at the textbook table with `len = 4`, less than the 11 nodes of the
tree. -/
theorem C19_len_bounds_nodes_witness :
    (1 ≤ (syms exFreqs exFreqs.length).length) ∧
    ∃ (out : FancyOutputStream) (T : Tree) (R : Nat) (t1 : HCTree) (inp1 : FancyInputStream),
      serialize (build (fun _ _ => 0) exFreqs HCTree.fresh) [] = some out ∧
      (build (fun _ _ => 0) exFreqs HCTree.fresh).root = some R ∧
      Rep (build (fun _ _ => 0) exFreqs HCTree.fresh).mem T R ∧
      bitsOf out = T.enc ∧
      T.size = 2 * (syms exFreqs exFreqs.length).length - 1 ∧
      deserialize 0 4 HCTree.fresh (FancyInputStream.ofBits (bitsOf out ++ [true]))
        = some (t1, inp1) ∧
      t1.mem = ((layout T 0).take (4 : Int).toNat).map (cutNode 4) ∧
      t1.root = (if (0 : Int) < 4 then some 0 else none) ∧
      ((t1.mem = layout T 0 ∧ t1.root = some 0)
        ↔ ((2 * (syms exFreqs exFreqs.length).length - 1 : Nat) : Int) ≤ 4) ∧
      (((2 * (syms exFreqs exFreqs.length).length - 1 : Nat) : Int) ≤ 4 →
        Rep t1.mem T.shape 0) :=
  ⟨by decide, C19_len_bounds_nodes (fun _ _ => 0) 0 exFreqs 4 [true] (by decide)⟩

/-- C11, the failing case: with `len = 1` and a source of 16 bits that starts
with the encoding of a one-leaf tree (bit 1, then byte 65), the walk of
`deserialize` reads 9 bits, not 1: `len` is compared with the number of
nodes, not with the number of bits read. -/
theorem C11_walk_reads_nine_bits :
    ∃ (r : Option Nat) (st : DesState),
      deserializeWalk 0 1 HCTree.fresh
        (FancyInputStream.ofBits
          ([true, false, true, false, false, false, false, false, true]
            ++ List.replicate 7 false)) = some (r, st) ∧
      st.bitcounter = 9 ∧ st.inp.bits = List.replicate 7 false := by
  have h := deserialize_enc 0 1 (Tree.leaf 0 65) (List.replicate 7 false)
    (by intro p hp; simp only [Tree.leafList, List.mem_singleton] at hp; subst hp; decide)
    (by simp [Tree.size])
  have he : (Tree.leaf 0 65).enc
      = [true, false, true, false, false, false, false, false, true] := by decide
  rw [he] at h
  exact ⟨_, _, h, rfl, rfl⟩

theorem Reads_refl (a : FancyInputStream) : Reads a a 0 := by
  simp [Reads]

theorem Reads_read_bit (eof : Int) (a : FancyInputStream) : Reads a (a.read_bit eof).2 1 := by
  obtain ⟨bits, g⟩ := a
  cases bits with
  | nil => simp [Reads, FancyInputStream.read_bit]
  | cons b l => simp [Reads, FancyInputStream.read_bit]

theorem Reads_trans (a b c : FancyInputStream) (j k : Nat) (h1 : Reads a b j) (h2 : Reads b c k) :
    Reads a c (j + k) := by
  obtain ⟨h1b, h1g⟩ := h1
  obtain ⟨h2b, h2g⟩ := h2
  refine ⟨by rw [h2b, h1b, List.drop_drop, Nat.add_comm], ?_⟩
  rw [h2g, h1g, h1b, List.length_drop, Bool.and_assoc]
  congr 1
  rw [Bool.eq_iff_iff]
  simp only [Bool.and_eq_true, decide_eq_true_eq]
  omega

theorem Reads_readSymbol (eof : Int) (a : FancyInputStream) (bc : Int) :
    Reads a (readSymbol eof a bc).2.1 8 := by
  simp only [readSymbol, List.foldl_cons, List.foldl_nil, readSymbolBit]
  exact Reads_trans _ _ _ 7 1 (Reads_trans _ _ _ 6 1 (Reads_trans _ _ _ 5 1
    (Reads_trans _ _ _ 4 1 (Reads_trans _ _ _ 3 1 (Reads_trans _ _ _ 2 1
    (Reads_trans _ _ _ 1 1 (Reads_read_bit eof _) (Reads_read_bit eof _))
    (Reads_read_bit eof _)) (Reads_read_bit eof _)) (Reads_read_bit eof _))
    (Reads_read_bit eof _)) (Reads_read_bit eof _)) (Reads_read_bit eof _)

theorem Reads_skipBits (eof : Int) (n : Nat) :
    ∀ a : FancyInputStream, Reads a (skipBits eof n a) n := by
  induction n with
  | zero => intro a; exact Reads_refl a
  | succ n ih =>
    intro a
    have := Reads_trans _ _ _ 1 n (Reads_read_bit eof a) (ih (a.read_bit eof).2)
    rw [Nat.add_comm] at this
    exact this

/-- What a call of `deseriallization` takes from the source: as many bits as
`bitcounter` grows by, through calls of `read_bit()` alone. -/
theorem deseriallization_reads (eof : Int) (len : Int) :
    ∀ (fuel : Nat) (st : DesState) (r : Option Nat) (st1 : DesState),
      deseriallization eof len fuel st = some (r, st1) →
      ∃ k : Nat, Reads st.inp st1.inp k ∧ st1.bitcounter = st.bitcounter + k := by
  intro fuel
  induction fuel with
  | zero => intro st r st1 h; simp [deseriallization] at h
  | succ f ih =>
    intro st r st1 h
    by_cases hg : st.index ≥ len
    · simp only [deseriallization, hg, if_true, Option.some.injEq, Prod.mk.injEq] at h
      rw [← h.2]
      exact ⟨0, Reads_refl _, by simp⟩
    · simp only [deseriallization, hg, if_false] at h
      by_cases hb : (st.inp.read_bit eof).1 = 0
      · simp only [hb, if_true] at h
        cases h1 : deseriallization eof len f
          { mem := st.mem ++ [HCNode.new 0 96], leaves := st.leaves, index := st.index + 1,
            inp := (st.inp.read_bit eof).2, bitcounter := st.bitcounter + 1 } with
        | none => simp [h1] at h
        | some p =>
          obtain ⟨lp, st3⟩ := p
          simp only [h1] at h
          cases h2 : deseriallization eof len f
            { mem := setC0 st3.mem st.mem.length lp, leaves := st3.leaves,
              index := st3.index + 1, inp := st3.inp, bitcounter := st3.bitcounter } with
          | none => simp [h2] at h
          | some q =>
            obtain ⟨rp, st5⟩ := q
            simp only [h2, Option.some.injEq, Prod.mk.injEq] at h
            obtain ⟨k1, hr1, hc1⟩ := ih _ _ _ h1
            obtain ⟨k2, hr2, hc2⟩ := ih _ _ _ h2
            simp only at hr1 hc1 hr2 hc2
            rw [← h.2]
            refine ⟨1 + k1 + k2, ?_, ?_⟩
            · exact Reads_trans _ _ _ _ _
                (Reads_trans _ _ _ _ _ (Reads_read_bit eof st.inp) hr1) hr2
            · simp only [hc2, hc1]
              push_cast
              ring
      · simp only [hb, if_false, Option.some.injEq, Prod.mk.injEq] at h
        rw [← h.2]
        refine ⟨1 + 8, ?_, ?_⟩
        · exact Reads_trans _ _ _ _ _ (Reads_read_bit eof st.inp) (Reads_readSymbol eof _ _)
        · simp only [readSymbol_counter]
          push_cast
          ring

/-- On a tree without parent links `encode` is not defined for a symbol whose
leaf is not the root: the walk of lines 120-130 dereferences a null `p`. -/
theorem encode_no_parent (t : HCTree) (s x : Nat) (out : FancyOutputStream)
    (hleaf : t.leaves[s]? = some (some x)) (hroot : some x ≠ t.root)
    (hp : ∀ n ∈ t.mem, n.p = none) : encode t s out = none := by
  simp only [encode, hleaf, encodeLoop, ne_eq, hroot, not_false_eq_true, if_true, deref]
  cases hn : t.mem[x]? with
  | none => rfl
  | some n =>
    have := hp n (List.getElem?_mem hn)
    simp [this, deref]

/-- C16, as amended: `deserialize` returns for every `len` and every source,
and in the tree it produces the parent link of every node, root or not, is
null; so `encode` is not defined on that tree for any symbol whose leaf is
not the root. -/
theorem C16_parent_links (eof : Int) (len : Int) (inp : FancyInputStream) :
    ∃ (t : HCTree) (inp1 : FancyInputStream),
      deserialize eof len HCTree.fresh inp = some (t, inp1) ∧
      (∀ n ∈ t.mem, n.p = none) ∧
      (∀ (s x : Nat) (out : FancyOutputStream), t.leaves[s]? = some (some x) →
        some x ≠ t.root → encode t s out = none) := by
  obtain ⟨r, st, ext, hrun, hp⟩ := deserializeWalk_post eof len inp
  have hm := hp.mem_eq
  simp only [List.nil_append] at hm
  have hpar : ∀ n ∈ st.mem, n.p = none := by
    intro n hn
    rw [hm] at hn
    exact hp.parents n hn
  refine ⟨{ mem := st.mem, root := r, leaves := st.leaves },
    skipBits eof (8 - st.bitcounter % 8).toNat st.inp, by simp only [deserialize, hrun],
    hpar, ?_⟩
  intro s x out hleaf hroot
  exact encode_no_parent _ s x out hleaf hroot hpar

/-- C16 as stated fails: `deserialize` with `len = 3` on the encoding of the
tree with the leaves `a` and `b` under one inner node makes node 1 the left
child of the root, node 0, and leaves the parent link of node 1 null. -/
theorem C16_counterexample :
    ∃ (t : HCTree) (inp : FancyInputStream) (n0 n1 : HCNode),
      deserialize 0 3 HCTree.fresh
        (FancyInputStream.ofBits
          ([false, true, false, true, true, false, false, false, false, true,
            true, false, true, true, false, false, false, true, false]
            ++ List.replicate 5 false)) = some (t, inp) ∧
      t.root = some 0 ∧ t.mem[0]? = some n0 ∧ n0.c0 = some 1 ∧
      t.mem[1]? = some n1 ∧ n1.p ≠ some 0 := by
  have h := deserialize_enc 0 3 (Tree.node 0 (.leaf 0 97) (.leaf 0 98)) (List.replicate 5 false)
    (by
      intro p hp
      simp only [Tree.leafList, List.cons_append, List.nil_append, List.mem_cons,
        List.mem_singleton, List.not_mem_nil, or_false] at hp
      rcases hp with rfl | rfl <;> decide)
    (by simp [Tree.size])
  have he : (Tree.node 0 (.leaf 0 97) (.leaf 0 98)).enc
      = [false, true, false, true, true, false, false, false, false, true,
          true, false, true, true, false, false, false, true, false] := by decide
  rw [he] at h
  refine ⟨HCTree.mk (layout (Tree.node 0 (.leaf 0 97) (.leaf 0 98)) 0) (some 0)
      (layLeaves (Tree.node 0 (.leaf 0 97) (.leaf 0 98)) 0 HCTree.fresh.leaves),
    skipBits 0 5 (FancyInputStream.ofBits (List.replicate 5 false)),
    HCNode.mk 0 96 (some 1) (some 2) none, HCNode.new 0 97, ?_, ?_, ?_, ?_, ?_, ?_⟩
  · simp only [deserialize, h]
    rfl
  · rfl
  · rfl
  · rfl
  · rfl
  · decide

theorem Tree.decode_exhausted (eof : Int) (T : Tree) :
    (T.decode eof { bits := [], good := false }).2 = { bits := [], good := false } := by
  induction T with
  | leaf c s => rfl
  | node c l r ihl ihr =>
    simp only [Tree.decode, FancyInputStream.read_bit]
    split
    · exact ihl
    · exact ihr

/-- When the bits of the source lead from the top to an inner node and no
further, `decode` still returns a symbol; the source is then empty and its
`good` flag is cleared. -/
theorem Tree.decode_runs_out (eof : Int) (T : Tree) :
    ∀ (bs : List Bool) (g : Bool) (c : Int) (l r : Tree), T.sub bs = some (.node c l r) →
      (T.decode eof { bits := bs, good := g }).2 = { bits := [], good := false } := by
  induction T with
  | leaf c0 s =>
    intro bs g c l r h
    cases bs with
    | nil => simp [Tree.sub] at h
    | cons b bs => simp [Tree.sub] at h
  | node c0 l0 r0 ihl ihr =>
    intro bs g c l r h
    cases bs with
    | nil =>
      simp only [Tree.decode, FancyInputStream.read_bit]
      split
      · exact Tree.decode_exhausted eof l0
      · exact Tree.decode_exhausted eof r0
    | cons b bs =>
      cases b
      · simp only [Tree.sub, Bool.false_eq_true, if_false] at h
        simp only [Tree.decode, read_bit_cons, bitInt, Bool.false_eq_true, if_false, if_true]
        exact ihl bs g c l r h
      · simp only [Tree.sub, if_true] at h
        simp only [Tree.decode, read_bit_cons, bitInt, if_true, one_ne_zero, if_false]
        exact ihr bs g c l r h

/-- On a source that has run out every read yields `eof`, so `decode` goes
to the left all the way when `eof` is 0 and to the right all the way
otherwise. -/
theorem Tree.decode_exhausted_edge (eof : Int) (T : Tree) :
    T.decode eof { bits := [], good := false }
      = (T.edge (decide (eof ≠ 0)), { bits := [], good := false }) := by
  induction T with
  | leaf c s => rfl
  | node c l r ihl ihr =>
    by_cases h : eof = 0
    · simp only [Tree.decode, FancyInputStream.read_bit, h, if_true, Tree.edge, ne_eq,
        not_true_eq_false, decide_False, Bool.false_eq_true, if_false]
      rw [h] at ihl
      simpa using ihl
    · simp only [Tree.decode, FancyInputStream.read_bit, h, if_false, Tree.edge, ne_eq,
        not_false_eq_true, decide_True, if_true]
      simpa [h] using ihr

/-- When the bits of the source lead from the top to an inner node and no
further, `decode` returns the symbol at the left edge (`eof` is 0) or at the
right edge (any other `eof`) of the subtree below that node, and leaves the
source empty with `good` cleared. -/
theorem Tree.decode_runs_out_edge (eof : Int) (T : Tree) :
    ∀ (bs : List Bool) (g : Bool) (c : Int) (l r : Tree), T.sub bs = some (.node c l r) →
      T.decode eof { bits := bs, good := g }
        = ((Tree.node c l r).edge (decide (eof ≠ 0)), { bits := [], good := false }) := by
  induction T with
  | leaf c0 s =>
    intro bs g c l r h
    cases bs with
    | nil => simp [Tree.sub] at h
    | cons b bs => simp [Tree.sub] at h
  | node c0 l0 r0 ihl ihr =>
    intro bs g c l r h
    cases bs with
    | nil =>
      simp only [Tree.sub, Option.some.injEq, Tree.node.injEq] at h
      obtain ⟨_, rfl, rfl⟩ := h
      by_cases he : eof = 0
      · simp only [Tree.decode, FancyInputStream.read_bit, he, if_true, Tree.edge, ne_eq,
          not_true_eq_false, decide_False, Bool.false_eq_true, if_false]
        have := Tree.decode_exhausted_edge 0 l0
        simpa using this
      · simp only [Tree.decode, FancyInputStream.read_bit, he, if_false, Tree.edge, ne_eq,
          not_false_eq_true, decide_True, if_true]
        have := Tree.decode_exhausted_edge eof r0
        simpa [he] using this
    | cons b bs =>
      cases b
      · simp only [Tree.sub, Bool.false_eq_true, if_false] at h
        simp only [Tree.decode, read_bit_cons, bitInt, Bool.false_eq_true, if_false, if_true]
        exact ihl bs g c l r h
      · simp only [Tree.sub, if_true] at h
        simp only [Tree.decode, read_bit_cons, bitInt, if_true, one_ne_zero, if_false]
        exact ihr bs g c l r h

/-- C12, as amended: on a tree whose root unfolds to a finite tree `T`,
`decode` returns for every source, with the result read off `T`; when the
bits of the source end at an inner node of `T`, every further `read_bit()`
yields `eof`, and `decode` returns the symbol of the leftmost leaf below that
node when `eof` is 0 and of the rightmost leaf otherwise, leaving the source
empty with `good` cleared.  `deserialize` returns a tree for every `len` and
every source; when the walk has read more bits than the source held, the
source is left empty with `good` cleared. -/
theorem C12_exhaustion_in_good_flag (eof : Int) (t : HCTree) (T : Tree) (R : Nat)
    (inp src : FancyInputStream) (len : Int) (hroot : t.root = some R)
    (hrep : Rep t.mem T R) :
    decode eof t inp = some (T.decode eof inp) ∧
    (∀ (c : Int) (l r : Tree), T.sub inp.bits = some (.node c l r) →
      decode eof t inp
        = some ((Tree.node c l r).edge (decide (eof ≠ 0)), { bits := [], good := false })) ∧
    (∃ (r : Option Nat) (st : DesState) (t1 : HCTree) (src1 : FancyInputStream),
      deserializeWalk eof len HCTree.fresh src = some (r, st) ∧
      deserialize eof len HCTree.fresh src = some (t1, src1) ∧
      ((src.bits.length : Int) < st.bitcounter → src1.bits = [] ∧ src1.good = false)) := by
  refine ⟨decode_eq eof t T R hroot hrep inp, ?_, ?_⟩
  · intro c l r h
    rw [decode_eq eof t T R hroot hrep inp]
    have := Tree.decode_runs_out_edge eof T inp.bits inp.good c l r h
    obtain ⟨bits, g⟩ := inp
    simp only at this
    rw [this]
  · obtain ⟨r, st, ext, hrun, _⟩ := deserializeWalk_post eof len src
    obtain ⟨k, hk, hc⟩ := deseriallization_reads eof len _ _ _ _ hrun
    simp only [zero_add] at hk hc
    have hs := Reads_trans _ _ _ _ _ hk
      (Reads_skipBits eof (8 - st.bitcounter % 8).toNat st.inp)
    refine ⟨r, st, { mem := st.mem, root := r, leaves := st.leaves },
      skipBits eof (8 - st.bitcounter % 8).toNat st.inp, hrun,
      by simp only [deserialize, hrun], ?_⟩
    intro hlt
    obtain ⟨hb, hg⟩ := hs
    refine ⟨?_, ?_⟩
    · rw [hb]
      apply List.drop_of_length_le
      omega
    · rw [hg]
      have : ¬ (k + (8 - st.bitcounter % 8).toNat ≤ src.bits.length) := by omega
      simp [this]

/-- C12 on the store `smallMem`, with `eof = -1` and an empty source for
`decode` and for `deserialize` with `len = 1`. -/
theorem C12_exhaustion_in_good_flag_witness :
    (smallTree.root = some 0 ∧
      Rep smallTree.mem (.node 5 (.leaf 2 97) (.leaf 3 200)) 0) ∧
    (decode (-1) smallTree (FancyInputStream.ofBits [])
      = some ((Tree.node 5 (.leaf 2 97) (.leaf 3 200)).decode (-1) (FancyInputStream.ofBits [])) ∧
    (∀ (c : Int) (l r : Tree),
      (Tree.node 5 (.leaf 2 97) (.leaf 3 200)).sub (FancyInputStream.ofBits []).bits
        = some (.node c l r) →
      decode (-1) smallTree (FancyInputStream.ofBits [])
        = some ((Tree.node c l r).edge (decide ((-1 : Int) ≠ 0)),
            { bits := [], good := false })) ∧
    (∃ (r : Option Nat) (st : DesState) (t1 : HCTree) (src1 : FancyInputStream),
      deserializeWalk (-1) 1 HCTree.fresh (FancyInputStream.ofBits []) = some (r, st) ∧
      deserialize (-1) 1 HCTree.fresh (FancyInputStream.ofBits []) = some (t1, src1) ∧
      (((FancyInputStream.ofBits []).bits.length : Int) < st.bitcounter →
        src1.bits = [] ∧ src1.good = false))) :=
  ⟨⟨rfl, (by simp [Rep, smallMem] : Rep smallMem _ 0)⟩,
    C12_exhaustion_in_good_flag (-1) smallTree (.node 5 (.leaf 2 97) (.leaf 3 200)) 0
      (FancyInputStream.ofBits []) (FancyInputStream.ofBits []) 1 rfl
      (by simp [Rep, smallMem] : Rep smallMem _ 0)⟩

/-- C12 as stated fails: on an empty source `decode` on the tree `smallTree`,
whose root is an inner node, returns the symbol `a` when `read_bit()` yields 0
at end of data and the symbol 200 when it yields -1, and `deserialize` with
`len = 1` returns a tree with a root; the exhausted source shows only in the
cleared `good` flag. -/
theorem C12_counterexample :
    decode 0 smallTree (FancyInputStream.ofBits [])
      = some (97, { bits := [], good := false }) ∧
    decode (-1) smallTree (FancyInputStream.ofBits [])
      = some (200, { bits := [], good := false }) ∧
    ∃ (t1 : HCTree) (src1 : FancyInputStream),
      deserialize 0 1 HCTree.fresh (FancyInputStream.ofBits []) = some (t1, src1) ∧
      t1.root = some 0 ∧ src1.good = false :=
  ⟨by decide, by decide, _, _, rfl, rfl, rfl⟩

theorem codeLen_codeOf (t : HCTree) (s : Nat) : codeLen t s = (codeOf t s).length := by
  unfold codeLen codeOf
  cases encode t s [] <;> rfl

/-- In a tree no way to a leaf is the beginning of the way to another
symbol. -/
theorem Tree.leaf_not_prefix (T : Tree) (bs bt : List Bool) (c d : Int) (s t : Nat)
    (hs : T.sub bs = some (.leaf c s)) (ht : T.sub bt = some (.leaf d t)) (hst : s ≠ t) :
    ¬ bs <+: bt := by
  rintro ⟨k, hk⟩
  rw [← hk, Tree.sub_append, hs] at ht
  have := (Tree.sub_leaf_nil _ _ k _ ht).2
  simp only [Tree.leaf.injEq] at this
  exact hst this.2.symm

/-- The code `encode` writes on the built tree is a prefix code. -/
theorem build_prefixFree (tie : List HCNode → List Nat → Nat) (freqs : List Int)
    (hlen : freqs.length = 256) :
    PrefixFree freqs (codeOf (build tie freqs HCTree.fresh)) := by
  intro s hs t ht hst
  obtain ⟨hs1, hs2⟩ := (mem_syms freqs freqs.length s).1 hs
  obtain ⟨_, ht2⟩ := (mem_syms freqs freqs.length t).1 ht
  obtain ⟨R, T, _, _, _, _, hcode⟩ := build_code tie freqs hlen (syms_ne_nil freqs s hs1 hs2)
  obtain ⟨bs, hsub, hes⟩ := hcode s hs2
  obtain ⟨bt, htsub, het⟩ := hcode t ht2
  simp only [codeOf, hes, het, List.nil_append, bitsOf_bitCalls]
  exact Tree.leaf_not_prefix T bs bt _ _ s t hsub htsub hst

theorem swapSym_swapSym (a b s : Nat) : swapSym a b (swapSym a b s) = s := by
  unfold swapSym
  by_cases h1 : s = a
  · by_cases h2 : b = a <;> simp [h1, h2]
  · by_cases h2 : s = b <;> simp [h1, h2]

theorem sum_two (l : List Nat) (h : Nat → Int) (a b : Nat) (hnd : l.Nodup) (ha : a ∈ l)
    (hb : b ∈ l) (hab : a ≠ b) (hz : ∀ s, s ≠ a → s ≠ b → h s = 0) :
    (l.map h).sum = h a + h b := by
  have hb1 : b ∈ l.erase a := (List.mem_erase_of_ne hab.symm).2 hb
  rw [← List.sum_map_erase h ha, ← List.sum_map_erase h hb1]
  have hzero : (((l.erase a).erase b).map h).sum = 0 := by
    apply List.sum_eq_zero
    intro x hx
    obtain ⟨s, hs, rfl⟩ := List.mem_map.1 hx
    have h1 := ((hnd.erase a).mem_erase_iff).1 hs
    have h2 := (hnd.mem_erase_iff).1 h1.2
    exact hz s h2.1 h1.1
  rw [hzero]
  ring

/-- What exchanging the code words of two symbols does to the weighted path
length. -/
theorem wpl_swap (freqs : List Int) (L : Nat → Nat) (a b : Nat) (ha : a < freqs.length)
    (hb : b < freqs.length) (hab : a ≠ b) :
    wpl freqs (fun s => L (swapSym a b s))
      = wpl freqs L + (freqs.getD a 0 - freqs.getD b 0) * ((L b : Int) - (L a : Int)) := by
  have e : (fun s => freqs.getD s 0 * ((L (swapSym a b s) : Nat) : Int))
      = (fun s => freqs.getD s 0 * (L s : Int)
          + freqs.getD s 0 * ((L (swapSym a b s) : Int) - (L s : Int))) := by
    funext s
    ring
  simp only [wpl]
  rw [e, List.sum_map_add,
    sum_two (List.range freqs.length)
      (fun s => freqs.getD s 0 * ((L (swapSym a b s) : Int) - (L s : Int))) a b
      (List.nodup_range _) (List.mem_range.2 ha) (List.mem_range.2 hb) hab
      (by
        intro s h1 h2
        simp [swapSym, h1, h2])]
  have e1 : swapSym a b a = b := by simp [swapSym]
  have e2 : swapSym a b b = a := by
    unfold swapSym
    by_cases h : b = a <;> simp [h]
  simp only [e1, e2]
  ring

/-- Without overflow a symbol of greater frequency never gets a longer code
than a symbol of smaller, positive frequency. -/
theorem build_monotone (tie : List HCNode → List Nat → Nat) (freqs : List Int) (a b : Nat)
    (hlen : freqs.length = 256) (hnn : ∀ f ∈ freqs, 0 ≤ f) (hsum : freqs.sum < 2147483648)
    (hb : 0 < freqs.getD b 0) (hab : freqs.getD b 0 < freqs.getD a 0) :
    codeLen (build tie freqs HCTree.fresh) a ≤ codeLen (build tie freqs HCTree.fresh) b := by
  by_contra hcon
  have hlt : codeLen (build tie freqs HCTree.fresh) b < codeLen (build tie freqs HCTree.fresh) a :=
    Nat.lt_of_not_le hcon
  have hane : a ≠ b := by
    intro e
    rw [e] at hab
    exact lt_irrefl _ hab
  have ha1 := getD_ne_zero_lt freqs a (by omega)
  have hb1 := getD_ne_zero_lt freqs b (by omega)
  have hpf := build_prefixFree tie freqs hlen
  have hpf2 : PrefixFree freqs
      (fun s => codeOf (build tie freqs HCTree.fresh) (swapSym a b s)) := by
    intro s hs t ht hst
    have hm : ∀ x ∈ syms freqs freqs.length, swapSym a b x ∈ syms freqs freqs.length := by
      intro x hx
      unfold swapSym
      split
      · exact (mem_syms freqs freqs.length b).2 ⟨hb1, by omega⟩
      · split
        · exact (mem_syms freqs freqs.length a).2 ⟨ha1, by omega⟩
        · exact hx
    exact hpf _ (hm s hs) _ (hm t ht) (fun e => hst (by
      have := congrArg (swapSym a b) e
      rwa [swapSym_swapSym, swapSym_swapSym] at this))
  have hopt := huffman_optimal tie freqs _ hlen hnn hsum hpf2
  have hsw := wpl_swap freqs (codeLen (build tie freqs HCTree.fresh)) a b ha1 hb1 hane
  have e : (fun s => (codeOf (build tie freqs HCTree.fresh) (swapSym a b s)).length)
      = (fun s => codeLen (build tie freqs HCTree.fresh) (swapSym a b s)) := by
    funext s
    rw [codeLen_codeOf]
  rw [e, hsw] at hopt
  have h1 : (0 : Int) < freqs.getD a 0 - freqs.getD b 0 := by omega
  have h2 : ((codeLen (build tie freqs HCTree.fresh) b : Nat) : Int)
      - (codeLen (build tie freqs HCTree.fresh) a : Int) < 0 := by omega
  nlinarith [mul_neg_of_pos_of_neg h1 h2]

set_option maxRecDepth 100000 in
/-- On the table `wrapFreqs` no tie occurs, so every tie-break builds the same
tree. -/
theorem build_wrapFreqs (tie : List HCNode → List Nat → Nat) :
    build tie wrapFreqs HCTree.fresh = build (fun _ _ => 0) wrapFreqs HCTree.fresh := by
  apply build_no_ties tie wrapFreqs
    ([HCNode.mk 268435456 0 none none (some 5),
      HCNode.mk 1006632960 1 none none (some 5),
      HCNode.mk 1073741824 2 none none (some 6),
      HCNode.mk 1140850688 3 none none (some 6),
      HCNode.mk 1207959552 4 none none (some 7),
      HCNode.mk 1275068416 96 (some 0) (some 1) (some 8),
      HCNode.mk (-2080374784) 96 (some 2) (some 3) (some 7),
      HCNode.mk (-872415232) 96 (some 6) (some 4) (some 8),
      HCNode.mk 402653184 96 (some 7) (some 5) none], [8])
  · decide
  · decide

/-- C14, as amended: for a table of 256 non-negative entries whose sum fits
in a signed 32-bit integer and two symbols `a`, `b` with
`freqs[a] > freqs[b] > 0`, the code `encode` writes for `a` on the built tree
is not longer than the one it writes for `b`, whichever way ties are broken;
so a symbol whose frequency is greater than every other gets a code of least
length.  In the table `a:5, b:9, c:12, d:13, e:16, f:45` the code of `f` has
length 1 and every other code is longer. -/
theorem C14_frequent_not_longer (tie : List HCNode → List Nat → Nat) (freqs : List Int)
    (a b : Nat) (hlen : freqs.length = 256) (hnn : ∀ f ∈ freqs, 0 ≤ f)
    (hsum : freqs.sum < 2147483648) (hb : 0 < freqs.getD b 0)
    (hab : freqs.getD b 0 < freqs.getD a 0) :
    codeLen (build tie freqs HCTree.fresh) a ≤ codeLen (build tie freqs HCTree.fresh) b ∧
    ((∀ s : Nat, s ≠ a → freqs.getD s 0 < freqs.getD a 0) →
      ∀ s : Nat, freqs.getD s 0 ≠ 0 →
        codeLen (build tie freqs HCTree.fresh) a ≤ codeLen (build tie freqs HCTree.fresh) s) ∧
    codeLen (build tie exFreqs HCTree.fresh) 102 = 1 ∧
    ∀ s ∈ [97, 98, 99, 100, 101], 1 < codeLen (build tie exFreqs HCTree.fresh) s := by
  refine ⟨build_monotone tie freqs a b hlen hnn hsum hb hab, ?_, ?_⟩
  · intro hmax s hs
    by_cases e : s = a
    · rw [e]
    · have h0 := getD_nonneg freqs hnn s
      exact build_monotone tie freqs a s hlen hnn hsum (by omega) (hmax s e)
  · rw [build_exFreqs tie]
    have h := exFreqs_lengths.1
    simp only [List.map_cons, List.map_nil, List.cons.injEq, and_true] at h
    obtain ⟨h1, h2, h3, h4, h5, h6⟩ := h
    refine ⟨h6, ?_⟩
    intro s hs
    simp only [List.mem_cons, List.mem_singleton, List.not_mem_nil, or_false] at hs
    rcases hs with rfl | rfl | rfl | rfl | rfl <;> omega

set_option maxRecDepth 100000 in
/-- C14 at the textbook table, for `f` (45) and `a` (5). -/
theorem C14_frequent_not_longer_witness :
    (exFreqs.length = 256 ∧ (∀ f ∈ exFreqs, 0 ≤ f) ∧ exFreqs.sum < 2147483648 ∧
      0 < exFreqs.getD 97 0 ∧ exFreqs.getD 97 0 < exFreqs.getD 102 0) ∧
    (codeLen (build (fun _ _ => 0) exFreqs HCTree.fresh) 102
      ≤ codeLen (build (fun _ _ => 0) exFreqs HCTree.fresh) 97 ∧
    ((∀ s : Nat, s ≠ 102 → exFreqs.getD s 0 < exFreqs.getD 102 0) →
      ∀ s : Nat, exFreqs.getD s 0 ≠ 0 →
        codeLen (build (fun _ _ => 0) exFreqs HCTree.fresh) 102
          ≤ codeLen (build (fun _ _ => 0) exFreqs HCTree.fresh) s) ∧
    codeLen (build (fun _ _ => 0) exFreqs HCTree.fresh) 102 = 1 ∧
    ∀ s ∈ [97, 98, 99, 100, 101], 1 < codeLen (build (fun _ _ => 0) exFreqs HCTree.fresh) s) :=
  ⟨⟨by decide, by decide, by decide, by decide, by decide⟩,
    C14_frequent_not_longer (fun _ _ => 0) exFreqs 102 97 (by decide) (by decide) (by decide)
      (by decide) (by decide)⟩

set_option maxRecDepth 100000 in
/-- C14 as stated fails: in the table `wrapFreqs` every entry is non-negative
and fits in an `int`, byte 2 is more frequent than byte 0, and yet, for every
tie-break, byte 2 gets a code of 3 bits and byte 0 a code of 2 bits: the sum
of the weights of bytes 2 and 3 wraps to a negative number in `build`. -/
theorem C14_counterexample :
    wrapFreqs.length = 256 ∧ (∀ f ∈ wrapFreqs, 0 ≤ f ∧ f < 2147483648) ∧
    0 < wrapFreqs.getD 0 0 ∧ wrapFreqs.getD 0 0 < wrapFreqs.getD 2 0 ∧
    ∀ tie : List HCNode → List Nat → Nat,
      codeLen (build tie wrapFreqs HCTree.fresh) 0 = 2 ∧
      codeLen (build tie wrapFreqs HCTree.fresh) 2 = 3 := by
  refine ⟨by decide, by decide, by decide, by decide, ?_⟩
  intro tie
  rw [build_wrapFreqs tie]
  exact ⟨by decide, by decide⟩

/-- With fuel below `height + 2` the recursion of `serialization` does not
come to an end: the innermost call, on a null child of a deepest leaf, is the
`height + 2`-th on the chain. -/
theorem serialization_none (t : HCTree) (R : Nat) (hroot : t.root = some R) (T : Tree) :
    ∀ (x fuel : Nat) (out : FancyOutputStream), Rep t.mem T x → fuel < T.height + 2 →
      serialization t fuel (some x) out = none := by
  have hr : ¬ t.root = none := by simp [hroot]
  induction T with
  | leaf c s =>
    intro x fuel out hrep hf
    obtain ⟨n, hn, _, _, h0, h1⟩ := (Rep_leaf_iff t.mem c s x).1 hrep
    simp only [Tree.height] at hf
    obtain rfl | rfl : fuel = 0 ∨ fuel = 1 := by omega
    · rfl
    · unfold serialization
      by_cases hx : some x = t.root
      · simp [hr, deref, hn, hx, serialization]
      · simp [hr, deref, hn, hx, serialization]
  | node c l r ihl ihr =>
    intro x fuel out hrep hf
    obtain ⟨n, a, b, hn, _, h0, h1, hl, hrr⟩ := (Rep_node_iff t.mem c l r x).1 hrep
    simp only [Tree.height] at hf
    cases fuel with
    | zero => rfl
    | succ f =>
      unfold serialization
      have key : ∀ o : FancyOutputStream,
          (match serialization t f (some a) o with
            | none => none
            | some out3 => serialization t f (some b) out3) = none := by
        intro o
        by_cases hfl : f < l.height + 2
        · rw [ihl a f o hl hfl]
        · cases hs : serialization t f (some a) o with
          | none => rfl
          | some out3 => exact ihr b f out3 hrr (by omega)
      by_cases hx : some x = t.root
      · simp only [hr, if_false, deref, hn, Option.map_some', h0, h1, hx, if_true]
        exact key _
      · simp only [hr, if_false, deref, hn, Option.map_some', h0, h1, hx]
        exact key _

theorem clear_none (t : HCTree) (T : Tree) :
    ∀ (x fuel : Nat) (del : List Nat), Rep t.mem T x → fuel < T.height + 2 →
      clear t fuel (some x) del = none := by
  induction T with
  | leaf c s =>
    intro x fuel del hrep hf
    obtain ⟨n, hn, _, _, h0, h1⟩ := (Rep_leaf_iff t.mem c s x).1 hrep
    simp only [Tree.height] at hf
    obtain rfl | rfl : fuel = 0 ∨ fuel = 1 := by omega
    · rfl
    · simp [clear, hn]
  | node c l r ihl ihr =>
    intro x fuel del hrep hf
    obtain ⟨n, a, b, hn, _, h0, h1, hl, hrr⟩ := (Rep_node_iff t.mem c l r x).1 hrep
    simp only [Tree.height] at hf
    cases fuel with
    | zero => rfl
    | succ f =>
      simp only [clear, hn, h0, h1]
      by_cases hfl : f < l.height + 2
      · rw [ihl a f del hl hfl]
      · cases hs : clear t f (some a) del with
        | none => rfl
        | some del1 =>
          simp only
          rw [ihr b f del1 hrr (by omega)]

theorem clear_some (t : HCTree) (T : Tree) :
    ∀ (x fuel : Nat) (del : List Nat), Rep t.mem T x → T.height + 2 ≤ fuel →
      ∃ del1, clear t fuel (some x) del = some del1 := by
  induction T with
  | leaf c s =>
    intro x fuel del hrep hf
    obtain ⟨n, hn, _, _, h0, h1⟩ := (Rep_leaf_iff t.mem c s x).1 hrep
    obtain ⟨f, rfl⟩ : ∃ f, fuel = f + 2 := ⟨fuel - 2, by omega⟩
    exact ⟨del ++ [x], by simp [clear, hn, h0, h1]⟩
  | node c l r ihl ihr =>
    intro x fuel del hrep hf
    obtain ⟨n, a, b, hn, _, h0, h1, hl, hrr⟩ := (Rep_node_iff t.mem c l r x).1 hrep
    simp only [Tree.height] at hf
    obtain ⟨f, rfl⟩ : ∃ f, fuel = f + 1 := ⟨fuel - 1, by omega⟩
    obtain ⟨d1, hd1⟩ := ihl a f del hl (by omega)
    obtain ⟨d2, hd2⟩ := ihr b f d1 hrr (by omega)
    exact ⟨d2 ++ [x], by simp [clear, hn, h0, h1, hd1, hd2]⟩

theorem Tree.height_lt_leaves (T : Tree) : T.height + 1 ≤ T.leafList.length := by
  induction T with
  | leaf c s => simp [Tree.height, Tree.leafList]
  | node c l r ihl ihr =>
    simp only [Tree.height, Tree.leafList, List.length_append]
    omega

theorem syms_length_le (freqs : List Int) (n : Nat) : (syms freqs n).length ≤ n :=
  nodup_bound _ n (syms_nodup freqs n) (fun a ha => ((mem_syms freqs n a).1 ha).1)

theorem Tree.count_leaf (c : Int) (s : Nat) : (Tree.leaf c s).count = c := rfl

theorem Steps_inv (F G : Multiset Tree) (h : Steps F G) :
    F = G ∨ ∃ F1, Step F F1 ∧ Steps F1 G := by
  cases h with
  | refl => exact Or.inl rfl
  | step _ F1 _ h1 h2 => exact Or.inr ⟨F1, h1, h2⟩

/-- Once the only tree that is not a leaf has a weight below that of the
leaves, all of weight 2^31 - 1, every round merges it with one more leaf: the
built tree is a chain. -/
theorem chain_steps (m : Nat) :
    ∀ (k : Nat) (C : Tree) (L G : Multiset Tree) (T : Tree), Steps (C ::ₘ L) G → G = {T} →
      (∀ t ∈ L, ∃ s, t = Tree.leaf 2147483647 s) → Multiset.card L = m →
      nearWrap k C.count → k + m ≤ 256 → T.height = C.height + m := by
  induction m with
  | zero =>
    intro k C L G T hs hG hL hcard _ _
    have hL0 : L = 0 := Multiset.card_eq_zero.1 hcard
    subst hL0
    have := Steps_singleton C G hs
    rw [hG] at this
    rw [Multiset.singleton_inj.1 this]
    rfl
  | succ m ih =>
    intro k C L G T hs hG hL hcard hk hkm
    rcases Steps_inv _ _ hs with e | ⟨F1, hstep, hrest⟩
    · rw [hG] at e
      have := congrArg Multiset.card e
      simp [hcard] at this
    · obtain ⟨t1, t2, R, hF, hmin1, hmin2, hF1⟩ := hstep
      have hCM : C.count < 2147483647 := by
        rcases hk with h | h <;> omega
      have ht1 : t1 = C := by
        have hm : t1 ∈ C ::ₘ L := by rw [hF]; simp
        rcases Multiset.mem_cons.1 hm with e | e
        · exact e
        · obtain ⟨s, rfl⟩ := hL t1 e
          have := hmin1 C (by simp)
          rw [Tree.count_leaf] at this
          omega
      subst ht1
      have hLR : L = t2 ::ₘ R := (Multiset.cons_inj_right t1).1 hF
      subst hLR
      obtain ⟨s, rfl⟩ := hL t2 (by simp)
      subst hF1
      have hnext : nearWrap (k + 1)
          (Tree.node (wrap32 (t1.count + (Tree.leaf 2147483647 s).count)) t1
            (Tree.leaf 2147483647 s)).count := by
        simp only [Tree.count_node, Tree.count_leaf, wrap32, nearWrap] at hk ⊢
        push_cast
        rcases hk with h | h
        · right; omega
        · left; omega
      have := ih (k + 1) _ R G T hrest hG (fun t ht => hL t (by simp [ht]))
        (by simpa using hcard) hnext (by omega)
      rw [this]
      simp only [Tree.height]
      omega

/-- From leaves that all weigh 2^31 - 1 the second loop of `build` makes a
chain: its height is the number of leaves less one. -/
theorem chain_of_leaves (m : Nat) (F G : Multiset Tree) (T : Tree) (hs : Steps F G)
    (hG : G = {T}) (hF : ∀ t ∈ F, ∃ s, t = Tree.leaf 2147483647 s)
    (hcard : Multiset.card F = m + 2) (hm : m + 2 ≤ 256) : T.height = m + 1 := by
  rcases Steps_inv _ _ hs with e | ⟨F1, hstep, hrest⟩
  · rw [hG] at e
    have := congrArg Multiset.card e
    simp [hcard] at this
  · obtain ⟨t1, t2, R, hF0, _, _, hF1⟩ := hstep
    subst hF0 hF1
    obtain ⟨s1, rfl⟩ := hF t1 (by simp)
    obtain ⟨s2, rfl⟩ := hF t2 (by simp)
    have := chain_steps m 1 _ R G T hrest hG (fun t ht => hF t (by simp [ht]))
      (by simpa using hcard)
      (by
        simp only [Tree.count_node, Tree.count_leaf, wrap32, nearWrap]
        left
        omega)
      (by omega)
    rw [this]
    simp [Tree.height]
    omega

theorem maxFreqs_getD (s : Nat) (h : maxFreqs.getD s 0 ≠ 0) : maxFreqs.getD s 0 = 2147483647 := by
  unfold maxFreqs at h ⊢
  rw [List.getD_eq_getElem?_getD, List.getElem?_replicate] at h ⊢
  split at h
  · rename_i hlt
    simp [hlt]
  · simp at h

set_option maxRecDepth 100000 in
theorem maxFreqs_syms : (syms maxFreqs maxFreqs.length).length = 256 := by decide

/-- The tree built from `maxFreqs` has height 255, for every tie-break. -/
theorem build_maxFreqs (tie : List HCNode → List Nat → Nat) :
    ∃ (R : Nat) (T : Tree), (build tie maxFreqs HCTree.fresh).root = some R ∧
      Rep (build tie maxFreqs HCTree.fresh).mem T R ∧ T.height = 255 := by
  have hne : syms maxFreqs maxFreqs.length ≠ [] := by
    intro e
    have := maxFreqs_syms
    rw [e] at this
    simp at this
  obtain ⟨R, T, hroot, hinv, hsteps⟩ := build_spec tie maxFreqs hne
  refine ⟨R, T, hroot, hinv.rep (R, T) (List.mem_singleton.2 rfl), ?_⟩
  refine chain_of_leaves 254 _ _ T hsteps rfl ?_ (by simp [maxFreqs_syms]) (by omega)
  intro t ht
  simp only [Multiset.mem_coe, List.mem_map] at ht
  obtain ⟨s, hs, rfl⟩ := ht
  have := (mem_syms maxFreqs maxFreqs.length s).1 hs
  exact ⟨s % 256, by simp only [leafTree, maxFreqs_getD s this.2]⟩

/-- C17, as amended: for a table of 256 entries with `n >= 1` nonzero entries
the built tree has height at most `n - 1`, at most 255; every code `encode`
writes has at most `n - 1` bits; and the recursions of `serialization` and of
`clear`, started at the root, come to an end exactly when calls may nest
`height + 2` deep, which is at most `n + 1`: the innermost call is the one on
a null child of a deepest leaf. -/
theorem C17_depth (tie : List HCNode → List Nat → Nat) (freqs : List Int)
    (hlen : freqs.length = 256) (hn : 1 ≤ (syms freqs freqs.length).length) :
    ∃ (R : Nat) (T : Tree), (build tie freqs HCTree.fresh).root = some R ∧
      Rep (build tie freqs HCTree.fresh).mem T R ∧
      T.height ≤ (syms freqs freqs.length).length - 1 ∧
      (syms freqs freqs.length).length - 1 ≤ 255 ∧
      (∀ s : Nat, freqs.getD s 0 ≠ 0 →
        codeLen (build tie freqs HCTree.fresh) s ≤ (syms freqs freqs.length).length - 1) ∧
      (∀ (fuel : Nat) (out : FancyOutputStream),
        (serialization (build tie freqs HCTree.fresh) fuel (some R) out).isSome
          ↔ T.height + 2 ≤ fuel) ∧
      (∀ (fuel : Nat) (del : List Nat),
        (clear (build tie freqs HCTree.fresh) fuel (some R) del).isSome
          ↔ T.height + 2 ≤ fuel) ∧
      T.height + 2 ≤ (syms freqs freqs.length).length + 1 := by
  have hne : syms freqs freqs.length ≠ [] := by
    intro e
    rw [e] at hn
    simp at hn
  obtain ⟨R, T, hroot, hrep, hsteps, _, hcode⟩ := build_code tie freqs hlen hne
  have hh := Tree.height_lt_leaves T
  rw [build_leaves_count freqs T hsteps] at hh
  have h256 := syms_length_le freqs freqs.length
  refine ⟨R, T, hroot, hrep, by omega, by omega, ?_, ?_, ?_, by omega⟩
  · intro s hs
    obtain ⟨bs, hsub, hes⟩ := hcode s hs
    have := Tree.sub_length_le bs T _ hsub
    simp only [codeLen, hes, List.nil_append, bitsOf_bitCalls]
    omega
  · intro fuel out
    constructor
    · intro h
      by_contra hc
      rw [serialization_none _ R hroot T R fuel out hrep (by omega)] at h
      simp at h
    · intro h
      rw [serialization_root _ R hroot T hrep fuel h out]
      rfl
  · intro fuel del
    constructor
    · intro h
      by_contra hc
      rw [clear_none _ T R fuel del hrep (by omega)] at h
      simp at h
    · intro h
      obtain ⟨d, hd⟩ := clear_some _ T R fuel del hrep h
      rw [hd]
      rfl

set_option maxRecDepth 100000 in
/-- C17 at the textbook table. -/
theorem C17_depth_witness :
    (exFreqs.length = 256 ∧ 1 ≤ (syms exFreqs exFreqs.length).length) ∧
    ∃ (R : Nat) (T : Tree), (build (fun _ _ => 0) exFreqs HCTree.fresh).root = some R ∧
      Rep (build (fun _ _ => 0) exFreqs HCTree.fresh).mem T R ∧
      T.height ≤ (syms exFreqs exFreqs.length).length - 1 ∧
      (syms exFreqs exFreqs.length).length - 1 ≤ 255 ∧
      (∀ s : Nat, exFreqs.getD s 0 ≠ 0 →
        codeLen (build (fun _ _ => 0) exFreqs HCTree.fresh) s
          ≤ (syms exFreqs exFreqs.length).length - 1) ∧
      (∀ (fuel : Nat) (out : FancyOutputStream),
        (serialization (build (fun _ _ => 0) exFreqs HCTree.fresh) fuel (some R) out).isSome
          ↔ T.height + 2 ≤ fuel) ∧
      (∀ (fuel : Nat) (del : List Nat),
        (clear (build (fun _ _ => 0) exFreqs HCTree.fresh) fuel (some R) del).isSome
          ↔ T.height + 2 ≤ fuel) ∧
      T.height + 2 ≤ (syms exFreqs exFreqs.length).length + 1 :=
  ⟨⟨by decide, by decide⟩, C17_depth (fun _ _ => 0) exFreqs (by decide) (by decide)⟩

/-- C17 as stated fails: with 256 entries of 2^31 - 1 the weights wrap around
in `build` and the tree is a chain of height 255, for every tie-break; started
at the root, the recursions of `serialization` and of `clear` need calls
nested 257 deep and do not come to an end when calls may nest only 256
deep. -/
theorem C17_counterexample :
    maxFreqs.length = 256 ∧ (∀ f ∈ maxFreqs, 0 ≤ f ∧ f < 2147483648) ∧
    ∀ tie : List HCNode → List Nat → Nat,
      ∃ R : Nat, (build tie maxFreqs HCTree.fresh).root = some R ∧
        serialization (build tie maxFreqs HCTree.fresh) 256 (some R) [] = none ∧
        clear (build tie maxFreqs HCTree.fresh) 256 (some R) [] = none ∧
        (serialization (build tie maxFreqs HCTree.fresh) 257 (some R) []).isSome ∧
        (clear (build tie maxFreqs HCTree.fresh) 257 (some R) []).isSome := by
  refine ⟨by rw [maxFreqs, List.length_replicate], ?_, ?_⟩
  · intro f hf
    simp only [maxFreqs, List.mem_replicate] at hf
    omega
  · intro tie
    obtain ⟨R, T, hroot, hrep, hh⟩ := build_maxFreqs tie
    refine ⟨R, hroot, serialization_none _ R hroot T R 256 [] hrep (by omega),
      clear_none _ T R 256 [] hrep (by omega), ?_, ?_⟩
    · rw [serialization_root _ R hroot T hrep 257 (by omega) []]
      rfl
    · obtain ⟨d, hd⟩ := clear_some _ T R 257 [] hrep (by omega)
      rw [hd]
      rfl

set_option maxRecDepth 100000 in
theorem abcd_count : compress.count [97, 98, 99, 100] (List.replicate 256 0) = abcdFreqs := by
  decide

set_option maxRecDepth 100000 in
theorem abcd_build :
    (build (fun _ _ => 0) abcdFreqs HCTree.fresh).root = some 6 ∧
    Rep (build (fun _ _ => 0) abcdFreqs HCTree.fresh).mem abcdTree 6 := by
  have hm : (build (fun _ _ => 0) abcdFreqs HCTree.fresh).mem
      = [HCNode.mk 1 97 none none (some 4), HCNode.mk 1 98 none none (some 4),
         HCNode.mk 1 99 none none (some 5), HCNode.mk 1 100 none none (some 5),
         HCNode.mk 2 96 (some 0) (some 1) (some 6), HCNode.mk 2 96 (some 2) (some 3) (some 6),
         HCNode.mk 4 96 (some 4) (some 5) none] := by decide
  refine ⟨by decide, ?_⟩
  rw [hm]
  simp [Rep, abcdTree]

set_option maxRecDepth 100000 in
theorem abcd_payload (out : FancyOutputStream) :
    compress.payload (build (fun _ _ => 0) abcdFreqs HCTree.fresh) [97, 98, 99, 100] out
      = some (out ++ bitCalls [false, false, false, true, true, false, true, true]) := by
  obtain ⟨bits, hp, _⟩ := payload_round (fun _ _ => 0) 0 abcdFreqs (by decide) []
    [97, 98, 99, 100] (by decide)
  have h0 : compress.payload (build (fun _ _ => 0) abcdFreqs HCTree.fresh) [97, 98, 99, 100] []
      = some (bitCalls [false, false, false, true, true, false, true, true]) := by decide
  have h1 := hp []
  rw [h0, List.nil_append, Option.some.injEq] at h1
  have h2 := congrArg bitsOf h1
  rw [bitsOf_bitCalls, bitsOf_bitCalls] at h2
  rw [hp out, ← h2]

set_option maxRecDepth 100000 in
/-- What `compress` writes for the file `abcd`. -/
theorem abcd_compress :
    compress.main (fun _ _ => 0) [97, 98, 99, 100]
      = some ([] ++ [OutCall.writeInt abcdTree.count] ++ bitCalls abcdTree.enc ++ [OutCall.flush]
          ++ bitCalls [false, false, false, true, true, false, true, true]
          ++ [OutCall.flush]) := by
  have hser := serialize_eq _ abcdTree 6 [] abcd_build.1 abcd_build.2
  simp only [compress.main, abcd_count, hser, abcd_payload]

set_option maxRecDepth 100000 in
theorem abcd_file :
    fileOf ([] ++ [OutCall.writeInt abcdTree.count] ++ bitCalls abcdTree.enc ++ [OutCall.flush]
          ++ bitCalls [false, false, false, true, true, false, true, true]
          ++ [OutCall.flush]) = [4, 0, 0, 0, 44, 54, 37, 142, 200, 27] := by
  decide

theorem abcd_readInt : readInt [4, 0, 0, 0, 44, 54, 37, 142, 200, 27]
    = (4, FancyInputStream.ofBits (abcdTree.enc
        ++ [false, false, false, false, true, true, false, true, true])) := by decide

theorem abcd_len :
    wrap32 (wrap32 (([4, 0, 0, 0, 44, 54, 37, 142, 200, 27] : List Nat).length : Int) - 4)
      = 6 := by decide

theorem abcd_cutLayout : cutLayout 6 abcdTree 0
    = [HCNode.mk 0 96 (some 1) (some 4) none, HCNode.mk 0 96 (some 2) (some 3) none,
       HCNode.new 0 97, HCNode.new 0 98, HCNode.mk 0 96 (some 5) none none,
       HCNode.new 0 99] := by decide

theorem abcd_cutBits : cutBits 6 abcdTree 0 = 30 := by decide

theorem abcd_rest :
    (abcdTree.enc ++ [false, false, false, false, true, true, false, true, true]).drop 30
      = [true, false] ++ [true, true, false, false, true, false, false,
          false, false, false, false, true, true, false, true, true] := by decide

/-- Four calls of `decode` on the tree `deserialize` leaves behind for the
file of `abcd`, whatever its `leaves` table holds: the node that lost its
right child is taken for a leaf. -/
theorem abcd_decode (eof : Int) (leaves : List (Option Nat)) :
    decompress.payload eof
      (HCTree.mk
        [HCNode.mk 0 96 (some 1) (some 4) none, HCNode.mk 0 96 (some 2) (some 3) none,
         HCNode.new 0 97, HCNode.new 0 98, HCNode.mk 0 96 (some 5) none none,
         HCNode.new 0 99] (some 0) leaves)
      4
      { bits := [true, true, false, false, true, false, false,
          false, false, false, false, true, true, false, true, true], good := true } []
      = some ([96, 96, 97, 96],
          { bits := [false, false, false, false, false, false, true, true, false, true, true],
            good := true }) := by
  simp [decompress.payload, decode, decodeLoop, deref, read_bit_cons, bitInt, HCNode.new]

/-- What `decompress` makes of the file `compress` writes for `abcd`: the walk
of `deserialize` runs with `len = 10 - 4 = 6` on a tree of 7 nodes, the leaf
of `d` is not created, and the payload is decoded from the wrong place. -/
theorem abcd_decompress (eof : Int) :
    decompress.main eof [4, 0, 0, 0, 44, 54, 37, 142, 200, 27] = some [96, 96, 97, 96] := by
  have hby : abcdTree.Bytes := by
    intro p hp
    simp only [abcdTree, Tree.leafList, List.cons_append, List.nil_append, List.mem_cons,
      List.mem_singleton, List.not_mem_nil, or_false] at hp
    rcases hp with rfl | rfl | rfl | rfl <;> decide
  obtain ⟨st1, hw, hm, hi, hb⟩ := deserializeWalk_cut eof 6 abcdTree
    [false, false, false, false, true, true, false, true, true] hby
  rw [abcd_cutLayout] at hm
  rw [abcd_cutBits] at hi hb
  rw [abcd_rest] at hi
  have hpad : (8 - st1.bitcounter % 8).toNat = [true, false].length := by
    rw [hb]
    decide
  have hskip := skipBits_append eof [true, false] [true, true, false, false, true, false, false,
          false, false, false, false, true, true, false, true, true] true
  have hroot : cutPtr 6 (some 0) = some 0 := by decide
  have hd : deserialize eof 6 HCTree.fresh (FancyInputStream.ofBits (abcdTree.enc
        ++ [false, false, false, false, true, true, false, true, true]))
      = some (HCTree.mk st1.mem (some 0) st1.leaves,
          FancyInputStream.mk [true, true, false, false, true, false, false,
            false, false, false, false, true, true, false, true, true] true) := by
    simp only [deserialize, hw, hpad, hi, hskip, hroot]
  have h4 : (4 : Int).toNat = 4 := rfl
  unfold decompress.main
  simp only [abcd_len, abcd_readInt]
  simp only [hd, if_true, h4, hm, abcd_decode]

/-- C15, the failing input: for the file `abcd` the `compress` driver (ties
going to the first entry) writes a file of 10 bytes; the `decompress` driver
run on that file passes `len = 10 - 4 = 6` to `deserialize` although the tree
has 7 nodes, and writes the bytes 96, 96, 97, 96 instead of 97, 98, 99, 100,
whatever `read_bit()` yields at end of data. -/
theorem C15_abcd_not_restored (eof : Int) :
    ∃ out : FancyOutputStream,
      compress.main (fun _ _ => 0) [97, 98, 99, 100] = some out ∧
      fileOf out = [4, 0, 0, 0, 44, 54, 37, 142, 200, 27] ∧
      decompress.main eof (fileOf out) = some [96, 96, 97, 96] ∧
      decompress.main eof (fileOf out) ≠ some [97, 98, 99, 100] := by
  refine ⟨_, abcd_compress, abcd_file, ?_, ?_⟩
  · rw [abcd_file]
    exact abcd_decompress eof
  · rw [abcd_file, abcd_decompress eof]
    decide

/-- A node below the root of a tree with its parent links in place: its
parent link is not null and names the node one step up, of which it is the
child the last bit selects, and the two children of that node are different
nodes. -/
theorem walk_parent (t : HCTree) (T : Tree) (R : Nat)
    (hrep : Rep t.mem T R) (hlink : Linked t.mem T R) (bs : List Bool) (b : Bool) (x : Nat)
    (hp : ptrAt t.mem R (bs ++ [b]) = some x) :
    x ≠ R ∧ ∃ (y : Nat) (n pn : HCNode), ptrAt t.mem R bs = some y ∧
      t.mem[x]? = some n ∧ n.p = some y ∧ t.mem[y]? = some pn ∧
      pn.child b = some x ∧ pn.c0 ≠ pn.c1 := by
  have hxR : x ≠ R := by
    intro e
    rw [e] at hp
    have := Rep_acyclic t.mem T R _ hrep hp
    simp at this
  refine ⟨hxR, ?_⟩
  rw [ptrAt_append] at hp
  cases hy : ptrAt t.mem R bs with
  | none => simp [hy] at hp
  | some y =>
    simp only [hy, Option.some_bind] at hp
    obtain ⟨T1, hs1, hrep1⟩ := Rep_ptrAt t.mem bs T R y hrep hy
    have hlink1 := Linked_sub t.mem bs T T1 R y hlink hy hs1
    cases T1 with
    | leaf c s =>
      obtain ⟨n, hn, _, _, e3, e4⟩ := (Rep_leaf_iff t.mem c s y).1 hrep1
      simp only [ptrAt, hn, HCNode.child] at hp
      cases b <;> simp [e3, e4] at hp
    | node c l r =>
      obtain ⟨pn, a, b1, hpn, e2, e3, hab, pa, pb, _, _⟩ := Linked_node t.mem c l r y hlink1
      simp only [ptrAt, hpn] at hp
      have hch : pn.child b = some x := by
        cases hc : pn.child b with
        | none => simp [hc] at hp
        | some z =>
          simp only [hc, Option.some.injEq] at hp
          rw [hp]
      have hx : parentOf t.mem x = some y := by
        cases b
        · simp only [HCNode.child, Bool.false_eq_true, if_false, e2, Option.some.injEq] at hch
          rw [← hch]
          exact pa
        · simp only [HCNode.child, if_true, e3, Option.some.injEq] at hch
          rw [← hch]
          exact pb
      obtain ⟨n, hn, hnp⟩ := parentOf_some t.mem x y hx
      refine ⟨y, n, pn, rfl, hn, hnp, hpn, hch, ?_⟩
      rw [e2, e3]
      intro e
      exact hab (Option.some.inj e)

/-- One round of the loop of `encode` at a node below the root: one bit is
recorded and the walk goes on at the parent. -/
theorem encodeLoop_step (t : HCTree) (T : Tree) (R : Nat) (hroot : t.root = some R)
    (hrep : Rep t.mem T R) (hlink : Linked t.mem T R) (bs : List Bool) (b : Bool) (x y : Nat)
    (hp : ptrAt t.mem R (bs ++ [b]) = some x) (hy : ptrAt t.mem R bs = some y) (fuel : Nat)
    (tbuf : List Int) :
    encodeLoop t (fuel + 1) (some x) tbuf = encodeLoop t fuel (some y) (tbuf ++ [bitInt b]) := by
  obtain ⟨hxR, y1, n, pn, hy1, hn, hnp, hpn, hch, hne⟩ := walk_parent t T R hrep hlink bs b x hp
  rw [hy] at hy1
  obtain rfl := Option.some.inj hy1
  have hroot1 : ¬ (some x = t.root) := by rw [hroot]; simpa using hxR
  cases b
  · simp only [HCNode.child, Bool.false_eq_true, if_false] at hch
    simp [encodeLoop, hroot1, deref, hn, hnp, hpn, hch, bitInt]
  · simp only [HCNode.child, if_true] at hch
    have h0 : ¬ (some x = pn.c0) := by
      intro e
      exact hne (by rw [← e, hch])
    simp [encodeLoop, hroot1, deref, hn, hnp, hpn, hch, h0, bitInt]

/-- With fuel for no more rounds than the node is deep, the loop of `encode`
has not reached the root when the fuel is used up. -/
theorem encodeLoop_short (t : HCTree) (T : Tree) (R : Nat) (hroot : t.root = some R)
    (hrep : Rep t.mem T R) (hlink : Linked t.mem T R) (bs : List Bool) :
    ∀ (x fuel : Nat) (tbuf : List Int), ptrAt t.mem R bs = some x → fuel ≤ bs.length →
      encodeLoop t fuel (some x) tbuf = none := by
  induction bs using List.reverseRecOn with
  | nil =>
    intro x fuel tbuf _ hf
    simp only [List.length_nil, Nat.le_zero] at hf
    subst hf
    rfl
  | append_singleton bs b ih =>
    intro x fuel tbuf hp hf
    simp only [List.length_append, List.length_singleton] at hf
    cases fuel with
    | zero => rfl
    | succ f =>
      obtain ⟨_, y, _, _, hy, _⟩ := walk_parent t T R hrep hlink bs b x hp
      rw [encodeLoop_step t T R hroot hrep hlink bs b x y hp hy]
      exact ih y f _ hy (by omega)

/-- C21: on the tree `build` makes for a table of 256 entries, the leaf `x` of
a symbol `s` of nonzero frequency lies at the end of a way `bs` from the
root.  The loop of `encode` started at `x` comes to an end with fuel for
`bs.length + 1` tests of its condition and not with less, so it makes exactly
`bs.length` rounds; it returns (no null parent link is followed) with one
recorded bit per round, the bits of `bs` backwards, having arrived at the
root.  Every node `y` below the root has a parent link to the node `q` one
step up and is exactly one of the two children of `q`. -/
theorem C21_encode_walk (tie : List HCNode → List Nat → Nat) (freqs : List Int) (s : Nat)
    (hlen : freqs.length = 256) (hf : freqs.getD s 0 ≠ 0) :
    ∃ (R x : Nat) (T : Tree) (bs : List Bool),
      (build tie freqs HCTree.fresh).root = some R ∧
      (build tie freqs HCTree.fresh).leaves[s]? = some (some x) ∧
      Rep (build tie freqs HCTree.fresh).mem T R ∧
      ptrAt (build tie freqs HCTree.fresh).mem R bs = some x ∧
      T.sub bs = some (.leaf (freqs.getD s 0) s) ∧
      (∀ (fuel : Nat) (tbuf : List Int), bs.length < fuel →
        encodeLoop (build tie freqs HCTree.fresh) fuel (some x) tbuf
          = some (tbuf ++ bs.reverse.map bitInt)) ∧
      (∀ (fuel : Nat) (tbuf : List Int), fuel ≤ bs.length →
        encodeLoop (build tie freqs HCTree.fresh) fuel (some x) tbuf = none) ∧
      (bs.reverse.map bitInt).length = bs.length ∧
      bs.length < (build tie freqs HCTree.fresh).mem.length + 1 ∧
      (∀ (cs : List Bool) (b : Bool) (y : Nat),
        ptrAt (build tie freqs HCTree.fresh).mem R (cs ++ [b]) = some y →
        y ≠ R ∧ ∃ (q : Nat) (n pn : HCNode),
          ptrAt (build tie freqs HCTree.fresh).mem R cs = some q ∧
          (build tie freqs HCTree.fresh).mem[y]? = some n ∧ n.p = some q ∧
          (build tie freqs HCTree.fresh).mem[q]? = some pn ∧
          ((some y = pn.c0 ∧ some y ≠ pn.c1) ∨ (some y ≠ pn.c0 ∧ some y = pn.c1))) := by
  have hs := getD_ne_zero_lt freqs s hf
  obtain ⟨R, x, T, bs, hroot, hinv, _, hx, hp, hsub⟩ :=
    build_path tie freqs s hs (by omega) hf
  have hrep := hinv.rep (R, T) (List.mem_singleton.2 rfl)
  have hlink := hinv.linked (R, T) (List.mem_singleton.2 rfl)
  refine ⟨R, x, T, bs, hroot, hx, hrep, hp, hsub, ?_, ?_, by simp, ?_, ?_⟩
  · intro fuel tbuf h
    exact encodeLoop_walk _ T R hroot hrep hlink bs x fuel tbuf hp h
  · intro fuel tbuf h
    exact encodeLoop_short _ T R hroot hrep hlink bs x fuel tbuf hp h
  · have h1 := Tree.sub_length_le bs T _ hsub
    have h2 := Rep_height _ T R hrep
    omega
  · intro cs b y hy
    obtain ⟨hyR, q, n, pn, hq, hn, hnp, hpn, hch, hne⟩ := walk_parent _ T R hrep hlink cs b y hy
    refine ⟨hyR, q, n, pn, hq, hn, hnp, hpn, ?_⟩
    cases b
    · simp only [HCNode.child, Bool.false_eq_true, if_false] at hch
      left
      exact ⟨hch.symm, fun e => hne (by rw [hch, e])⟩
    · simp only [HCNode.child, if_true] at hch
      right
      exact ⟨fun e => hne (by rw [hch, ← e]), hch.symm⟩

set_option maxRecDepth 100000 in
/-- C21 at the textbook table, symbol `a`. -/
theorem C21_encode_walk_witness :
    (exFreqs.length = 256 ∧ exFreqs.getD 97 0 ≠ 0) ∧
    ∃ (R x : Nat) (T : Tree) (bs : List Bool),
      (build (fun _ _ => 0) exFreqs HCTree.fresh).root = some R ∧
      (build (fun _ _ => 0) exFreqs HCTree.fresh).leaves[97]? = some (some x) ∧
      Rep (build (fun _ _ => 0) exFreqs HCTree.fresh).mem T R ∧
      ptrAt (build (fun _ _ => 0) exFreqs HCTree.fresh).mem R bs = some x ∧
      T.sub bs = some (.leaf (exFreqs.getD 97 0) 97) ∧
      (∀ (fuel : Nat) (tbuf : List Int), bs.length < fuel →
        encodeLoop (build (fun _ _ => 0) exFreqs HCTree.fresh) fuel (some x) tbuf
          = some (tbuf ++ bs.reverse.map bitInt)) ∧
      (∀ (fuel : Nat) (tbuf : List Int), fuel ≤ bs.length →
        encodeLoop (build (fun _ _ => 0) exFreqs HCTree.fresh) fuel (some x) tbuf = none) ∧
      (bs.reverse.map bitInt).length = bs.length ∧
      bs.length < (build (fun _ _ => 0) exFreqs HCTree.fresh).mem.length + 1 ∧
      (∀ (cs : List Bool) (b : Bool) (y : Nat),
        ptrAt (build (fun _ _ => 0) exFreqs HCTree.fresh).mem R (cs ++ [b]) = some y →
        y ≠ R ∧ ∃ (q : Nat) (n pn : HCNode),
          ptrAt (build (fun _ _ => 0) exFreqs HCTree.fresh).mem R cs = some q ∧
          (build (fun _ _ => 0) exFreqs HCTree.fresh).mem[y]? = some n ∧ n.p = some q ∧
          (build (fun _ _ => 0) exFreqs HCTree.fresh).mem[q]? = some pn ∧
          ((some y = pn.c0 ∧ some y ≠ pn.c1) ∨ (some y ≠ pn.c0 ∧ some y = pn.c1))) :=
  ⟨⟨by decide, by decide⟩, C21_encode_walk (fun _ _ => 0) exFreqs 97 (by decide) (by decide)⟩

/-- One call of `deseriallization` below `len` that reads a 0: the nested
call for the left child runs with the index raised by one, the nested call for
the right child with the index the first one has left, raised by one. -/
theorem deseriallization_zero (eof : Int) (len : Int) (f : Nat) (st : DesState)
    (hlt : st.index < len) (hbit : (st.inp.read_bit eof).1 = 0) :
    deseriallization eof len (f + 1) st =
      (deseriallization eof len f
        { st with mem := st.mem ++ [HCNode.new 0 96], index := st.index + 1,
                  inp := (st.inp.read_bit eof).2,
                  bitcounter := st.bitcounter + 1 }).bind (fun p =>
        (deseriallization eof len f
          { p.2 with mem := setC0 p.2.mem st.mem.length p.1, index := p.2.index + 1 }).bind
          (fun q => some (some st.mem.length,
            { q.2 with mem := setC1 q.2.mem st.mem.length q.1 }))) := by
  have hguard : ¬ st.index ≥ len := by omega
  simp only [deseriallization, hguard, if_false, hbit, if_true]
  cases h1 : deseriallization eof len f
      { mem := st.mem ++ [HCNode.new 0 96], leaves := st.leaves, index := st.index + 1,
        inp := (st.inp.read_bit eof).2, bitcounter := st.bitcounter + 1 } with
  | none => simp
  | some p =>
    obtain ⟨lp, st3⟩ := p
    simp only [Option.some_bind]
    cases h2 : deseriallization eof len f
      { mem := setC0 st3.mem st.mem.length lp, leaves := st3.leaves, index := st3.index + 1,
        inp := st3.inp, bitcounter := st3.bitcounter } with
    | none => simp
    | some q => simp

/-- C22: `deserialize` returns for every `len` and every source.  A call of
`deseriallization` returns whenever calls may nest `len - index + 1` deep,
and it leaves the index no smaller than it found it; the two nested calls of
a call that reads a 0 run with a greater index than their caller.  The tree
has at most `max(len, 0)` nodes; the walk reads at most `9 * max(len, 0)`
bits and the padding loop at most 8 more, all through `read_bit()`. -/
theorem C22_deserialize_terminates (eof : Int) (len : Int) (inp : FancyInputStream) :
    (∃ (r : Option Nat) (st : DesState) (t : HCTree) (inp1 : FancyInputStream),
      deserializeWalk eof len HCTree.fresh inp = some (r, st) ∧
      deserialize eof len HCTree.fresh inp = some (t, inp1) ∧
      (t.mem.length : Int) ≤ max len 0 ∧
      0 ≤ st.bitcounter ∧ st.bitcounter ≤ 9 * max len 0 ∧
      Reads inp inp1 (st.bitcounter.toNat + (8 - st.bitcounter % 8).toNat) ∧
      ((st.bitcounter.toNat + (8 - st.bitcounter % 8).toNat : Nat) : Int) ≤ 9 * max len 0 + 8) ∧
    (∀ (fuel : Nat) (st0 : DesState), (len - st0.index).toNat < fuel →
      ∃ (r1 : Option Nat) (st1 : DesState),
        deseriallization eof len fuel st0 = some (r1, st1) ∧ st0.index ≤ st1.index) ∧
    (∀ (f : Nat) (st0 : DesState), st0.index < len → (st0.inp.read_bit eof).1 = 0 →
      (len - st0.index).toNat < f + 1 →
      ∃ (st2 st3 st4 st5 : DesState) (lp rp : Option Nat),
        st2.index = st0.index + 1 ∧
        deseriallization eof len f st2 = some (lp, st3) ∧
        st4.index = st3.index + 1 ∧ st0.index + 1 < st4.index ∧
        deseriallization eof len f st4 = some (rp, st5) ∧
        deseriallization eof len (f + 1) st0
          = some (some st0.mem.length, { st5 with mem := setC1 st5.mem st0.mem.length rp })) := by
  refine ⟨?_, ?_, ?_⟩
  · obtain ⟨r, st, ext, hrun, hp⟩ := deserializeWalk_post eof len inp
    obtain ⟨k, hk, hc⟩ := deseriallization_reads eof len _ _ _ _ hrun
    simp only [zero_add] at hk hc
    have hs := Reads_trans _ _ _ _ _ hk
      (Reads_skipBits eof (8 - st.bitcounter % 8).toNat st.inp)
    have hm := hp.mem_eq
    simp only [List.nil_append] at hm
    have hnodes : (st.mem.length : Int) ≤ max len 0 := by
      rw [hm]
      by_cases h0 : 0 ≤ len
      · have := hp.nodes_le_len (by simpa using h0)
        simp only [sub_zero] at this
        exact le_trans this (le_max_left _ _)
      · have := hp.nodes_zero (by simp only; omega)
        rw [this]
        simp
    have hcn := hp.counter_nodes
    simp only [sub_zero] at hcn
    rw [← hm] at hcn
    have hbc : st.bitcounter.toNat = k := by omega
    refine ⟨r, st, { mem := st.mem, root := r, leaves := st.leaves },
      skipBits eof (8 - st.bitcounter % 8).toNat st.inp, hrun,
      by simp only [deserialize, hrun], hnodes, by omega, by omega, ?_, ?_⟩
    · rw [hbc]
      exact hs
    · have h8 : ((8 - st.bitcounter % 8).toNat : Int) ≤ 8 := by omega
      push_cast
      omega
  · intro fuel st0 hfuel
    obtain ⟨r1, st1, ext, hrun, hp⟩ := deseriallization_post eof len fuel st0 hfuel
    exact ⟨r1, st1, hrun, hp.index_le⟩
  · intro f st0 hlt hbit hfuel
    obtain ⟨lp, st3, ext3, h3, hp3⟩ := deseriallization_post eof len f
      { st0 with mem := st0.mem ++ [HCNode.new 0 96], index := st0.index + 1,
                 inp := (st0.inp.read_bit eof).2, bitcounter := st0.bitcounter + 1 }
      (by simp only; omega)
    have hi3 := hp3.index_le
    simp only at hi3
    obtain ⟨rp, st5, ext5, h5, _⟩ := deseriallization_post eof len f
      { st3 with mem := setC0 st3.mem st0.mem.length lp, index := st3.index + 1 }
      (by simp only; omega)
    refine ⟨_, st3, _, st5, lp, rp, ?_, h3, ?_, ?_, h5, ?_⟩
    · rfl
    · rfl
    · simp only
      omega
    · rw [deseriallization_zero eof len f st0 hlt hbit, h3, Option.some_bind]
      simp only
      rw [h5, Option.some_bind]

end Huffman
